import Mathlib

/-!
# matrix-automation: lexer and stack-driven parser of `src/main.cpp`

Shallow embedding of the two engines of `src/main.cpp`:

* `Lexer` (lines 31-102): the micro-stepped scanner (`Lexer.init`, `Lexer.peek`, `Lexer.step`);
* `ParserEngine` (lines 110-284): `reset`, `triggerError`, `pushStack`, `addLog`, `step`.

Conventions of the embedding.

* A C++ `string` is a `List Char` (`Str`) and a `char` is a `Char`; string literals are written
  `"...".toList`.  `isspace` and `isdigit` are those of the "C" locale.
* `stack<string> pdaStack` is a `List Str` whose head is the top of the stack.
* `vector<Token>`, `vector<LogEntry>`, `vector<string>` are lists, `push_back` appends at the end.
* The `int` counters `expectedRowLength`, `currentRowLength`, `matrix1Cols` are `Int` (they take the
  value `-1`); `pos`, `nfaStep`, `dfaIdx`, `tokenCursor` start at `0` and are only ever incremented
  or assigned a non-negative constant, they are `Nat`.  In a run no counter exceeds the number of
  characters of the input, and no wrap-around is modelled.
* `ParserEngine::step` reads `tokenStream[tokenCursor]` without a bounds check.  Where that read is
  out of range the C++ behaviour is undefined and `ParserEngine.step` returns `none`; in every other
  case it returns `some` of the next state.  `run_defined` shows that no run from `reset` gets
  there.
* `void` member functions that update the object are functions from the state before to the state
  after.  `ParserEngine.step` is written as its first statement (`cleared`) followed by the lexing
  phase (`lexStep`) or one parser action (`parseStep`, with `semanticChecks` and `expand`).
-/

namespace MatrixAutomation

/-- A C++ `std::string`. -/
abbrev Str := List Char

/-- Line 19: `enum TokenType`. -/
inductive TokenType where
  | LBRACKET | RBRACKET | COMMA | PLUS | MINUS | MULTIPLY | NUMBER | UNKNOWN | END_TOKEN | NONE_TOKEN
  deriving DecidableEq, Repr

/-- Line 20: `struct Token`. -/
structure Token where
  type : TokenType
  value : Str
  deriving DecidableEq, Repr

/-- Line 23: `enum NFAState`. -/
inductive NFAState where
  | S_NONE | S0 | S1 | S2 | S3 | S4 | S_FINAL
  deriving DecidableEq, Repr

/-- Line 24: `enum DFAState`. -/
inductive DFAState where
  | D_NONE | D_START | D_ACCEPT
  deriving DecidableEq, Repr

/-- Line 25: `enum AnimMode`. -/
inductive AnimMode where
  | MODE_NONE | MODE_NFA | MODE_DFA
  deriving DecidableEq, Repr

open TokenType NFAState DFAState AnimMode

/-- The C library `isspace` in the "C" locale: space, `\t`, `\n`, `\v`, `\f`, `\r`. -/
def isspace (c : Char) : Bool :=
  c = ' ' || c = '\t' || c = '\n' || c = Char.ofNat 11 || c = Char.ofNat 12 || c = '\r'

/-- The C library `isdigit`: `'0'` .. `'9'`. -/
def isdigit (c : Char) : Bool :=
  decide (48 ≤ c.toNat) && decide (c.toNat ≤ 57)

/-- The C++ `std::to_string` on an integer: its decimal representation. -/
def to_string (n : Int) : Str := (toString n).toList

/-- Lines 31-43: `class Lexer` (data members). -/
structure Lexer where
  input : Str
  pos : Nat
  mode : AnimMode
  nfaState : NFAState
  nfaTarget : NFAState
  nfaStep : Nat
  dfaState : DFAState
  dfaIdx : Nat
  currentNumBuild : Str
  readyToken : Token
  finished : Bool
  deriving DecidableEq, Repr

/-- Line 42: the empty ready slot `{NONE_TOKEN, ""}`. -/
def noToken : Token := ⟨NONE_TOKEN, []⟩

/-- Lines 45-49: `Lexer::init`.  Only `input`, `pos`, `mode`, `readyToken` and `finished` are
assigned; every other member keeps the value it had. -/
def Lexer.init (l : Lexer) (s : Str) : Lexer :=
  { l with input := s, pos := 0, mode := MODE_NONE, readyToken := noToken, finished := false }

/-- Line 51: `Lexer::peek`: the character at `pos + offset`, or `0` past the end. -/
def Lexer.peek (l : Lexer) (offset : Nat) : Char :=
  if l.pos + offset ≥ l.input.length then Char.ofNat 0 else l.input.getD (l.pos + offset) (Char.ofNat 0)

/-- Line 59: the loop `while (pos < input.length() && isspace(input[pos])) pos++`.  The first
argument is the unread part of the input (from `pos` on), the second is `pos`; the result is the
value of `pos` when the loop exits. -/
def skipSpaces : Str → Nat → Nat
  | [], pos => pos
  | c :: cs, pos => if isspace c then skipSpaces cs (pos + 1) else pos

/-- Lines 66-72: the token of a single non-digit, non-space character. -/
def charToken (c : Char) : Token :=
  if c = '[' then ⟨LBRACKET, "[".toList⟩
  else if c = ']' then ⟨RBRACKET, "]".toList⟩
  else if c = ',' then ⟨COMMA, ",".toList⟩
  else if c = '+' then ⟨PLUS, "+".toList⟩
  else if c = '-' then ⟨MINUS, "-".toList⟩
  else if c = '*' then ⟨MULTIPLY, "*".toList⟩
  else ⟨UNKNOWN, [c]⟩

/-- Lines 53-101: `Lexer::step`.  Returns the `bool` result and the lexer after the call. -/
def Lexer.step (l : Lexer) : Bool × Lexer :=
  if l.readyToken.type ≠ NONE_TOKEN then (false, l)
  else if l.finished then (false, l)
  else
    match l.mode with
    | MODE_NONE =>
      let l := { l with pos := skipSpaces (l.input.drop l.pos) l.pos }
      if l.pos ≥ l.input.length then
        (false, { l with readyToken := ⟨END_TOKEN, "EOF".toList⟩, finished := true })
      else
        let c := l.peek 0
        if isdigit c then
          (true, { l with mode := MODE_NFA, nfaState := S0, nfaStep := 0, currentNumBuild := [] })
        else
          (false, { l with pos := l.pos + 1, readyToken := charToken c })
    | MODE_NFA =>
      let c := l.peek 0
      match l.nfaStep with
      | 0 => (true, { l with nfaState := S0, nfaTarget := S1,
                             currentNumBuild := l.currentNumBuild ++ [c], pos := l.pos + 1,
                             nfaStep := 1 })
      | 1 => (true, { l with nfaState := S1, nfaTarget := S2, nfaStep := 2 })
      | 2 =>
        if isdigit (l.peek 0) then (true, { l with nfaState := S2, nfaTarget := S3, nfaStep := 3 })
        else (true, { l with nfaState := S2, nfaTarget := S_FINAL, nfaStep := 5 })
      | 3 => (true, { l with nfaState := S3, nfaTarget := S4,
                             currentNumBuild := l.currentNumBuild ++ [l.peek 0], pos := l.pos + 1,
                             nfaStep := 4 })
      | 4 => (true, { l with nfaState := S4, nfaTarget := S2, nfaStep := 2 })
      | 5 => (true, { l with nfaState := S_FINAL, nfaTarget := S_NONE, mode := MODE_DFA,
                             dfaState := D_START, dfaIdx := 0 })
      | _ => (true, l)
    | MODE_DFA =>
      if l.dfaIdx ≤ l.currentNumBuild.length then
        match l.dfaState with
        | D_START =>
          if l.dfaIdx < l.currentNumBuild.length then
            (true, { l with dfaState := D_ACCEPT, dfaIdx := l.dfaIdx + 1 })
          else (false, l)
        | D_ACCEPT =>
          if l.dfaIdx < l.currentNumBuild.length then (true, { l with dfaIdx := l.dfaIdx + 1 })
          else (false, { l with mode := MODE_NONE, dfaState := D_NONE,
                                readyToken := ⟨NUMBER, l.currentNumBuild⟩ })
        | D_NONE => (false, l)
      else (false, l)

/-- Line 108: `struct LogEntry`. -/
structure LogEntry where
  input : Str
  action : Str
  stackState : Str
  deriving DecidableEq, Repr

/-- Lines 110-125: `class ParserEngine` (data members).  The head of `pdaStack` is the top. -/
structure ParserEngine where
  pdaStack : List Str
  lexer : Lexer
  tokenStream : List Token
  tokenCursor : Nat
  lexingPhase : Bool
  isLocked : Bool
  isFinished : Bool
  expectedRowLength : Int
  currentRowLength : Int
  inRow : Bool
  matrix1Cols : Int
  statusMessage : Str
  lastAction : Str
  lastOperation : Str
  justPushed : List Str
  history : List LogEntry
  deriving DecidableEq, Repr

/-- Lines 144-150 of `addLog`: the stack written bottom first, each symbol followed by a blank,
or `"empty"`. -/
def stackString (stk : List Str) : Str :=
  if stk.isEmpty then "empty".toList
  else (stk.reverse.map (fun v => v ++ " ".toList)).flatten

/-- Lines 143-153: `ParserEngine::addLog`. -/
def ParserEngine.addLog (e : ParserEngine) (act : Str) : ParserEngine :=
  let inStr : Str :=
    if e.lexingPhase then "LEX".toList
    else match e.tokenStream[e.tokenCursor]? with
      | some t => t.value
      | none => "EOF".toList
  { e with history := e.history ++ [⟨inStr, act, stackString e.pdaStack⟩] }

/-- Line 137: `ParserEngine::triggerError`. -/
def ParserEngine.triggerError (e : ParserEngine) (msg : Str) : ParserEngine :=
  ({ e with statusMessage := "ERROR: ".toList ++ msg, lastAction := "STOPPED".toList,
            isLocked := true }).addLog ("ERROR: ".toList ++ msg)

/-- Lines 138-142: `ParserEngine::pushStack`.  The items are pushed in the order given, so the last
item of the list ends on top. -/
def ParserEngine.pushStack (e : ParserEngine) (items : List Str) : ParserEngine :=
  ({ e with lastOperation := "PUSH ".toList ++ to_string items.length, justPushed := items,
            pdaStack := items.reverse ++ e.pdaStack }).addLog
    ("PUSH ".toList ++ to_string items.length ++ " Rules".toList)

/-- Lines 127-135: `ParserEngine::reset`. -/
def ParserEngine.reset (e : ParserEngine) (input : Str) : ParserEngine :=
  ({ e with pdaStack := ["S".toList, "$".toList],
            lexer := e.lexer.init input, tokenStream := [], tokenCursor := 0,
            lexingPhase := true, isLocked := false, isFinished := false,
            expectedRowLength := -1, currentRowLength := 0, inRow := false, matrix1Cols := -1,
            statusMessage := "Phase 1: Lexing".toList, lastAction := "Init".toList,
            lastOperation := [], justPushed := [], history := [] }).addLog "Init".toList

/-- Lines 160-179: the lexing phase of `ParserEngine::step`. -/
def ParserEngine.lexStep (e : ParserEngine) : ParserEngine :=
  if e.lexer.readyToken.type ≠ NONE_TOKEN then
    let e := { e with tokenStream := e.tokenStream ++ [e.lexer.readyToken],
                      lastAction := "Lexer: Generated ".toList ++ e.lexer.readyToken.value }
    let e := e.addLog ("Token: ".toList ++ e.lexer.readyToken.value)
    let e := if e.lexer.readyToken.type = END_TOKEN then
               { e with lexingPhase := false, statusMessage := "Phase 2: Parsing (PDA)".toList,
                        lastAction := "Lexing Done. Starting PDA.".toList }
             else e
    { e with lexer := { e.lexer with readyToken := noToken } }
  else
    let r := e.lexer.step
    let e := { e with lexer := r.2 }
    if r.1 then
      if e.lexer.mode = MODE_NFA then { e with lastAction := "Lexer: 1. NFA Running...".toList }
      else if e.lexer.mode = MODE_DFA then { e with lastAction := "Lexer: 2. DFA Verifying...".toList }
      else e
    else e

/-- Line 192: `isTerminal`. -/
def isTerminal (top : Str) : Bool :=
  top = "[".toList || top = "]".toList || top = ",".toList || top = "+".toList
    || top = "-".toList || top = "*".toList || top = "num".toList

/-- Lines 195-202: `match`. -/
def terminalMatches (top : Str) (t : TokenType) : Bool :=
  if top = "[".toList ∧ t = LBRACKET then true
  else if top = "]".toList ∧ t = RBRACKET then true
  else if top = ",".toList ∧ t = COMMA then true
  else if top = "+".toList ∧ t = PLUS then true
  else if top = "-".toList ∧ t = MINUS then true
  else if top = "*".toList ∧ t = MULTIPLY then true
  else if top = "num".toList ∧ t = NUMBER then true
  else false

/-- Lines 205-244: the semantic checks run on a terminal match.  `Except.error` is an early
`return` (after `triggerError`), `Except.ok` falls through to lines 246-247. -/
def ParserEngine.semanticChecks (e : ParserEngine) (top : Str) : Except ParserEngine ParserEngine :=
  if top = "num".toList ∧ e.inRow = true then
    .ok { e with currentRowLength := e.currentRowLength + 1 }
  else if top = "]".toList ∧ e.inRow = true then
    if e.currentRowLength < 2 then
      .error (e.triggerError "Invalid Matrix: 1x1 not allowed".toList)
    else if e.matrix1Cols ≠ -1 ∧ e.currentRowLength ≠ e.matrix1Cols then
      .error (e.triggerError ("Dimension Mismatch! Matrix 1=".toList ++ to_string e.matrix1Cols
                ++ ", Matrix 2=".toList ++ to_string e.currentRowLength))
    else if e.expectedRowLength = -1 then
      let e := { e with expectedRowLength := e.currentRowLength }
      let e := e.addLog ("Set Dim: ".toList ++ to_string e.expectedRowLength)
      .ok { e with currentRowLength := 0, inRow := false }
    else if e.currentRowLength ≠ e.expectedRowLength then
      .error (e.triggerError ("Row Mismatch! Exp ".toList ++ to_string e.expectedRowLength
                ++ ", Got ".toList ++ to_string e.currentRowLength))
    else
      .ok { e with currentRowLength := 0, inRow := false }
  else if top = "+".toList ∨ top = "-".toList ∨ top = "*".toList then
    let e := if e.expectedRowLength ≠ -1 then
               ({ e with matrix1Cols := e.expectedRowLength }).addLog
                 ("Locked Matrix 1 Dim: ".toList ++ to_string e.expectedRowLength)
             else e
    .ok { e with expectedRowLength := -1, currentRowLength := 0, inRow := false }
  else .ok e

/-- Lines 250-281: the expansion of the non-terminal `top`, which has already been popped off
`e.pdaStack`; `t` is the type of the lookahead token. -/
def ParserEngine.expand (e : ParserEngine) (top : Str) (t : TokenType) : ParserEngine :=
  if top = "S".toList then e.pushStack ["M".toList, "OP".toList, "M".toList]
  else if top = "OP".toList then
    if t = PLUS then e.pushStack ["+".toList]
    else if t = MINUS then e.pushStack ["-".toList]
    else if t = MULTIPLY then e.pushStack ["*".toList]
    else e.triggerError "Expected OP".toList
  else if top = "M".toList then e.pushStack ["Core".toList, "S_OPT".toList]
  else if top = "S_OPT".toList then
    if t = NUMBER then e.pushStack ["num".toList] else e.addLog "Epsilon".toList
  else if top = "Core".toList then
    if t = LBRACKET then e.pushStack ["]".toList, "Inside".toList, "[".toList]
    else e.triggerError "Exp [".toList
  else if top = "Inside".toList then
    if t = LBRACKET then e.pushStack ["RowList".toList]
    else if t = NUMBER then
      { e.pushStack ["NumList".toList] with inRow := true, currentRowLength := 0 }
    else e.triggerError "Invalid".toList
  else if top = "RowList".toList then e.pushStack ["RowTail".toList, "Row".toList]
  else if top = "Row".toList then
    if t = LBRACKET then
      { e.pushStack ["]".toList, "NumList".toList, "[".toList] with
        inRow := true, currentRowLength := 0 }
    else e.triggerError "Row needs [".toList
  else if top = "RowTail".toList then
    if t = COMMA then e.pushStack ["RowList".toList, ",".toList] else e.addLog "Epsilon".toList
  else if top = "NumList".toList then
    if t = NUMBER then e.pushStack ["NumTail".toList, "num".toList]
    else e.triggerError "Exp Num".toList
  else if top = "NumTail".toList then
    if t = COMMA then e.pushStack ["NumList".toList, ",".toList] else e.addLog "Epsilon".toList
  else e

/-- Lines 186-282: one parser action, for the stack `top :: rest` (`e.pdaStack = top :: rest`) and
the lookahead token `currentToken`. -/
def ParserEngine.parseStep (e : ParserEngine) (top : Str) (rest : List Str) (currentToken : Token) :
    ParserEngine :=
  if top = "$".toList then
    if currentToken.type = END_TOKEN then
      ({ e with statusMessage := "ACCEPTED".toList, lastAction := "Done".toList,
                isFinished := true, pdaStack := rest }).addLog "ACCEPTED".toList
    else e.triggerError "Trailing characters found".toList
  else if isTerminal top then
    if terminalMatches top currentToken.type then
      match e.semanticChecks top with
      | .error e => e
      | .ok e =>
        ({ e with lastAction := "PDA: Matched ".toList ++ top,
                  lastOperation := "POP & MATCH".toList,
                  pdaStack := rest, tokenCursor := e.tokenCursor + 1 }).addLog
          ("Match ".toList ++ top)
    else e.triggerError ("Expected ".toList ++ top)
  else
    ({ e with pdaStack := rest }).expand top currentToken.type

/-- Line 156: `justPushed.clear(); lastOperation = "";`, the first statement of `step`. -/
def ParserEngine.cleared (e : ParserEngine) : ParserEngine :=
  { e with justPushed := [], lastOperation := [] }

/-- Lines 155-283: `ParserEngine::step`.  The result is `none` exactly when the call reads
`tokenStream[tokenCursor]` (line 184) with `tokenCursor` out of range. -/
def ParserEngine.step (e : ParserEngine) : Option ParserEngine :=
  let e := e.cleared
  if e.isLocked || e.isFinished then some e
  else if e.lexingPhase then some e.lexStep
  else
    match e.pdaStack with
    | [] => some e
    | top :: rest =>
      match e.tokenStream[e.tokenCursor]? with
      | none => none
      | some currentToken => some (e.parseStep top rest currentToken)

/-- The driver loop: `n` calls of `step()`. -/
def ParserEngine.run : Nat → ParserEngine → Option ParserEngine
  | 0, e => some e
  | n + 1, e => (e.step).bind (run n)

/-- A default-constructed `Lexer` (member initialisers of lines 33-43; `pos` is uninitialised in
the source and taken as `0`). -/
def Lexer.new : Lexer :=
  { input := [], pos := 0, mode := MODE_NONE, nfaState := S_NONE, nfaTarget := S_NONE, nfaStep := 0,
    dfaState := D_NONE, dfaIdx := 0, currentNumBuild := [], readyToken := noToken,
    finished := false }

/-- A default-constructed `ParserEngine` (member initialisers of lines 112-125), the global
`engine` of line 286 before its first `reset`. -/
def ParserEngine.new : ParserEngine :=
  { pdaStack := [], lexer := Lexer.new, tokenStream := [], tokenCursor := 0, lexingPhase := true,
    isLocked := false, isFinished := false, expectedRowLength := -1, currentRowLength := 0,
    inRow := false, matrix1Cols := -1, statusMessage := [], lastAction := [], lastOperation := [],
    justPushed := [], history := [] }

/-! ## Notions used to state the properties -/

/-- `e` has halted: it is locked or finished. -/
def Halted (e : ParserEngine) : Prop := e.isLocked = true ∨ e.isFinished = true

/-- An entry of the history whose action starts with `"ERROR"`. -/
def IsErrorEntry (h : LogEntry) : Prop := "ERROR".toList <+: h.action

/-- No entry of the history has an action starting with `"ERROR"`. -/
def NoErrorLogged (e : ParserEngine) : Prop := ∀ h ∈ e.history, ¬ IsErrorEntry h

/-! ## Notions used for the lexing phase -/

/-- `n` consecutive calls of `Lexer::step` that all return `true` (more micro-steps needed); the
result is the lexer after them, or `none` when one of the calls returns `false`. -/
def Lexer.stepsBusy : Nat → Lexer → Option Lexer
  | 0, l => some l
  | n + 1, l => if l.step.1 = true then stepsBusy n l.step.2 else none

/-- The lexer is idle (mode `MODE_NONE`, empty ready slot, not finished) at position `pos` of
`input`. -/
def LexIdle (l : Lexer) (input : Str) (pos : Nat) : Prop :=
  l.input = input ∧ l.pos = pos ∧ l.mode = MODE_NONE ∧ l.readyToken = noToken ∧ l.finished = false

/-- The text `s` is empty or starts with a character that is not a digit. -/
def NoDigitAhead (s : Str) : Prop := ∀ c cs, s = c :: cs → isdigit c = false

/-- The lexer is building a number (mode `MODE_NFA`) at micro-step `k`, with the digit text `build`
accumulated so far. -/
def LexNfa (l : Lexer) (input : Str) (pos : Nat) (build : Str) (k : Nat) : Prop :=
  l.input = input ∧ l.pos = pos ∧ l.mode = MODE_NFA ∧ l.nfaStep = k ∧ l.currentNumBuild = build ∧
  l.readyToken = noToken ∧ l.finished = false

/-- The lexer is verifying a number (mode `MODE_DFA`) in micro-state `st` with cursor `idx`. -/
def LexDfa (l : Lexer) (input : Str) (pos : Nat) (build : Str) (st : DFAState) (idx : Nat) : Prop :=
  l.input = input ∧ l.pos = pos ∧ l.mode = MODE_DFA ∧ l.dfaState = st ∧ l.dfaIdx = idx ∧
  l.currentNumBuild = build ∧ l.readyToken = noToken ∧ l.finished = false

/-- The lexer has just put the token `t` into the ready slot and is back in mode `MODE_NONE`. -/
def LexReady (l : Lexer) (input : Str) (pos : Nat) (t : Token) : Prop :=
  l.input = input ∧ l.pos = pos ∧ l.mode = MODE_NONE ∧ l.readyToken = t ∧ l.finished = false

/-- The parser-relevant part of an engine state in the parsing phase. -/
structure PConf where
  stack : List Str
  cursor : Nat
  exp : Int
  crl : Int
  m1 : Int
  inRow : Bool

/-- The engine `e` is an active (neither locked nor finished) parsing-phase state over the token
stream `toks` whose stack, cursor and counters are those of `c`. -/
def InConf (toks : List Token) (c : PConf) (e : ParserEngine) : Prop :=
  e.lexingPhase = false ∧ e.isLocked = false ∧ e.isFinished = false ∧ e.tokenStream = toks ∧
  e.pdaStack = c.stack ∧ e.tokenCursor = c.cursor ∧ e.expectedRowLength = c.exp ∧
  e.currentRowLength = c.crl ∧ e.matrix1Cols = c.m1 ∧ e.inRow = c.inRow

/-- The configuration in which parsing starts: the stack and counters left by `reset`. -/
def startConf : PConf := ⟨["S".toList, "$".toList], 0, -1, 0, -1, false⟩

/-- The engine `e` is in the lexing phase with `toks` produced so far; the parser part is as
`reset` left it. -/
def EngLex (toks : List Token) (e : ParserEngine) : Prop :=
  e.lexingPhase = true ∧ e.isLocked = false ∧ e.isFinished = false ∧ e.tokenStream = toks ∧
  e.pdaStack = ["S".toList, "$".toList] ∧ e.tokenCursor = 0 ∧ e.expectedRowLength = -1 ∧
  e.currentRowLength = 0 ∧ e.matrix1Cols = -1 ∧ e.inRow = false

/-- Line 60: the end-of-input token `{END_TOKEN, "EOF"}`. -/
def eofToken : Token := ⟨END_TOKEN, "EOF".toList⟩

/-- The pending digit run, as a `NUMBER` token, if there is one. -/
def flushNumber (pend : Str) : List Token := if pend = [] then [] else [⟨NUMBER, pend⟩]

/-- What the lexing phase computes, as one function: a left-to-right scan of the text in which
white space is skipped (line 59), a maximal run of digits becomes one `NUMBER` token (lines 62-63
and 76-99; `pend` holds the digits already read) and every other character becomes its
`charToken` (lines 65-73).  `lexing_completes` proves that the micro-stepped `Lexer.step`,
driven by `ParserEngine.step`, appends exactly these tokens to `tokenStream`. -/
def scanTokens : Str → Str → List Token
  | pend, [] => flushNumber pend
  | pend, c :: cs =>
    if isdigit c then scanTokens (pend ++ [c]) cs
    else flushNumber pend ++ (if isspace c then [] else [charToken c]) ++ scanTokens [] cs

/-- The token stream at the end of the lexing phase (`reset_lexes`): the scanned tokens followed
by the end-of-input token. -/
def tokenize (text : Str) : List Token := scanTokens [] text ++ [eofToken]

/-! ## Configurations of the parsing phase -/

/-- From every engine state in configuration `c` over the token stream `toks`, finitely many
steps lead to a state in configuration `c'`. -/
def Steps (toks : List Token) (c c' : PConf) : Prop :=
  ∀ e, InConf toks c e → ∃ n e', e.run n = some e' ∧ InConf toks c' e'

/-- The token at index `i` of `toks` exists and has type `ty`. -/
def Look (toks : List Token) (i : Nat) (ty : TokenType) : Prop :=
  ∃ t, toks[i]? = some t ∧ t.type = ty

/-- A locked, unfinished engine state: the error message recorded (as status message and as the
action of the last history entry), the stack, the cursor and the token stream. -/
def LockedWith (toks : List Token) (msg : Str) (stack : List Str) (cursor : Nat)
    (e : ParserEngine) : Prop :=
  e.isLocked = true ∧ e.isFinished = false ∧ e.statusMessage = "ERROR: ".toList ++ msg ∧
  e.pdaStack = stack ∧ e.tokenCursor = cursor ∧ e.tokenStream = toks ∧
  (∃ h, e.history.getLast? = some h ∧ h.action = "ERROR: ".toList ++ msg)

/-- From every engine state in configuration `c`, finitely many steps lead to a locked state
recording the error message `msg`, raised with the stack `stack` and the cursor at `cursor`. -/
def Fails (toks : List Token) (c : PConf) (msg : Str) (stack : List Str) (cursor : Nat) : Prop :=
  ∀ e, InConf toks c e → ∃ n e', e.run n = some e' ∧ LockedWith toks msg stack cursor e'

/-! ## The grammar -/

/-- Modelled from the spec: the non-terminals of the grammar of spec section 4.2 (the spec's
data model lists them as the closed set of non-terminal tags of `GrammarSymbol`). -/
inductive GSym where
  | S | OP | M | S_OPT | Core | Inside | RowList | Row | RowTail | NumList | NumTail
  deriving DecidableEq, Repr

/-- Modelled from the spec: derivations of the grammar of spec section 4.2, one constructor per
production, over token types.
`Derives coreFirst X w rows` says that the non-terminal `X` derives the token-type string `w`.
With `coreFirst = true` the operand production is `M -> Core S_OPT`, as the spec writes it; with
`coreFirst = false` it is `M -> S_OPT Core`; every other production is the same.
The last index lists the lengths of the rows of `w`, in order (a row is what one `Row` derives,
or the `NumList` of `Inside -> NumList`).  For `NumList` and `NumTail`, which derive the numbers
of one row, it is the singleton of the count of numbers in `w`. -/
inductive Derives (coreFirst : Bool) : GSym → List TokenType → List Nat → Prop where
  | start {a b c : List TokenType} {ra rc : List Nat} :
      Derives coreFirst .M a ra → Derives coreFirst .OP b [] → Derives coreFirst .M c rc →
      Derives coreFirst .S (a ++ b ++ c) (ra ++ rc)
  | plus : Derives coreFirst .OP [PLUS] []
  | minus : Derives coreFirst .OP [MINUS] []
  | times : Derives coreFirst .OP [MULTIPLY] []
  | operandCoreFirst {a b : List TokenType} {r : List Nat} :
      coreFirst = true → Derives coreFirst .Core a r → Derives coreFirst .S_OPT b [] →
      Derives coreFirst .M (a ++ b) r
  | operandScalarFirst {a b : List TokenType} {r : List Nat} :
      coreFirst = false → Derives coreFirst .S_OPT b [] → Derives coreFirst .Core a r →
      Derives coreFirst .M (b ++ a) r
  | scalar : Derives coreFirst .S_OPT [NUMBER] []
  | noScalar : Derives coreFirst .S_OPT [] []
  | core {w : List TokenType} {r : List Nat} :
      Derives coreFirst .Inside w r → Derives coreFirst .Core (LBRACKET :: w ++ [RBRACKET]) r
  | insideRows {w : List TokenType} {r : List Nat} :
      Derives coreFirst .RowList w r → Derives coreFirst .Inside w r
  | insideNums {w : List TokenType} {n : Nat} :
      Derives coreFirst .NumList w [n] → Derives coreFirst .Inside w [n]
  | rowList {a b : List TokenType} {ra rb : List Nat} :
      Derives coreFirst .Row a ra → Derives coreFirst .RowTail b rb →
      Derives coreFirst .RowList (a ++ b) (ra ++ rb)
  | row {w : List TokenType} {n : Nat} :
      Derives coreFirst .NumList w [n] → Derives coreFirst .Row (LBRACKET :: w ++ [RBRACKET]) [n]
  | rowTailMore {w : List TokenType} {r : List Nat} :
      Derives coreFirst .RowList w r → Derives coreFirst .RowTail (COMMA :: w) r
  | rowTailEnd : Derives coreFirst .RowTail [] []
  | numList {w : List TokenType} {n : Nat} :
      Derives coreFirst .NumTail w [n] → Derives coreFirst .NumList (NUMBER :: w) [n + 1]
  | numTailMore {w : List TokenType} {n : Nat} :
      Derives coreFirst .NumList w [n] → Derives coreFirst .NumTail (COMMA :: w) [n]
  | numTailEnd : Derives coreFirst .NumTail [] [0]

/-! ## Texts and runs -/

/-- A non-empty string of decimal digits. -/
def DigitString (a : Str) : Prop := a ≠ [] ∧ ∀ c ∈ a, isdigit c = true

instance (a : Str) : Decidable (DigitString a) := by
  unfold DigitString
  infer_instance

/-- The strings `a1`, ..., `ak` separated by commas: `a1,a2,...,ak`. -/
def commaSep : List Str → Str
  | [] => []
  | [a] => a
  | a :: b :: rest => a ++ ',' :: commaSep (b :: rest)

/-- The text `[a1,a2,...,ak]` of a one-row operand. -/
def vectorText (as : List Str) : Str := '[' :: commaSep as ++ [']']

/-- The tokens of `a1,a2,...,ak`: a `NUMBER` for each string, with `COMMA` tokens between. -/
def numTokens : List Str → List Token
  | [] => []
  | [a] => [⟨NUMBER, a⟩]
  | a :: b :: rest => ⟨NUMBER, a⟩ :: ⟨COMMA, ",".toList⟩ :: numTokens (b :: rest)

/-- The tokens of `[a1,a2,...,ak]`. -/
def vectorTokens (as : List Str) : List Token :=
  ⟨LBRACKET, "[".toList⟩ :: numTokens as ++ [⟨RBRACKET, "]".toList⟩]

/-- A run from `reset(text)` that is accepted: it reaches a finished state, and every state of
the run is defined, unlocked and has no error entry in its history. -/
def AcceptedRun (prior : ParserEngine) (text : Str) : Prop :=
  (∃ n e, (prior.reset text).run n = some e ∧ e.isFinished = true) ∧
  ∀ j, ∃ e, (prior.reset text).run j = some e ∧ e.isLocked = false ∧ NoErrorLogged e

/-- A run from `reset(text)` that ends locked with the error message `msg`, raised with `stack` on
the stack and the cursor at `cursor`; every state of the run is defined and none is finished. -/
def LockedRun (prior : ParserEngine) (text : Str) (msg : Str) (stack : List Str) (cursor : Nat) :
    Prop :=
  (∃ n e, (prior.reset text).run n = some e ∧
    LockedWith (tokenize text) msg stack cursor e ∧
    ∀ j, n ≤ j → ∃ e', (prior.reset text).run j = some e' ∧ e'.isLocked = true ∧
      e'.statusMessage = "ERROR: ".toList ++ msg) ∧
  ∀ j, ∃ e, (prior.reset text).run j = some e ∧ e.isFinished = false

/-- The text `[[a1,...,ak],[b1,...,bm]]` of a matrix with two rows. -/
def twoRowText (as bs : List Str) : Str := '[' :: vectorText as ++ ',' :: vectorText bs ++ [']']

/-! ## Invariants -/

/-- The engine `e'` has the token stream, phase flag, cursor and `isFinished` flag of `e`. -/
def SameInput (e e' : ParserEngine) : Prop :=
  e'.tokenStream = e.tokenStream ∧ e'.lexingPhase = e.lexingPhase ∧
  e'.tokenCursor = e.tokenCursor ∧ e'.isFinished = e.isFinished

/-- The token stream `toks` is a list of tokens none of which is an end-of-input token, followed
by the end-of-input token. -/
def EndsOnce (toks : List Token) : Prop :=
  ∃ body, toks = body ++ [eofToken] ∧ ∀ t ∈ body, t.type ≠ END_TOKEN

/-- Invariant of the parsing phase over the token stream `toks`: the cursor is in range, no token
before the cursor is an `UNKNOWN` token, and a finished engine has its cursor on an end-of-input
token. -/
def ParseInv (toks : List Token) (e : ParserEngine) : Prop :=
  e.lexingPhase = false ∧ e.tokenStream = toks ∧ e.tokenCursor < toks.length ∧
  (∀ j, j < e.tokenCursor → ∀ t, toks[j]? = some t → t.type ≠ UNKNOWN) ∧
  (e.isFinished = true → ∃ t, toks[e.tokenCursor]? = some t ∧ t.type = END_TOKEN)

/-- The call `step()` on `e` does not read `tokenStream[tokenCursor]` out of range: either the
read of line 184 is not reached (the engine has halted, is lexing, or has an empty stack), or
`tokenCursor` is in range. -/
def ReadInRange (e : ParserEngine) : Prop :=
  e.isLocked = true ∨ e.isFinished = true ∨ e.lexingPhase = true ∨ e.pdaStack = [] ∨
  e.tokenCursor < e.tokenStream.length

instance (e : ParserEngine) : Decidable (ReadInRange e) := by
  unfold ReadInRange
  infer_instance

/-- An engine state with `isLocked` set, built from `reset("[5]")`. -/
def lockedExample : ParserEngine :=
  { ParserEngine.new.reset "[5]".toList with
    isLocked := true, lexingPhase := false, tokenCursor := 2,
    statusMessage := "ERROR: Invalid Matrix: 1x1 not allowed".toList }

/-! ## Notions used for the claims about single steps and reachable states -/

/-- Modelled from the spec: the token of one character that is neither white space nor a digit
(spec section 4.1 and claim C11): each of `[ ] , + - *` gives the token of its punctuation class
with the one-character value, any other character an `Unknown` token whose value is that
character. -/
def refCharToken (c : Char) : Token :=
  match c with
  | '[' => ⟨LBRACKET, ['[']⟩
  | ']' => ⟨RBRACKET, [']']⟩
  | ',' => ⟨COMMA, [',']⟩
  | '+' => ⟨PLUS, ['+']⟩
  | '-' => ⟨MINUS, ['-']⟩
  | '*' => ⟨MULTIPLY, ['*']⟩
  | _ => ⟨UNKNOWN, [c]⟩

/-- Modelled from the spec: the reference classifier of claim C11, scanning the text left to
right: white space is skipped, a maximal run of contiguous digits (a digit and the longest run of
digits after it) becomes one `Number` token whose value is the run, every other character becomes
its `refCharToken`.  The first argument bounds the number of tokens and skipped characters; the
length of the text is enough. -/
def refScan : Nat → Str → List Token
  | 0, _ => []
  | _ + 1, [] => []
  | fuel + 1, c :: cs =>
    if isspace c then refScan fuel cs
    else if isdigit c then
      ⟨NUMBER, c :: cs.takeWhile isdigit⟩ :: refScan fuel (cs.dropWhile isdigit)
    else refCharToken c :: refScan fuel cs

/-- Modelled from the spec: the reference token sequence of a text, its classified tokens
followed by exactly one `EndOfInput` token. -/
def refTokens (text : Str) : List Token := refScan text.length text ++ [⟨END_TOKEN, "EOF".toList⟩]

/-- An active parsing-phase state: lexing is over and the engine is neither locked nor
finished. -/
def Parsing (e : ParserEngine) : Prop :=
  e.lexingPhase = false ∧ e.isLocked = false ∧ e.isFinished = false

instance (e : ParserEngine) : Decidable (Parsing e) := by
  unfold Parsing
  infer_instance

/-- The engine `e'` has the parser members of `e`: stack, cursor, the four row-tracking counters
and the two halting flags. -/
def SameParser (e e' : ParserEngine) : Prop :=
  e'.pdaStack = e.pdaStack ∧ e'.tokenCursor = e.tokenCursor ∧
  e'.expectedRowLength = e.expectedRowLength ∧ e'.currentRowLength = e.currentRowLength ∧
  e'.matrix1Cols = e.matrix1Cols ∧ e'.inRow = e.inRow ∧ e'.isLocked = e.isLocked ∧
  e'.isFinished = e.isFinished

/-- The state after `n` calls of `step()` on the engine reset with `text` (the default-constructed
engine where a call would read out of range, which never happens). -/
def stateAfter (text : Str) (n : Nat) : ParserEngine :=
  ((ParserEngine.new.reset text).run n).getD ParserEngine.new

/-- The string that stands for a non-terminal on `pdaStack` (lines 251-281). -/
def GSym.name : GSym → Str
  | .S => "S".toList
  | .OP => "OP".toList
  | .M => "M".toList
  | .S_OPT => "S_OPT".toList
  | .Core => "Core".toList
  | .Inside => "Inside".toList
  | .RowList => "RowList".toList
  | .Row => "Row".toList
  | .RowTail => "RowTail".toList
  | .NumList => "NumList".toList
  | .NumTail => "NumTail".toList

/-- Modelled from the spec: the predictive choice of spec section 4.2, the right-hand side
(written left to right, `[]` for an epsilon choice) of the production of the grammar by which the
non-terminal is expanded on the lookahead type `la`, and `none` where no production applies.
With `coreFirst = true` the operand production is `M -> Core S_OPT`, as the spec writes it; with
`coreFirst = false` it is `M -> S_OPT Core`. -/
def production (coreFirst : Bool) : GSym → TokenType → Option (List Str)
  | .S, _ => some ["M".toList, "OP".toList, "M".toList]
  | .OP, la =>
    if la = PLUS then some ["+".toList]
    else if la = MINUS then some ["-".toList]
    else if la = MULTIPLY then some ["*".toList]
    else none
  | .M, _ =>
    if coreFirst then some ["Core".toList, "S_OPT".toList]
    else some ["S_OPT".toList, "Core".toList]
  | .S_OPT, la => if la = NUMBER then some ["num".toList] else some []
  | .Core, la => if la = LBRACKET then some ["[".toList, "Inside".toList, "]".toList] else none
  | .Inside, la =>
    if la = LBRACKET then some ["RowList".toList]
    else if la = NUMBER then some ["NumList".toList]
    else none
  | .RowList, _ => some ["Row".toList, "RowTail".toList]
  | .Row, la => if la = LBRACKET then some ["[".toList, "NumList".toList, "]".toList] else none
  | .RowTail, la => if la = COMMA then some [",".toList, "RowList".toList] else some []
  | .NumList, la => if la = NUMBER then some ["num".toList, "NumTail".toList] else none
  | .NumTail, la => if la = COMMA then some [",".toList, "NumList".toList] else some []

/-- Modelled from the spec: the token type of a terminal of the stack alphabet
(`[ ] , + - * num`), and `none` for every other stack symbol. -/
def terminalType (top : Str) : Option TokenType :=
  if top = "[".toList then some LBRACKET
  else if top = "]".toList then some RBRACKET
  else if top = ",".toList then some COMMA
  else if top = "+".toList then some PLUS
  else if top = "-".toList then some MINUS
  else if top = "*".toList then some MULTIPLY
  else if top = "num".toList then some NUMBER
  else none

/-- Modelled from the spec: one of the three rules on closing a row fails for the counters of
`e` (spec section 4.3, rules 1 to 3): the row is shorter than two, or the width of the left
operand is known and differs, or the width of an earlier row is known and differs. -/
def RowRuleFails (e : ParserEngine) : Prop :=
  e.currentRowLength < 2 ∨ (e.matrix1Cols ≠ -1 ∧ e.currentRowLength ≠ e.matrix1Cols) ∨
  (e.expectedRowLength ≠ -1 ∧ e.currentRowLength ≠ e.expectedRowLength)

instance (e : ParserEngine) : Decidable (RowRuleFails e) := by
  unfold RowRuleFails
  infer_instance

/-- The engine `e'` has the four row-tracking counters of `e`. -/
def SameCounters (e e' : ParserEngine) : Prop :=
  e'.expectedRowLength = e.expectedRowLength ∧ e'.currentRowLength = e.currentRowLength ∧
  e'.matrix1Cols = e.matrix1Cols ∧ e'.inRow = e.inRow

/-- The stack invariant of claim C18: a finished engine has an empty stack, and the stack of an
engine that is not finished is some symbols other than the end marker on top of the end marker
`"$"`. -/
def StackInv (e : ParserEngine) : Prop :=
  (e.isFinished = true → e.pdaStack = []) ∧
  (e.isFinished = false → ∃ body, e.pdaStack = body ++ ["$".toList] ∧ "$".toList ∉ body)

/-- The error outcome of a step from `e` to `e'`: the engine is locked with the status message
`"ERROR: "` followed by `msg`, and the stack, the cursor and the four counters are those of
`e`. -/
def ErrorOutcome (e e' : ParserEngine) (msg : Str) : Prop :=
  e'.isLocked = true ∧ e'.statusMessage = "ERROR: ".toList ++ msg ∧
  e'.pdaStack = e.pdaStack ∧ e'.tokenCursor = e.tokenCursor ∧ SameCounters e e'

/-- The two expansions that open a row body (lines 264-268 and 273-277): `Inside` on a `NUMBER`
lookahead and `Row` on an `LBRACKET` lookahead. -/
def OpensRow (top : Str) (ty : TokenType) : Prop :=
  (top = "Inside".toList ∧ ty = NUMBER) ∨ (top = "Row".toList ∧ ty = LBRACKET)

instance (top : Str) (ty : TokenType) : Decidable (OpensRow top ty) := by
  unfold OpensRow
  infer_instance

/-- The operator terminals `+ - *` (line 238). -/
def isOperator (s : Str) : Bool :=
  s = "+".toList || s = "-".toList || s = "*".toList

/-- The stack symbols from which an operator terminal can still be matched: `S`, `OP` and the
operator terminals themselves. -/
def isOperatorSource (s : Str) : Bool :=
  s = "S".toList || s = "OP".toList || isOperator s

/-- The number of symbols of the stack from which an operator terminal can still be matched. -/
def opWeight (stk : List Str) : Nat := stk.countP isOperatorSource

/-- The call `step()` on `e` matches an operator terminal: `e` is an active parsing-phase state
whose stack top is one of `+ - *` and whose lookahead token has the type of that terminal. -/
def OperatorMatch (e : ParserEngine) : Prop :=
  Parsing e ∧ ∃ top rest t, e.pdaStack = top :: rest ∧ e.tokenStream[e.tokenCursor]? = some t ∧
    isOperator top = true ∧ terminalMatches top t.type = true

/-- Invariant of a run for `matrix1Cols`: at most one symbol of the stack can still yield an
operator match, and none once `matrix1Cols` is written. -/
def OperatorInv (e : ParserEngine) : Prop :=
  opWeight e.pdaStack ≤ 1 ∧ (e.matrix1Cols ≠ -1 → opWeight e.pdaStack = 0)

/-- With `n` consecutive calls of `Lexer::step` that are all made in mode `m`, all return `true`
(more micro-steps needed) and all leave the ready slot empty, the result is the lexer after them;
`none` when one of the calls is not so. -/
def Lexer.stepsIn (m : AnimMode) : Nat → Lexer → Option Lexer
  | 0, l => some l
  | n + 1, l =>
    if l.mode = m ∧ l.step.1 = true ∧ l.step.2.readyToken = noToken then stepsIn m n l.step.2
    else none

/-- A bound on the number of expansions that can follow the expansion of a stack symbol before
the next terminal comes on top: larger than the sum of the bounds of the non-terminals that any
of its right-hand sides (lines 251-281) puts in front of the first terminal. -/
def expansionRank (s : Str) : Nat :=
  if s = "S".toList then 8
  else if s = "Inside".toList then 4
  else if s = "M".toList then 3
  else if s = "RowList".toList then 3
  else 1

/-- The sum of the `expansionRank` of the stack symbols above the topmost terminal or end
marker. -/
def potential : List Str → Nat
  | [] => 0
  | s :: rest =>
    if s = "$".toList ∨ isTerminal s = true then 0 else expansionRank s + potential rest

/-- The width agreement of claim C22: `expectedRowLength` is `-1` or at least `2`, `matrix1Cols`
is `-1` or at least `2`, and they are equal when both differ from `-1`. -/
def WidthInv (e : ParserEngine) : Prop :=
  (e.expectedRowLength = -1 ∨ 2 ≤ e.expectedRowLength) ∧
  (e.matrix1Cols = -1 ∨ 2 ≤ e.matrix1Cols) ∧
  (e.expectedRowLength ≠ -1 → e.matrix1Cols ≠ -1 → e.expectedRowLength = e.matrix1Cols)

/-- A closing bracket lies on the stack above the topmost operator source. -/
def hasClose : List Str → Bool
  | [] => false
  | s :: rest =>
    if isOperatorSource s = true then false else decide (s = "]".toList) || hasClose rest

/-- Above the topmost operator source (or as the start symbol itself) the stack holds a symbol
whose expansion leads to a closing bracket that is matched with an open row body: `S`, `M`,
`Core`, `RowList`, `Row`, or `Inside` with a closing bracket or such a symbol below it. -/
def willSetWidth : List Str → Bool
  | [] => false
  | s :: rest =>
    if s = "S".toList ∨ s = "M".toList ∨ s = "Core".toList ∨ s = "RowList".toList
        ∨ s = "Row".toList then true
    else if isOperatorSource s = true then false
    else if s = "Inside".toList then hasClose rest || willSetWidth rest
    else willSetWidth rest

/-- The left operand establishes a row width: the stack `stk` still holds an operator source, and
the row width is known (`exp ≠ -1`), or a row body is open with its closing bracket above the
operator source, or a symbol above the operator source will open one. -/
def WidthPending (stk : List Str) (exp : Int) (inRow : Bool) : Prop :=
  1 ≤ opWeight stk ∧ (exp ≠ -1 ∨ (inRow = true ∧ hasClose stk = true) ∨ willSetWidth stk = true)

/-- Invariant of a run for the left operand: while the engine is not locked and `matrix1Cols`
is not yet written, the left operand still establishes a row width. -/
def OperandInv (e : ParserEngine) : Prop :=
  e.isLocked = false → e.matrix1Cols = -1 →
    WidthPending e.pdaStack e.expectedRowLength e.inRow

/-- The status message reports a row mismatch: it starts with `"ERROR: Row Mismatch"`
(`triggerError` of line 231). -/
def RowMismatchReported (e : ParserEngine) : Prop :=
  e.statusMessage.take 19 = "ERROR: Row Mismatch".toList

instance (e : ParserEngine) : Decidable (RowMismatchReported e) := by
  unfold RowMismatchReported
  infer_instance

/-- Invariant of a run for the status message: a reported row mismatch belongs to a locked engine
whose `matrix1Cols` is unwritten. -/
def MismatchInv (e : ParserEngine) : Prop :=
  RowMismatchReported e → e.isLocked = true ∧ e.matrix1Cols = -1

theorem run_add (m n : Nat) (e : ParserEngine) :
    e.run (m + n) = (e.run m).bind (ParserEngine.run n) := by
  induction m generalizing e with
  | zero => simp [ParserEngine.run]
  | succ m ih =>
    rw [Nat.add_right_comm]
    simp only [ParserEngine.run]
    cases e.step with
    | none => simp
    | some e1 => simp [ih]

theorem step_of_halted (e : ParserEngine) (h : Halted e) : e.step = some e.cleared := by
  rcases h with h | h <;> simp [ParserEngine.step, ParserEngine.cleared, h]

theorem cleared_cleared (e : ParserEngine) : e.cleared.cleared = e.cleared := rfl

theorem run_of_halted (e : ParserEngine) (h : Halted e) (n : Nat) :
    e.run (n + 1) = some e.cleared := by
  induction n generalizing e with
  | zero => simp [ParserEngine.run, step_of_halted e h]
  | succ n ih =>
    have hc : Halted e.cleared := h
    have := ih e.cleared hc
    rw [cleared_cleared] at this
    simp only [ParserEngine.run] at this ⊢
    rw [step_of_halted e h]
    simpa using this

theorem addLog_history (e : ParserEngine) (a : Str) : e.history <+: (e.addLog a).history := by
  simp [ParserEngine.addLog]

theorem triggerError_history (e : ParserEngine) (a : Str) :
    e.history <+: (e.triggerError a).history := by
  simp [ParserEngine.triggerError, ParserEngine.addLog]

theorem pushStack_history (e : ParserEngine) (a : List Str) :
    e.history <+: (e.pushStack a).history := by
  simp [ParserEngine.pushStack, ParserEngine.addLog]

theorem ite_ind {α : Type} (P : α → Prop) (c : Prop) [Decidable c] (a b : α)
    (ha : P a) (hb : P b) : P (if c then a else b) := by
  split <;> assumption

theorem expand_history (e : ParserEngine) (top : Str) (t : TokenType) :
    e.history <+: (e.expand top t).history := by
  unfold ParserEngine.expand
  repeat' refine ite_ind (fun x : ParserEngine => e.history <+: x.history) _ _ _ ?_ ?_
  all_goals
    first
      | exact pushStack_history _ _
      | exact triggerError_history _ _
      | exact addLog_history _ _
      | exact ⟨[], List.append_nil _⟩

theorem semanticChecks_history (e : ParserEngine) (top : Str) :
    match e.semanticChecks top with
    | .error e' => e.history <+: e'.history
    | .ok e' => e.history <+: e'.history := by
  unfold ParserEngine.semanticChecks
  split_ifs <;> simp [ParserEngine.triggerError, ParserEngine.addLog]

theorem parseStep_history (e : ParserEngine) (top : Str) (rest : List Str) (t : Token) :
    e.history <+: (e.parseStep top rest t).history := by
  unfold ParserEngine.parseStep
  split_ifs
  · simp [ParserEngine.addLog]
  · exact triggerError_history _ _
  · have := semanticChecks_history e top
    cases hs : e.semanticChecks top with
    | error e' => simp only [hs] at this ⊢; exact this
    | ok e' =>
      simp only [hs] at this ⊢
      exact this.trans (by simp [ParserEngine.addLog])
  · exact triggerError_history _ _
  · exact expand_history { e with pdaStack := rest } _ _

theorem lexStep_history (e : ParserEngine) : e.history <+: e.lexStep.history := by
  unfold ParserEngine.lexStep
  split_ifs <;> simp only [ParserEngine.addLog] <;> split_ifs <;> simp

theorem step_history (e e' : ParserEngine) (h : e.step = some e') : e.history <+: e'.history := by
  unfold ParserEngine.step at h
  simp only at h
  split_ifs at h with h1 h2
  · cases h; exact ⟨[], List.append_nil _⟩
  · cases h; exact lexStep_history e.cleared
  · split at h
    · cases h; exact ⟨[], List.append_nil _⟩
    · split at h
      · cases h
      · cases h; exact parseStep_history e.cleared _ _ _


theorem addLog_noError (e : ParserEngine) (a : Str) (ha : ¬ "ERROR".toList <+: a)
    (h : NoErrorLogged e) : NoErrorLogged (e.addLog a) := by
  intro x hx
  simp only [ParserEngine.addLog, List.mem_append, List.mem_singleton] at hx
  rcases hx with hx | hx
  · exact h x hx
  · subst hx; exact ha

theorem pushStack_noError (e : ParserEngine) (a : List Str)
    (h : NoErrorLogged e) : NoErrorLogged (e.pushStack a) := by
  unfold ParserEngine.pushStack
  refine addLog_noError _ _ ?_ h
  simp

theorem triggerError_isLocked (e : ParserEngine) (m : Str) : (e.triggerError m).isLocked = true := rfl

theorem expand_noError (e : ParserEngine) (top : Str) (t : TokenType)
    (hl : (e.expand top t).isLocked = false) (h : NoErrorLogged e) :
    NoErrorLogged (e.expand top t) := by
  revert hl
  unfold ParserEngine.expand
  repeat' refine ite_ind (fun x : ParserEngine => x.isLocked = false → NoErrorLogged x) _ _ _ ?_ ?_
  all_goals
    first
      | (intro hl; rw [triggerError_isLocked] at hl; cases hl)
      | exact fun _ => pushStack_noError _ _ h
      | exact fun _ => addLog_noError _ _ (by simp) h
      | exact fun _ => h


theorem noError_append (e e' : ParserEngine) (x : LogEntry) (hh : e'.history = e.history ++ [x])
    (hx : ¬ IsErrorEntry x) (h : NoErrorLogged e) : NoErrorLogged e' := by
  intro y hy
  rw [hh, List.mem_append, List.mem_singleton] at hy
  rcases hy with hy | hy
  · exact h y hy
  · subst hy; exact hx

theorem semanticChecks_noError (e : ParserEngine) (top : Str) (h : NoErrorLogged e) :
    match e.semanticChecks top with
    | .error e' => e'.isLocked = true
    | .ok e' => e'.isLocked = e.isLocked ∧ NoErrorLogged e' := by
  unfold ParserEngine.semanticChecks
  split_ifs
  all_goals first
    | exact triggerError_isLocked _ _
    | exact ⟨rfl, h⟩
    | exact ⟨rfl, noError_append e _ _ rfl (by simp [IsErrorEntry]) h⟩

theorem parseStep_noError (e : ParserEngine) (top : Str) (rest : List Str) (t : Token)
    (hl : (e.parseStep top rest t).isLocked = false) (h : NoErrorLogged e) :
    NoErrorLogged (e.parseStep top rest t) := by
  revert hl
  unfold ParserEngine.parseStep
  split_ifs
  · exact fun _ => addLog_noError _ _ (by simp) h
  · intro hl; rw [triggerError_isLocked] at hl; cases hl
  · have := semanticChecks_noError e top h
    cases hs : e.semanticChecks top with
    | error e' => simp only [hs] at this ⊢; intro hl; rw [this] at hl; cases hl
    | ok e' =>
      simp only [hs] at this ⊢
      exact fun _ => addLog_noError _ _ (by simp) this.2
  · intro hl; rw [triggerError_isLocked] at hl; cases hl
  · exact fun hl => expand_noError { e with pdaStack := rest } _ _ hl h

theorem lexStep_noError (e : ParserEngine) (h : NoErrorLogged e) : NoErrorLogged e.lexStep := by
  unfold ParserEngine.lexStep
  dsimp only
  split_ifs
  all_goals first
    | exact h
    | exact noError_append e _ _ rfl (by simp [IsErrorEntry]) h

theorem step_noError (e e' : ParserEngine) (hs : e.step = some e') (hl : e'.isLocked = false)
    (h : NoErrorLogged e) : NoErrorLogged e' := by
  unfold ParserEngine.step at hs
  simp only at hs
  split_ifs at hs with h1 h2
  · cases hs; exact h
  · cases hs; exact lexStep_noError e.cleared h
  · split at hs
    · cases hs; exact h
    · split at hs
      · cases hs
      · cases hs; exact parseStep_noError e.cleared _ _ _ hl h

theorem step_locked (e e' : ParserEngine) (hs : e.step = some e') (hl : e.isLocked = true) :
    e'.isLocked = true := by
  rw [step_of_halted e (Or.inl hl)] at hs
  cases hs; exact hl

theorem run_noError (n : Nat) (e e' : ParserEngine) (hs : e.run n = some e')
    (hl : e'.isLocked = false) (h : NoErrorLogged e) : NoErrorLogged e' := by
  induction n generalizing e with
  | zero => simp only [ParserEngine.run, Option.some.injEq] at hs; subst hs; exact h
  | succ n ih =>
    simp only [ParserEngine.run] at hs
    cases h1 : e.step with
    | none => simp [h1] at hs
    | some e1 =>
      simp only [h1, Option.some_bind] at hs
      have hl1 : e1.isLocked = false := by
        by_contra hc
        have hH : Halted e1 := Or.inl (by simpa using hc)
        cases n with
        | zero =>
          simp only [ParserEngine.run, Option.some.injEq] at hs
          subst hs; simp [hl] at hc
        | succ n =>
          rw [run_of_halted e1 hH n] at hs
          cases hs
          simp [ParserEngine.cleared] at hl
          simp [hl] at hc
      have hle : e.isLocked = false := by
        by_contra hc
        have := step_locked e e1 h1 (by simpa using hc)
        simp [hl1] at this
      exact ih e1 hs (step_noError e e1 h1 hl1 h)

/-- After halting, every later state is the halted state, up to the two fields cleared by
line 156. -/
theorem run_halted_cases (e : ParserEngine) (h : Halted e) (n : Nat) :
    e.run n = some e ∨ e.run n = some e.cleared := by
  cases n with
  | zero => left; rfl
  | succ n => right; exact run_of_halted e h n

theorem run_initial_segment (m n : Nat) (e e' : ParserEngine) (h : e.run (m + n) = some e') :
    ∃ e1, e.run m = some e1 ∧ e1.run n = some e' := by
  rw [run_add] at h
  cases h1 : e.run m with
  | none => simp [h1] at h
  | some e1 => exact ⟨e1, rfl, by simpa [h1] using h⟩

/-- A run that reaches a locked, unfinished state is defined at every length and is never
finished. -/
theorem never_finished_of_locked (e e1 : ParserEngine) (m : Nat) (h : e.run m = some e1)
    (hl : e1.isLocked = true) (hf : e1.isFinished = false) (n : Nat) :
    ∃ e2, e.run n = some e2 ∧ e2.isFinished = false := by
  rcases Nat.le_total m n with hmn | hnm
  · obtain ⟨k, rfl⟩ := Nat.exists_eq_add_of_le hmn
    rw [run_add, h, Option.some_bind]
    rcases run_halted_cases e1 (Or.inl hl) k with hk | hk
    · exact ⟨_, hk, hf⟩
    · exact ⟨_, hk, hf⟩
  · obtain ⟨k, rfl⟩ := Nat.exists_eq_add_of_le hnm
    obtain ⟨e2, h2, h3⟩ := run_initial_segment n k e e1 h
    refine ⟨e2, h2, ?_⟩
    by_contra hc
    have hH : Halted e2 := Or.inr (by simpa using hc)
    rcases run_halted_cases e2 hH k with hk | hk
    · rw [hk] at h3; cases h3; simp [hf] at hc
    · rw [hk] at h3; cases h3; simp [ParserEngine.cleared] at hf; simp [hf] at hc

/-- A run that reaches a finished, unlocked state is defined at every length and is never
locked. -/
theorem never_locked_of_finished (e e1 : ParserEngine) (m : Nat) (h : e.run m = some e1)
    (hf : e1.isFinished = true) (hl : e1.isLocked = false) (n : Nat) :
    ∃ e2, e.run n = some e2 ∧ e2.isLocked = false := by
  rcases Nat.le_total m n with hmn | hnm
  · obtain ⟨k, rfl⟩ := Nat.exists_eq_add_of_le hmn
    rw [run_add, h, Option.some_bind]
    rcases run_halted_cases e1 (Or.inr hf) k with hk | hk
    · exact ⟨_, hk, hl⟩
    · exact ⟨_, hk, hl⟩
  · obtain ⟨k, rfl⟩ := Nat.exists_eq_add_of_le hnm
    obtain ⟨e2, h2, h3⟩ := run_initial_segment n k e e1 h
    refine ⟨e2, h2, ?_⟩
    by_contra hc
    have hH : Halted e2 := Or.inl (by simpa using hc)
    rcases run_halted_cases e2 hH k with hk | hk
    · rw [hk] at h3; cases h3; simp [hl] at hc
    · rw [hk] at h3; cases h3; simp [ParserEngine.cleared] at hl; simp [hl] at hc

/-! ## The lexing phase -/

theorem isspace_of_isdigit (c : Char) (h : isdigit c = true) : isspace c = false := by
  by_contra hc
  simp only [isspace, Bool.not_eq_false, Bool.or_eq_true, decide_eq_true_eq] at hc
  rcases hc with ((((hc | hc) | hc) | hc) | hc) | hc <;> subst hc <;> revert h <;> decide

theorem skipSpaces_append (ws rest : Str) (p : Nat) (hws : ∀ c ∈ ws, isspace c = true)
    (hrest : ∀ c cs, rest = c :: cs → isspace c = false) :
    skipSpaces (ws ++ rest) p = p + ws.length := by
  induction ws generalizing p with
  | nil =>
    cases rest with
    | nil => simp [skipSpaces]
    | cons c cs => simp [skipSpaces, hrest c cs rfl]
  | cons w ws ih =>
    have hw : isspace w = true := hws w (by simp)
    have h1 := ih (p + 1) (fun c hc => hws c (by simp [hc]))
    rw [List.cons_append, skipSpaces, if_pos hw, h1, List.length_cons]
    omega

theorem stepsBusy_add (m n : Nat) (l : Lexer) :
    l.stepsBusy (m + n) = (l.stepsBusy m).bind (Lexer.stepsBusy n) := by
  induction m generalizing l with
  | zero => simp [Lexer.stepsBusy]
  | succ m ih =>
    rw [Nat.add_right_comm]
    simp only [Lexer.stepsBusy]
    split_ifs
    · exact ih _
    · rfl

theorem peek_at (l : Lexer) (pre : Str) (c : Char) (cs : Str) (hi : l.input = pre ++ c :: cs)
    (hp : l.pos = pre.length) : l.peek 0 = c := by
  have h1 : (pre ++ c :: cs)[pre.length]? = some c := by
    rw [List.getElem?_append_right (le_refl _)]; simp
  simp [Lexer.peek, hi, hp, List.getD_eq_getElem?_getD, h1]

theorem peek_end (l : Lexer) (pre : Str) (hi : l.input = pre) (hp : l.pos = pre.length) :
    l.peek 0 = Char.ofNat 0 := by
  simp [Lexer.peek, hi, hp]

theorem getElem_mid (pre ws : Str) (c : Char) (cs : Str)
    (h : pre.length + ws.length < (pre ++ (ws ++ c :: cs)).length) :
    (pre ++ (ws ++ c :: cs))[pre.length + ws.length] = c := by
  have h1 : (pre ++ (ws ++ c :: cs))[pre.length + ws.length]? = some c := by
    rw [← List.append_assoc, List.getElem?_append_right (by simp)]; simp
  rw [List.getElem?_eq_getElem h] at h1
  exact Option.some.inj h1

theorem drop_mid (pre suf : Str) : (pre ++ suf).drop pre.length = suf := by simp

theorem idle_digit (l : Lexer) (pre ws : Str) (c : Char) (cs : Str)
    (h : LexIdle l (pre ++ (ws ++ c :: cs)) pre.length) (hws : ∀ x ∈ ws, isspace x = true)
    (hc : isdigit c = true) :
    l.step.1 = true ∧ LexNfa l.step.2 (pre ++ (ws ++ c :: cs)) (pre.length + ws.length) [] 0 := by
  obtain ⟨h1, h2, h3, h4, h5⟩ := h
  have hsk : skipSpaces (ws ++ c :: cs) pre.length = pre.length + ws.length :=
    skipSpaces_append ws (c :: cs) _ hws
      (fun x xs hx => by cases hx; exact isspace_of_isdigit _ hc)
  simp [Lexer.step, LexNfa, h1, h2, h3, h4, h5, noToken, hsk, Lexer.peek, getElem_mid, hc]

theorem idle_char (l : Lexer) (pre ws : Str) (c : Char) (cs : Str)
    (h : LexIdle l (pre ++ (ws ++ c :: cs)) pre.length) (hws : ∀ x ∈ ws, isspace x = true)
    (hs : isspace c = false) (hc : isdigit c = false) :
    l.step.1 = false ∧
      LexReady l.step.2 (pre ++ (ws ++ c :: cs)) (pre.length + ws.length + 1) (charToken c) := by
  obtain ⟨h1, h2, h3, h4, h5⟩ := h
  have hsk : skipSpaces (ws ++ c :: cs) pre.length = pre.length + ws.length :=
    skipSpaces_append ws (c :: cs) _ hws (fun x xs hx => by cases hx; exact hs)
  simp [Lexer.step, LexReady, h1, h2, h3, h4, h5, noToken, hsk, Lexer.peek, getElem_mid, hc]

theorem idle_end (l : Lexer) (pre ws : Str)
    (h : LexIdle l (pre ++ ws) pre.length) (hws : ∀ x ∈ ws, isspace x = true) :
    l.step.1 = false ∧ l.step.2.readyToken = ⟨END_TOKEN, "EOF".toList⟩ := by
  obtain ⟨h1, h2, h3, h4, h5⟩ := h
  have hsk : skipSpaces (ws ++ []) pre.length = pre.length + ws.length :=
    skipSpaces_append ws [] _ hws (fun x xs hx => by cases hx)
  rw [List.append_nil] at hsk
  simp [Lexer.step, h1, h2, h3, h4, h5, noToken, hsk]

theorem nfa0 (l : Lexer) (pre : Str) (c : Char) (cs b : Str)
    (h : LexNfa l (pre ++ c :: cs) pre.length b 0) :
    l.step.1 = true ∧ LexNfa l.step.2 (pre ++ c :: cs) (pre.length + 1) (b ++ [c]) 1 := by
  have hp := peek_at l pre c cs h.1 h.2.1
  obtain ⟨h1, h2, h3, h4, h5, h6, h7⟩ := h
  simp [Lexer.step, LexNfa, h1, h2, h3, h4, h5, h6, h7, noToken, hp]

theorem nfa1 (l : Lexer) (input : Str) (p : Nat) (b : Str) (h : LexNfa l input p b 1) :
    l.step.1 = true ∧ LexNfa l.step.2 input p b 2 := by
  obtain ⟨h1, h2, h3, h4, h5, h6, h7⟩ := h
  simp [Lexer.step, LexNfa, h1, h2, h3, h4, h5, h6, h7, noToken]

theorem nfa2_more (l : Lexer) (pre : Str) (c : Char) (cs b : Str)
    (h : LexNfa l (pre ++ c :: cs) pre.length b 2) (hc : isdigit c = true) :
    l.step.1 = true ∧ LexNfa l.step.2 (pre ++ c :: cs) pre.length b 3 := by
  have hp := peek_at l pre c cs h.1 h.2.1
  obtain ⟨h1, h2, h3, h4, h5, h6, h7⟩ := h
  simp [Lexer.step, LexNfa, h1, h2, h3, h4, h5, h6, h7, noToken, hp, hc]

theorem isdigit_zero : isdigit (Char.ofNat 0) = false := by decide

theorem nfa2_done (l : Lexer) (pre rest b : Str)
    (h : LexNfa l (pre ++ rest) pre.length b 2) (hr : NoDigitAhead rest) :
    l.step.1 = true ∧ LexNfa l.step.2 (pre ++ rest) pre.length b 5 := by
  have hp : isdigit (l.peek 0) = false := by
    cases rest with
    | nil => rw [peek_end l pre (by simpa using h.1) h.2.1]; exact isdigit_zero
    | cons c cs => rw [peek_at l pre c cs h.1 h.2.1]; exact hr c cs rfl
  obtain ⟨h1, h2, h3, h4, h5, h6, h7⟩ := h
  simp [Lexer.step, LexNfa, h1, h2, h3, h4, h5, h6, h7, noToken, hp]

theorem nfa3 (l : Lexer) (pre : Str) (c : Char) (cs b : Str)
    (h : LexNfa l (pre ++ c :: cs) pre.length b 3) :
    l.step.1 = true ∧ LexNfa l.step.2 (pre ++ c :: cs) (pre.length + 1) (b ++ [c]) 4 := by
  have hp := peek_at l pre c cs h.1 h.2.1
  obtain ⟨h1, h2, h3, h4, h5, h6, h7⟩ := h
  simp [Lexer.step, LexNfa, h1, h2, h3, h4, h5, h6, h7, noToken, hp]

theorem nfa4 (l : Lexer) (input : Str) (p : Nat) (b : Str) (h : LexNfa l input p b 4) :
    l.step.1 = true ∧ LexNfa l.step.2 input p b 2 := by
  obtain ⟨h1, h2, h3, h4, h5, h6, h7⟩ := h
  simp [Lexer.step, LexNfa, h1, h2, h3, h4, h5, h6, h7, noToken]

theorem nfa5 (l : Lexer) (input : Str) (p : Nat) (b : Str) (h : LexNfa l input p b 5) :
    l.step.1 = true ∧ LexDfa l.step.2 input p b D_START 0 := by
  obtain ⟨h1, h2, h3, h4, h5, h6, h7⟩ := h
  simp [Lexer.step, LexDfa, h1, h2, h3, h4, h5, h6, h7, noToken]

theorem dfa_start (l : Lexer) (input : Str) (p : Nat) (b : Str)
    (h : LexDfa l input p b D_START 0) (hb : 0 < b.length) :
    l.step.1 = true ∧ LexDfa l.step.2 input p b D_ACCEPT 1 := by
  obtain ⟨h1, h2, h3, h4, h5, h6, h7, h8⟩ := h
  simp [Lexer.step, LexDfa, h1, h2, h3, h4, h5, h6, h7, h8, noToken, hb]

theorem dfa_accept (l : Lexer) (input : Str) (p : Nat) (b : Str) (i : Nat)
    (h : LexDfa l input p b D_ACCEPT i) (hb : i < b.length) :
    l.step.1 = true ∧ LexDfa l.step.2 input p b D_ACCEPT (i + 1) := by
  obtain ⟨h1, h2, h3, h4, h5, h6, h7, h8⟩ := h
  simp [Lexer.step, LexDfa, h1, h2, h3, h4, h5, h6, h7, h8, noToken, hb, Nat.le_of_lt hb]

theorem dfa_emit (l : Lexer) (input : Str) (p : Nat) (b : Str)
    (h : LexDfa l input p b D_ACCEPT b.length) :
    l.step.1 = false ∧ LexReady l.step.2 input p ⟨NUMBER, b⟩ := by
  obtain ⟨h1, h2, h3, h4, h5, h6, h7, h8⟩ := h
  simp [Lexer.step, LexReady, h1, h2, h3, h4, h5, h6, h7, h8, noToken]

theorem stepsBusy_succ (l : Lexer) (n : Nat) (h : l.step.1 = true) :
    l.stepsBusy (n + 1) = l.step.2.stepsBusy n := by
  simp [Lexer.stepsBusy, h]

theorem nfa_loop (ds : Str) : ∀ (l : Lexer) (pre rest b : Str),
    LexNfa l (pre ++ (ds ++ rest)) pre.length b 2 → (∀ c ∈ ds, isdigit c = true) →
    NoDigitAhead rest →
    ∃ l', l.stepsBusy (3 * ds.length + 1) = some l' ∧
      LexNfa l' (pre ++ (ds ++ rest)) (pre.length + ds.length) (b ++ ds) 5 := by
  induction ds with
  | nil =>
    intro l pre rest b h _ hr
    obtain ⟨h1, h2⟩ := nfa2_done l pre rest b h hr
    exact ⟨l.step.2, by simp [Lexer.stepsBusy, h1], by simpa using h2⟩
  | cons d ds ih =>
    intro l pre rest b h hd hr
    have hdd : isdigit d = true := hd d (by simp)
    obtain ⟨a1, a2⟩ := nfa2_more l pre d (ds ++ rest) b h hdd
    obtain ⟨b1, b2⟩ := nfa3 l.step.2 pre d (ds ++ rest) b a2
    obtain ⟨c1, c2⟩ := nfa4 l.step.2.step.2 _ _ _ b2
    have c3 : LexNfa l.step.2.step.2.step.2 ((pre ++ [d]) ++ (ds ++ rest)) (pre ++ [d]).length
        (b ++ [d]) 2 := by simpa using c2
    obtain ⟨l', e1, e2⟩ := ih _ (pre ++ [d]) rest (b ++ [d]) c3
      (fun c hc => hd c (by simp [hc])) hr
    refine ⟨l', ?_, ?_⟩
    · have : 3 * (d :: ds).length + 1 = (3 * ds.length + 1) + 1 + 1 + 1 := by
        simp only [List.length_cons]; omega
      rw [this, stepsBusy_succ l _ a1, stepsBusy_succ _ _ b1, stepsBusy_succ _ _ c1, e1]
    · have : pre.length + (d :: ds).length = (pre ++ [d]).length + ds.length := by
        simp only [List.length_cons, List.length_append, List.length_nil]; omega
      rw [this]
      simpa using e2

theorem dfa_loop (k : Nat) : ∀ (l : Lexer) (input : Str) (p : Nat) (b : Str) (i : Nat),
    LexDfa l input p b D_ACCEPT i → i + k = b.length →
    ∃ l', l.stepsBusy k = some l' ∧ LexDfa l' input p b D_ACCEPT b.length := by
  induction k with
  | zero =>
    intro l input p b i h hi
    exact ⟨l, rfl, by simpa [← hi] using h⟩
  | succ k ih =>
    intro l input p b i h hi
    obtain ⟨a1, a2⟩ := dfa_accept l input p b i h (by omega)
    obtain ⟨l', e1, e2⟩ := ih _ input p b (i + 1) a2 (by omega)
    exact ⟨l', by rw [stepsBusy_succ l _ a1, e1], e2⟩

/-- The micro-step pipeline of one number: from the idle lexer in front of optional white space
and the maximal digit run `d :: ds`, `4 * n + 2` calls return `true` and the next one returns
`false` with the `NUMBER` token in the ready slot (`n` the length of the run). -/
theorem number_pipeline (l : Lexer) (pre ws : Str) (d : Char) (ds rest : Str)
    (h : LexIdle l (pre ++ (ws ++ (d :: ds ++ rest))) pre.length)
    (hws : ∀ x ∈ ws, isspace x = true) (hd : ∀ c ∈ d :: ds, isdigit c = true)
    (hr : NoDigitAhead rest) :
    ∃ l', l.stepsBusy (4 * (d :: ds).length + 2) = some l' ∧ l'.readyToken = noToken ∧
      l'.step.1 = false ∧
      LexReady l'.step.2 (pre ++ (ws ++ (d :: ds ++ rest)))
        (pre.length + ws.length + (d :: ds).length) ⟨NUMBER, d :: ds⟩ := by
  have hdd : isdigit d = true := hd d (by simp)
  obtain ⟨a1, a2⟩ := idle_digit l pre ws d (ds ++ rest) h hws hdd
  have a3 : LexNfa l.step.2 ((pre ++ ws) ++ d :: (ds ++ rest)) (pre ++ ws).length [] 0 := by
    simpa using a2
  obtain ⟨b1, b2⟩ := nfa0 _ (pre ++ ws) d (ds ++ rest) [] a3
  obtain ⟨c1, c2⟩ := nfa1 _ _ _ _ b2
  have c3 : LexNfa l.step.2.step.2.step.2 ((pre ++ ws ++ [d]) ++ (ds ++ rest))
      (pre ++ ws ++ [d]).length [d] 2 := by simpa using c2
  obtain ⟨l1, e1, e2⟩ := nfa_loop ds _ (pre ++ ws ++ [d]) rest [d] c3
    (fun c hc => hd c (by simp [hc])) hr
  obtain ⟨f1, f2⟩ := nfa5 _ _ _ _ e2
  obtain ⟨g1, g2⟩ := dfa_start _ _ _ _ f2 (by simp)
  obtain ⟨l2, i1, i2⟩ := dfa_loop ds.length _ _ _ _ 1 g2 (by simp; omega)
  obtain ⟨j1, j2⟩ := dfa_emit _ _ _ _ i2
  refine ⟨l2, ?_, i2.2.2.2.2.2.2.1, j1, ?_⟩
  · have : 4 * (d :: ds).length + 2
        = ((ds.length + 1 + 1) + (3 * ds.length + 1)) + 1 + 1 + 1 := by
      simp only [List.length_cons]; omega
    rw [this, stepsBusy_succ l _ a1, stepsBusy_succ _ _ b1, stepsBusy_succ _ _ c1,
      Nat.add_comm _ (3 * ds.length + 1), stepsBusy_add, e1, Option.some_bind,
      stepsBusy_succ _ _ f1, stepsBusy_succ _ _ g1, i1]
  · have : pre.length + ws.length + (d :: ds).length = (pre ++ ws ++ [d]).length + ds.length := by
      simp only [List.length_cons, List.length_append, List.length_nil]; omega
    rw [this]
    simpa using j2

theorem busy_ready (l : Lexer) (h : l.step.1 = true) : l.readyToken.type = NONE_TOKEN := by
  by_contra hc
  simp [Lexer.step, hc] at h

theorem eng_lexer_step (toks : List Token) (e : ParserEngine) (h : EngLex toks e)
    (hr : e.lexer.readyToken.type = NONE_TOKEN) :
    ∃ e', e.step = some e' ∧ EngLex toks e' ∧ e'.lexer = e.lexer.step.2 := by
  obtain ⟨h1, h2, h3, h4, h5, h6, h7, h8, h9, h10⟩ := h
  have hq : ¬ e.cleared.lexer.readyToken.type ≠ NONE_TOKEN := by
    simpa [ParserEngine.cleared] using hr
  refine ⟨e.cleared.lexStep, ?_, ?_, ?_⟩
  · simp [ParserEngine.step, ParserEngine.cleared, h1, h2, h3]
  · unfold ParserEngine.lexStep EngLex
    rw [if_neg hq]
    dsimp only
    split_ifs <;> simp [ParserEngine.cleared, *]
  · unfold ParserEngine.lexStep
    rw [if_neg hq]
    dsimp only
    split_ifs <;> simp [ParserEngine.cleared]

theorem eng_busy (toks : List Token) (n : Nat) : ∀ (e : ParserEngine) (l' : Lexer),
    EngLex toks e → e.lexer.stepsBusy n = some l' →
    ∃ e', e.run n = some e' ∧ EngLex toks e' ∧ e'.lexer = l' := by
  induction n with
  | zero =>
    intro e l' h hs
    simp only [Lexer.stepsBusy, Option.some.injEq] at hs
    exact ⟨e, rfl, h, hs⟩
  | succ n ih =>
    intro e l' h hs
    simp only [Lexer.stepsBusy] at hs
    split_ifs at hs with hb
    obtain ⟨e1, a1, a2, a3⟩ := eng_lexer_step toks e h (busy_ready _ hb)
    rw [← a3] at hs
    obtain ⟨e2, b1, b2, b3⟩ := ih e1 l' a2 hs
    exact ⟨e2, by simp [ParserEngine.run, a1, b1], b2, b3⟩

theorem eng_drain (toks : List Token) (e : ParserEngine) (input : Str) (p : Nat) (t : Token)
    (h : EngLex toks e) (hl : LexReady e.lexer input p t) (h1 : t.type ≠ NONE_TOKEN)
    (h2 : t.type ≠ END_TOKEN) :
    ∃ e', e.step = some e' ∧ EngLex (toks ++ [t]) e' ∧ LexIdle e'.lexer input p := by
  obtain ⟨g1, g2, g3, g4, g5, g6, g7, g8, g9, g10⟩ := h
  obtain ⟨l1, l2, l3, l4, l5⟩ := hl
  refine ⟨e.cleared.lexStep, ?_, ?_, ?_⟩
  · simp [ParserEngine.step, ParserEngine.cleared, g1, g2, g3]
  · simp [ParserEngine.lexStep, ParserEngine.cleared, ParserEngine.addLog, EngLex, *]
  · simp [ParserEngine.lexStep, ParserEngine.cleared, ParserEngine.addLog, LexIdle, *]

theorem eng_drain_end (toks : List Token) (e : ParserEngine)
    (h : EngLex toks e) (hl : e.lexer.readyToken = eofToken) :
    ∃ e', e.step = some e' ∧ InConf (toks ++ [eofToken]) startConf e' := by
  obtain ⟨g1, g2, g3, g4, g5, g6, g7, g8, g9, g10⟩ := h
  refine ⟨e.cleared.lexStep, ?_, ?_⟩
  · simp [ParserEngine.step, ParserEngine.cleared, g1, g2, g3]
  · simp [ParserEngine.lexStep, ParserEngine.cleared, ParserEngine.addLog, InConf, startConf,
      eofToken, *]

theorem span_decompose (p : Char → Bool) (s : Str) :
    ∃ a b, s = a ++ b ∧ (∀ c ∈ a, p c = true) ∧ (∀ c cs, b = c :: cs → p c = false) := by
  induction s with
  | nil => exact ⟨[], [], rfl, by simp, by simp⟩
  | cons x xs ih =>
    by_cases hx : p x = true
    · obtain ⟨a, b, h1, h2, h3⟩ := ih
      refine ⟨x :: a, b, by simp [h1], ?_, h3⟩
      intro c hc
      rcases List.mem_cons.mp hc with hc | hc
      · rw [hc]; exact hx
      · exact h2 c hc
    · refine ⟨[], x :: xs, rfl, by simp, ?_⟩
      intro c cs hc
      cases hc
      simpa using hx

theorem isdigit_of_isspace (c : Char) (h : isspace c = true) : isdigit c = false := by
  by_contra hc
  rw [isspace_of_isdigit c (by simpa using hc)] at h
  cases h

theorem scan_digits (ds : Str) : ∀ (pend rest : Str), (∀ c ∈ ds, isdigit c = true) →
    scanTokens pend (ds ++ rest) = scanTokens (pend ++ ds) rest := by
  induction ds with
  | nil => intro pend rest _; simp
  | cons d ds ih =>
    intro pend rest h
    have hd : isdigit d = true := h d (by simp)
    rw [List.cons_append, scanTokens, if_pos hd, ih _ _ (fun c hc => h c (by simp [hc]))]
    simp

theorem scan_flush (pend rest : Str) (hr : NoDigitAhead rest) :
    scanTokens pend rest = flushNumber pend ++ scanTokens [] rest := by
  cases rest with
  | nil => simp [scanTokens, flushNumber]
  | cons c cs =>
    have hc : isdigit c = false := hr c cs rfl
    simp [scanTokens, hc, flushNumber]

theorem scan_spaces (ws : Str) : ∀ (rest : Str), (∀ c ∈ ws, isspace c = true) →
    scanTokens [] (ws ++ rest) = scanTokens [] rest := by
  induction ws with
  | nil => intro rest _; rfl
  | cons w ws ih =>
    intro rest h
    have hw : isspace w = true := h w (by simp)
    rw [List.cons_append, scanTokens, if_neg (by simp [isdigit_of_isspace w hw]),
      ih _ (fun c hc => h c (by simp [hc]))]
    simp [flushNumber, hw]

theorem scan_char (c : Char) (cs : Str) (hs : isspace c = false) (hd : isdigit c = false) :
    scanTokens [] (c :: cs) = charToken c :: scanTokens [] cs := by
  simp [scanTokens, hs, hd, flushNumber]

theorem scan_number (d : Char) (ds rest : Str) (hd : ∀ c ∈ d :: ds, isdigit c = true)
    (hr : NoDigitAhead rest) :
    scanTokens [] (d :: ds ++ rest) = ⟨NUMBER, d :: ds⟩ :: scanTokens [] rest := by
  rw [scan_digits (d :: ds) [] rest hd, scan_flush _ _ hr]
  simp [flushNumber]

theorem charToken_type (c : Char) :
    (charToken c).type ≠ NONE_TOKEN ∧ (charToken c).type ≠ END_TOKEN := by
  unfold charToken
  split_ifs <;> simp

/-- The lexing phase completes: from an idle lexing state at position `pre.length` of the input
`pre ++ suf`, finitely many steps lead to the start of the parsing phase, with the tokens of `suf`
and then the end-of-input token appended to the token stream. -/
theorem lexing_completes (n : Nat) : ∀ (suf pre : Str) (toks : List Token) (e : ParserEngine),
    suf.length ≤ n → EngLex toks e → LexIdle e.lexer (pre ++ suf) pre.length →
    ∃ k e', e.run k = some e' ∧ InConf (toks ++ scanTokens [] suf ++ [eofToken]) startConf e' := by
  induction n with
  | zero =>
    intro suf pre toks e hn he hl
    have hsuf : suf = [] := List.length_eq_zero.mp (Nat.le_zero.mp hn)
    subst hsuf
    obtain ⟨a1, a2⟩ := idle_end e.lexer pre [] hl (by simp)
    obtain ⟨e1, b1, b2, b3⟩ := eng_lexer_step toks e he (by rw [hl.2.2.2.1]; rfl)
    obtain ⟨e2, c1, c2⟩ := eng_drain_end toks e1 b2 (by rw [b3, a2]; rfl)
    exact ⟨2, e2, by simp [ParserEngine.run, b1, c1], by simpa [scanTokens, flushNumber] using c2⟩
  | succ n ih =>
    intro suf pre toks e hn he hl
    obtain ⟨ws, rest, hsplit, hws, hrest⟩ := span_decompose isspace suf
    subst hsplit
    have hready : e.lexer.readyToken.type = NONE_TOKEN := by rw [hl.2.2.2.1]; rfl
    cases rest with
    | nil =>
      obtain ⟨a1, a2⟩ := idle_end e.lexer pre (ws ++ []) hl (by simpa using hws)
      obtain ⟨e1, b1, b2, b3⟩ := eng_lexer_step toks e he hready
      obtain ⟨e2, c1, c2⟩ := eng_drain_end toks e1 b2 (by rw [b3, a2]; rfl)
      refine ⟨2, e2, by simp [ParserEngine.run, b1, c1], ?_⟩
      rw [scan_spaces ws [] hws]
      simpa [scanTokens, flushNumber] using c2
    | cons c cs =>
      have hcs : isspace c = false := hrest c cs rfl
      by_cases hcd : isdigit c = true
      · obtain ⟨ds, rest', hsplit', hds, hrest'⟩ := span_decompose isdigit cs
        subst hsplit'
        have hdig : ∀ x ∈ c :: ds, isdigit x = true := by
          intro x hx
          rcases List.mem_cons.mp hx with hx | hx
          · rw [hx]; exact hcd
          · exact hds x hx
        have hl' : LexIdle e.lexer (pre ++ (ws ++ (c :: ds ++ rest'))) pre.length := by
          simpa using hl
        obtain ⟨l1, a1, a2, a3, a4⟩ := number_pipeline e.lexer pre ws c ds rest' hl' hws hdig hrest'
        obtain ⟨e1, b1, b2, b3⟩ := eng_busy toks _ e l1 he a1
        obtain ⟨e2, c1, c2, c3⟩ := eng_lexer_step toks e1 b2 (by rw [b3, a2]; rfl)
        rw [b3] at c3
        rw [← c3] at a4
        obtain ⟨e3, d1, d2, d3⟩ := eng_drain toks e2 _ _ _ c2 a4 (by simp) (by simp)
        have d4 : LexIdle e3.lexer ((pre ++ ws ++ c :: ds) ++ rest') (pre ++ ws ++ c :: ds).length := by
          have : (pre ++ ws ++ c :: ds).length = pre.length + ws.length + (c :: ds).length := by
            simp only [List.length_append]
          rw [this]
          simpa using d3
        obtain ⟨k, e4, f1, f2⟩ := ih rest' (pre ++ ws ++ c :: ds) _ e3
          (by simp only [List.length_append, List.length_cons] at hn; omega) d2 d4
        refine ⟨(4 * (c :: ds).length + 2) + (1 + (1 + k)), e4, ?_, ?_⟩
        · rw [run_add, b1, Option.some_bind, run_add]
          simp only [ParserEngine.run, c1, Option.some_bind]
          rw [run_add]
          simp only [ParserEngine.run, d1, Option.some_bind, f1]
        · have hsn := scan_number c ds rest' hdig hrest'
          rw [List.cons_append] at hsn
          rw [scan_spaces ws _ hws, hsn]
          simpa using f2
      · have hcd' : isdigit c = false := by simpa using hcd
        obtain ⟨a1, a2⟩ := idle_char e.lexer pre ws c cs hl hws hcs hcd'
        obtain ⟨e1, b1, b2, b3⟩ := eng_lexer_step toks e he hready
        rw [← b3] at a2
        obtain ⟨e2, c1, c2, c3⟩ := eng_drain toks e1 _ _ _ b2 a2 (charToken_type c).1
          (charToken_type c).2
        have c4 : LexIdle e2.lexer ((pre ++ ws ++ [c]) ++ cs) (pre ++ ws ++ [c]).length := by
          have : (pre ++ ws ++ [c]).length = pre.length + ws.length + 1 := by
            simp only [List.length_append, List.length_singleton]
          rw [this]
          simpa using c3
        obtain ⟨k, e3, f1, f2⟩ := ih cs (pre ++ ws ++ [c]) _ e2
          (by simp only [List.length_append, List.length_cons] at hn; omega) c2 c4
        refine ⟨1 + (1 + k), e3, ?_, ?_⟩
        · rw [run_add]
          simp only [ParserEngine.run, b1, Option.some_bind]
          rw [run_add]
          simp only [ParserEngine.run, c1, Option.some_bind, f1]
        · rw [scan_spaces ws _ hws, scan_char c cs hcs hcd']
          simpa using f2

theorem reset_engLex (prior : ParserEngine) (text : Str) : EngLex [] (prior.reset text) := by
  simp [EngLex, ParserEngine.reset, ParserEngine.addLog]

theorem reset_lexIdle (prior : ParserEngine) (text : Str) :
    LexIdle (prior.reset text).lexer text 0 := by
  simp [LexIdle, ParserEngine.reset, ParserEngine.addLog, Lexer.init]

theorem reset_noError (prior : ParserEngine) (text : Str) : NoErrorLogged (prior.reset text) := by
  intro h hh
  simp only [ParserEngine.reset, ParserEngine.addLog, List.nil_append, List.mem_singleton] at hh
  subst hh
  simp [IsErrorEntry]

/-- From `reset(text)` the lexing phase completes after finitely many steps, leaving the parser in
its start configuration over the token stream `tokenize text`. -/
theorem reset_lexes (prior : ParserEngine) (text : Str) :
    ∃ k e', (prior.reset text).run k = some e' ∧ InConf (tokenize text) startConf e' := by
  obtain ⟨k, e', h1, h2⟩ := lexing_completes text.length text [] [] (prior.reset text) (le_refl _)
    (reset_engLex prior text) (by simpa using reset_lexIdle prior text)
  exact ⟨k, e', h1, by simpa [tokenize] using h2⟩

/-! ## Single parser actions on configurations -/

theorem Steps.refl (toks : List Token) (c : PConf) : Steps toks c c :=
  fun e h => ⟨0, e, rfl, h⟩

theorem Steps.trans {toks : List Token} {c1 c2 c3 : PConf} (h12 : Steps toks c1 c2)
    (h23 : Steps toks c2 c3) : Steps toks c1 c3 := by
  intro e h
  obtain ⟨n, e1, a1, a2⟩ := h12 e h
  obtain ⟨m, e2, b1, b2⟩ := h23 e1 a2
  exact ⟨n + m, e2, by rw [run_add, a1, Option.some_bind, b1], b2⟩

theorem step_parse (e : ParserEngine) (toks : List Token) (c : PConf) (top : Str) (rest : List Str)
    (t : Token) (h : InConf toks c e) (hs : c.stack = top :: rest) (ht : toks[c.cursor]? = some t) :
    e.step = some (e.cleared.parseStep top rest t) := by
  obtain ⟨h1, h2, h3, h4, h5, h6, -⟩ := h
  simp [ParserEngine.step, ParserEngine.cleared, h1, h2, h3, h4, h5, h6, hs, ht]

theorem steps_one (toks : List Token) (c c' : PConf) (top : Str) (rest : List Str) (t : Token)
    (hs : c.stack = top :: rest) (ht : toks[c.cursor]? = some t)
    (hp : ∀ e, InConf toks c e → InConf toks c' (e.cleared.parseStep top rest t)) :
    Steps toks c c' := by
  intro e h
  refine ⟨1, e.cleared.parseStep top rest t, ?_, hp e h⟩
  simp only [ParserEngine.run, step_parse e toks c top rest t h hs ht, Option.some_bind]

theorem look_at (toks : List Token) (pre post : List TokenType) (ty : TokenType)
    (h : toks.map Token.type = pre ++ ty :: post) : Look toks pre.length ty := by
  have h1 : (toks.map Token.type)[pre.length]? = some ty := by
    rw [h, List.getElem?_append_right (le_refl _)]; simp
  rw [List.getElem?_map] at h1
  cases ht : toks[pre.length]? with
  | none => simp [ht] at h1
  | some t => exact ⟨t, ht, by simpa [ht] using h1⟩

section expansions

variable (toks : List Token) (r : List Str) (i : Nat) (x y z : Int) (b : Bool) (ty : TokenType)

theorem exp_S (hl : Look toks i ty) :
    Steps toks ⟨"S".toList :: r, i, x, y, z, b⟩
      ⟨"M".toList :: "OP".toList :: "M".toList :: r, i, x, y, z, b⟩ := by
  obtain ⟨t, ht, hty⟩ := hl
  refine steps_one toks _ _ _ r t rfl ht ?_
  rintro e ⟨h1, h2, h3, h4, h5, h6, h7, h8, h9, h10⟩
  simp [InConf, ParserEngine.parseStep, ParserEngine.expand, isTerminal, ParserEngine.pushStack,
    ParserEngine.addLog, ParserEngine.cleared, *]

theorem exp_M (hl : Look toks i ty) :
    Steps toks ⟨"M".toList :: r, i, x, y, z, b⟩
      ⟨"S_OPT".toList :: "Core".toList :: r, i, x, y, z, b⟩ := by
  obtain ⟨t, ht, hty⟩ := hl
  refine steps_one toks _ _ _ r t rfl ht ?_
  rintro e ⟨h1, h2, h3, h4, h5, h6, h7, h8, h9, h10⟩
  simp [InConf, ParserEngine.parseStep, ParserEngine.expand, isTerminal, ParserEngine.pushStack,
    ParserEngine.addLog, ParserEngine.cleared, *]

theorem exp_S_OPT_num (hl : Look toks i NUMBER) :
    Steps toks ⟨"S_OPT".toList :: r, i, x, y, z, b⟩ ⟨"num".toList :: r, i, x, y, z, b⟩ := by
  obtain ⟨t, ht, hty⟩ := hl
  refine steps_one toks _ _ _ r t rfl ht ?_
  rintro e ⟨h1, h2, h3, h4, h5, h6, h7, h8, h9, h10⟩
  simp [InConf, ParserEngine.parseStep, ParserEngine.expand, isTerminal, ParserEngine.pushStack,
    ParserEngine.addLog, ParserEngine.cleared, *]

theorem exp_S_OPT_eps (hl : Look toks i ty) (hne : ty ≠ NUMBER) :
    Steps toks ⟨"S_OPT".toList :: r, i, x, y, z, b⟩ ⟨r, i, x, y, z, b⟩ := by
  obtain ⟨t, ht, hty⟩ := hl
  subst hty
  refine steps_one toks _ _ _ r t rfl ht ?_
  rintro e ⟨h1, h2, h3, h4, h5, h6, h7, h8, h9, h10⟩
  simp [InConf, ParserEngine.parseStep, ParserEngine.expand, isTerminal, ParserEngine.pushStack,
    ParserEngine.addLog, ParserEngine.cleared, *]

theorem exp_Core (hl : Look toks i LBRACKET) :
    Steps toks ⟨"Core".toList :: r, i, x, y, z, b⟩
      ⟨"[".toList :: "Inside".toList :: "]".toList :: r, i, x, y, z, b⟩ := by
  obtain ⟨t, ht, hty⟩ := hl
  refine steps_one toks _ _ _ r t rfl ht ?_
  rintro e ⟨h1, h2, h3, h4, h5, h6, h7, h8, h9, h10⟩
  simp [InConf, ParserEngine.parseStep, ParserEngine.expand, isTerminal, ParserEngine.pushStack,
    ParserEngine.addLog, ParserEngine.cleared, *]

theorem exp_Inside_rows (hl : Look toks i LBRACKET) :
    Steps toks ⟨"Inside".toList :: r, i, x, y, z, b⟩ ⟨"RowList".toList :: r, i, x, y, z, b⟩ := by
  obtain ⟨t, ht, hty⟩ := hl
  refine steps_one toks _ _ _ r t rfl ht ?_
  rintro e ⟨h1, h2, h3, h4, h5, h6, h7, h8, h9, h10⟩
  simp [InConf, ParserEngine.parseStep, ParserEngine.expand, isTerminal, ParserEngine.pushStack,
    ParserEngine.addLog, ParserEngine.cleared, *]

theorem exp_Inside_nums (hl : Look toks i NUMBER) :
    Steps toks ⟨"Inside".toList :: r, i, x, y, z, b⟩ ⟨"NumList".toList :: r, i, x, 0, z, true⟩ := by
  obtain ⟨t, ht, hty⟩ := hl
  refine steps_one toks _ _ _ r t rfl ht ?_
  rintro e ⟨h1, h2, h3, h4, h5, h6, h7, h8, h9, h10⟩
  simp [InConf, ParserEngine.parseStep, ParserEngine.expand, isTerminal, ParserEngine.pushStack,
    ParserEngine.addLog, ParserEngine.cleared, *]

theorem exp_RowList (hl : Look toks i ty) :
    Steps toks ⟨"RowList".toList :: r, i, x, y, z, b⟩
      ⟨"Row".toList :: "RowTail".toList :: r, i, x, y, z, b⟩ := by
  obtain ⟨t, ht, hty⟩ := hl
  refine steps_one toks _ _ _ r t rfl ht ?_
  rintro e ⟨h1, h2, h3, h4, h5, h6, h7, h8, h9, h10⟩
  simp [InConf, ParserEngine.parseStep, ParserEngine.expand, isTerminal, ParserEngine.pushStack,
    ParserEngine.addLog, ParserEngine.cleared, *]

theorem exp_Row (hl : Look toks i LBRACKET) :
    Steps toks ⟨"Row".toList :: r, i, x, y, z, b⟩
      ⟨"[".toList :: "NumList".toList :: "]".toList :: r, i, x, 0, z, true⟩ := by
  obtain ⟨t, ht, hty⟩ := hl
  refine steps_one toks _ _ _ r t rfl ht ?_
  rintro e ⟨h1, h2, h3, h4, h5, h6, h7, h8, h9, h10⟩
  simp [InConf, ParserEngine.parseStep, ParserEngine.expand, isTerminal, ParserEngine.pushStack,
    ParserEngine.addLog, ParserEngine.cleared, *]

theorem exp_RowTail_more (hl : Look toks i COMMA) :
    Steps toks ⟨"RowTail".toList :: r, i, x, y, z, b⟩
      ⟨",".toList :: "RowList".toList :: r, i, x, y, z, b⟩ := by
  obtain ⟨t, ht, hty⟩ := hl
  refine steps_one toks _ _ _ r t rfl ht ?_
  rintro e ⟨h1, h2, h3, h4, h5, h6, h7, h8, h9, h10⟩
  simp [InConf, ParserEngine.parseStep, ParserEngine.expand, isTerminal, ParserEngine.pushStack,
    ParserEngine.addLog, ParserEngine.cleared, *]

theorem exp_RowTail_eps (hl : Look toks i ty) (hne : ty ≠ COMMA) :
    Steps toks ⟨"RowTail".toList :: r, i, x, y, z, b⟩ ⟨r, i, x, y, z, b⟩ := by
  obtain ⟨t, ht, hty⟩ := hl
  subst hty
  refine steps_one toks _ _ _ r t rfl ht ?_
  rintro e ⟨h1, h2, h3, h4, h5, h6, h7, h8, h9, h10⟩
  simp [InConf, ParserEngine.parseStep, ParserEngine.expand, isTerminal, ParserEngine.pushStack,
    ParserEngine.addLog, ParserEngine.cleared, *]

theorem exp_NumList (hl : Look toks i NUMBER) :
    Steps toks ⟨"NumList".toList :: r, i, x, y, z, b⟩
      ⟨"num".toList :: "NumTail".toList :: r, i, x, y, z, b⟩ := by
  obtain ⟨t, ht, hty⟩ := hl
  refine steps_one toks _ _ _ r t rfl ht ?_
  rintro e ⟨h1, h2, h3, h4, h5, h6, h7, h8, h9, h10⟩
  simp [InConf, ParserEngine.parseStep, ParserEngine.expand, isTerminal, ParserEngine.pushStack,
    ParserEngine.addLog, ParserEngine.cleared, *]

theorem exp_NumTail_more (hl : Look toks i COMMA) :
    Steps toks ⟨"NumTail".toList :: r, i, x, y, z, b⟩
      ⟨",".toList :: "NumList".toList :: r, i, x, y, z, b⟩ := by
  obtain ⟨t, ht, hty⟩ := hl
  refine steps_one toks _ _ _ r t rfl ht ?_
  rintro e ⟨h1, h2, h3, h4, h5, h6, h7, h8, h9, h10⟩
  simp [InConf, ParserEngine.parseStep, ParserEngine.expand, isTerminal, ParserEngine.pushStack,
    ParserEngine.addLog, ParserEngine.cleared, *]

theorem exp_NumTail_eps (hl : Look toks i ty) (hne : ty ≠ COMMA) :
    Steps toks ⟨"NumTail".toList :: r, i, x, y, z, b⟩ ⟨r, i, x, y, z, b⟩ := by
  obtain ⟨t, ht, hty⟩ := hl
  subst hty
  refine steps_one toks _ _ _ r t rfl ht ?_
  rintro e ⟨h1, h2, h3, h4, h5, h6, h7, h8, h9, h10⟩
  simp [InConf, ParserEngine.parseStep, ParserEngine.expand, isTerminal, ParserEngine.pushStack,
    ParserEngine.addLog, ParserEngine.cleared, *]

end expansions

section terminals

variable (toks : List Token) (r : List Str) (i : Nat) (x y z : Int) (b : Bool)

theorem match_lbracket (hl : Look toks i LBRACKET) :
    Steps toks ⟨"[".toList :: r, i, x, y, z, b⟩ ⟨r, i + 1, x, y, z, b⟩ := by
  obtain ⟨t, ht, hty⟩ := hl
  refine steps_one toks _ _ _ r t rfl ht ?_
  rintro e ⟨h1, h2, h3, h4, h5, h6, h7, h8, h9, h10⟩
  simp [InConf, ParserEngine.parseStep, ParserEngine.semanticChecks, terminalMatches, isTerminal,
    ParserEngine.addLog, ParserEngine.cleared, *]

theorem match_comma (hl : Look toks i COMMA) :
    Steps toks ⟨",".toList :: r, i, x, y, z, b⟩ ⟨r, i + 1, x, y, z, b⟩ := by
  obtain ⟨t, ht, hty⟩ := hl
  refine steps_one toks _ _ _ r t rfl ht ?_
  rintro e ⟨h1, h2, h3, h4, h5, h6, h7, h8, h9, h10⟩
  simp [InConf, ParserEngine.parseStep, ParserEngine.semanticChecks, terminalMatches, isTerminal,
    ParserEngine.addLog, ParserEngine.cleared, *]

theorem match_num_inRow (hl : Look toks i NUMBER) :
    Steps toks ⟨"num".toList :: r, i, x, y, z, true⟩ ⟨r, i + 1, x, y + 1, z, true⟩ := by
  obtain ⟨t, ht, hty⟩ := hl
  refine steps_one toks _ _ _ r t rfl ht ?_
  rintro e ⟨h1, h2, h3, h4, h5, h6, h7, h8, h9, h10⟩
  simp [InConf, ParserEngine.parseStep, ParserEngine.semanticChecks, terminalMatches, isTerminal,
    ParserEngine.addLog, ParserEngine.cleared, *]

theorem match_num_outside (hl : Look toks i NUMBER) :
    Steps toks ⟨"num".toList :: r, i, x, y, z, false⟩ ⟨r, i + 1, x, y, z, false⟩ := by
  obtain ⟨t, ht, hty⟩ := hl
  refine steps_one toks _ _ _ r t rfl ht ?_
  rintro e ⟨h1, h2, h3, h4, h5, h6, h7, h8, h9, h10⟩
  simp [InConf, ParserEngine.parseStep, ParserEngine.semanticChecks, terminalMatches, isTerminal,
    ParserEngine.addLog, ParserEngine.cleared, *]

theorem match_rbracket_row (hl : Look toks i RBRACKET) (hy : 2 ≤ y) (hz : z = -1 ∨ z = y)
    (hx : x = -1 ∨ x = y) :
    Steps toks ⟨"]".toList :: r, i, x, y, z, true⟩ ⟨r, i + 1, y, 0, z, false⟩ := by
  obtain ⟨t, ht, hty⟩ := hl
  refine steps_one toks _ _ _ r t rfl ht ?_
  rintro e ⟨h1, h2, h3, h4, h5, h6, h7, h8, h9, h10⟩
  simp only at h5 h6 h7 h8 h9 h10
  have hy' : ¬ y < 2 := by omega
  have hz' : ¬ (z ≠ -1 ∧ y ≠ z) := by omega
  rcases hx with hx | hx
  · subst hx
    simp [InConf, ParserEngine.parseStep, ParserEngine.semanticChecks, terminalMatches,
      isTerminal, ParserEngine.triggerError, ParserEngine.addLog, ParserEngine.cleared, *]
  · subst hx
    have hx1 : ¬ x = -1 := by omega
    simp [InConf, ParserEngine.parseStep, ParserEngine.semanticChecks, terminalMatches,
      isTerminal, ParserEngine.triggerError, ParserEngine.addLog, ParserEngine.cleared, *]

theorem match_rbracket_outside (hl : Look toks i RBRACKET) :
    Steps toks ⟨"]".toList :: r, i, x, y, z, false⟩ ⟨r, i + 1, x, y, z, false⟩ := by
  obtain ⟨t, ht, hty⟩ := hl
  refine steps_one toks _ _ _ r t rfl ht ?_
  rintro e ⟨h1, h2, h3, h4, h5, h6, h7, h8, h9, h10⟩
  simp [InConf, ParserEngine.parseStep, ParserEngine.semanticChecks, terminalMatches, isTerminal,
    ParserEngine.addLog, ParserEngine.cleared, *]

/-- The operator tokens and the stack symbols that match them. -/
theorem operator_step (ty : TokenType) (hop : ty = PLUS ∨ ty = MINUS ∨ ty = MULTIPLY)
    (hl : Look toks i ty) (hx : x ≠ -1) :
    Steps toks ⟨"OP".toList :: r, i, x, y, z, b⟩ ⟨r, i + 1, -1, 0, x, false⟩ := by
  obtain ⟨t, ht, hty⟩ := hl
  rcases hop with hop | hop | hop
  · subst hop
    refine @Steps.trans toks _ ⟨"+".toList :: r, i, x, y, z, b⟩ _ ?_ ?_
    · refine steps_one toks _ _ _ r t rfl ht ?_
      rintro e ⟨h1, h2, h3, h4, h5, h6, h7, h8, h9, h10⟩
      simp [InConf, ParserEngine.parseStep, ParserEngine.expand, isTerminal,
        ParserEngine.pushStack, ParserEngine.addLog, ParserEngine.cleared, *]
    · refine steps_one toks _ _ _ r t rfl ht ?_
      rintro e ⟨h1, h2, h3, h4, h5, h6, h7, h8, h9, h10⟩
      simp only at h5 h6 h7 h8 h9 h10
      simp [InConf, ParserEngine.parseStep, ParserEngine.semanticChecks, terminalMatches,
        isTerminal, ParserEngine.addLog, ParserEngine.cleared, *]
  · subst hop
    refine @Steps.trans toks _ ⟨"-".toList :: r, i, x, y, z, b⟩ _ ?_ ?_
    · refine steps_one toks _ _ _ r t rfl ht ?_
      rintro e ⟨h1, h2, h3, h4, h5, h6, h7, h8, h9, h10⟩
      simp [InConf, ParserEngine.parseStep, ParserEngine.expand, isTerminal,
        ParserEngine.pushStack, ParserEngine.addLog, ParserEngine.cleared, *]
    · refine steps_one toks _ _ _ r t rfl ht ?_
      rintro e ⟨h1, h2, h3, h4, h5, h6, h7, h8, h9, h10⟩
      simp only at h5 h6 h7 h8 h9 h10
      simp [InConf, ParserEngine.parseStep, ParserEngine.semanticChecks, terminalMatches,
        isTerminal, ParserEngine.addLog, ParserEngine.cleared, *]
  · subst hop
    refine @Steps.trans toks _ ⟨"*".toList :: r, i, x, y, z, b⟩ _ ?_ ?_
    · refine steps_one toks _ _ _ r t rfl ht ?_
      rintro e ⟨h1, h2, h3, h4, h5, h6, h7, h8, h9, h10⟩
      simp [InConf, ParserEngine.parseStep, ParserEngine.expand, isTerminal,
        ParserEngine.pushStack, ParserEngine.addLog, ParserEngine.cleared, *]
    · refine steps_one toks _ _ _ r t rfl ht ?_
      rintro e ⟨h1, h2, h3, h4, h5, h6, h7, h8, h9, h10⟩
      simp only at h5 h6 h7 h8 h9 h10
      simp [InConf, ParserEngine.parseStep, ParserEngine.semanticChecks, terminalMatches,
        isTerminal, ParserEngine.addLog, ParserEngine.cleared, *]

end terminals

theorem Steps.fails {toks : List Token} {c1 c2 : PConf} {msg : Str} {stack : List Str}
    {cursor : Nat} (h12 : Steps toks c1 c2) (h2 : Fails toks c2 msg stack cursor) :
    Fails toks c1 msg stack cursor := by
  intro e h
  obtain ⟨n, e1, a1, a2⟩ := h12 e h
  obtain ⟨m, e2, b1, b2⟩ := h2 e1 a2
  exact ⟨n + m, e2, by rw [run_add, a1, Option.some_bind, b1], b2⟩

theorem fails_one (toks : List Token) (c : PConf) (msg : Str) (top : Str) (rest stk : List Str)
    (t : Token) (hs : c.stack = top :: rest) (ht : toks[c.cursor]? = some t)
    (hp : ∀ e, InConf toks c e →
      LockedWith toks msg stk c.cursor (e.cleared.parseStep top rest t)) :
    Fails toks c msg stk c.cursor := by
  intro e h
  refine ⟨1, e.cleared.parseStep top rest t, ?_, hp e h⟩
  simp only [ParserEngine.run, step_parse e toks c top rest t h hs ht, Option.some_bind]

section failures

variable (toks : List Token) (r : List Str) (i : Nat) (x y z : Int) (b : Bool)

theorem fail_too_small (hl : Look toks i RBRACKET) (hy : y < 2) :
    Fails toks ⟨"]".toList :: r, i, x, y, z, true⟩ "Invalid Matrix: 1x1 not allowed".toList
      ("]".toList :: r) i := by
  obtain ⟨t, ht, hty⟩ := hl
  refine fails_one toks ⟨"]".toList :: r, i, x, y, z, true⟩ _ _ r _ t rfl ht ?_
  rintro e ⟨h1, h2, h3, h4, h5, h6, h7, h8, h9, h10⟩
  simp only at h5 h6 h7 h8 h9 h10
  simp [LockedWith, ParserEngine.parseStep, ParserEngine.semanticChecks, terminalMatches,
    isTerminal, ParserEngine.triggerError, ParserEngine.addLog, ParserEngine.cleared, *]

theorem fail_dimension (hl : Look toks i RBRACKET) (hy : 2 ≤ y) (hz : z ≠ -1) (hzy : y ≠ z) :
    Fails toks ⟨"]".toList :: r, i, x, y, z, true⟩
      ("Dimension Mismatch! Matrix 1=".toList ++ to_string z ++ ", Matrix 2=".toList
        ++ to_string y)
      ("]".toList :: r) i := by
  obtain ⟨t, ht, hty⟩ := hl
  refine fails_one toks ⟨"]".toList :: r, i, x, y, z, true⟩ _ _ r _ t rfl ht ?_
  rintro e ⟨h1, h2, h3, h4, h5, h6, h7, h8, h9, h10⟩
  simp only at h5 h6 h7 h8 h9 h10
  have hy' : ¬ y < 2 := by omega
  simp [LockedWith, ParserEngine.parseStep, ParserEngine.semanticChecks, terminalMatches,
    isTerminal, ParserEngine.triggerError, ParserEngine.addLog, ParserEngine.cleared, *]

theorem fail_row (hl : Look toks i RBRACKET) (hy : 2 ≤ y) (hz : z = -1) (hx : x ≠ -1)
    (hxy : y ≠ x) :
    Fails toks ⟨"]".toList :: r, i, x, y, z, true⟩
      ("Row Mismatch! Exp ".toList ++ to_string x ++ ", Got ".toList ++ to_string y)
      ("]".toList :: r) i := by
  obtain ⟨t, ht, hty⟩ := hl
  refine fails_one toks ⟨"]".toList :: r, i, x, y, z, true⟩ _ _ r _ t rfl ht ?_
  rintro e ⟨h1, h2, h3, h4, h5, h6, h7, h8, h9, h10⟩
  simp only at h5 h6 h7 h8 h9 h10
  have hy' : ¬ y < 2 := by omega
  simp [LockedWith, ParserEngine.parseStep, ParserEngine.semanticChecks, terminalMatches,
    isTerminal, ParserEngine.triggerError, ParserEngine.addLog, ParserEngine.cleared, *]

theorem fail_operator (ty : TokenType) (hl : Look toks i ty) (h1 : ty ≠ PLUS) (h2 : ty ≠ MINUS)
    (h3 : ty ≠ MULTIPLY) :
    Fails toks ⟨"OP".toList :: r, i, x, y, z, b⟩ "Expected OP".toList r i := by
  obtain ⟨t, ht, hty⟩ := hl
  subst hty
  refine fails_one toks ⟨"OP".toList :: r, i, x, y, z, b⟩ _ _ r _ t rfl ht ?_
  rintro e ⟨g1, g2, g3, g4, g5, g6, g7, g8, g9, g10⟩
  simp only at g5 g6 g7 g8 g9 g10
  simp [LockedWith, ParserEngine.parseStep, ParserEngine.expand, isTerminal,
    ParserEngine.triggerError, ParserEngine.addLog, ParserEngine.cleared, *]

end failures

/-- Acceptance: with only the end marker on the stack and the end-of-input token as lookahead,
one step finishes the run. -/
theorem accept_step (toks : List Token) (i : Nat) (x y z : Int) (b : Bool) (e : ParserEngine)
    (hl : Look toks i END_TOKEN) (h : InConf toks ⟨["$".toList], i, x, y, z, b⟩ e) :
    ∃ e', e.step = some e' ∧ e'.isFinished = true ∧ e'.isLocked = false ∧ e'.pdaStack = [] := by
  obtain ⟨t, ht, hty⟩ := hl
  refine ⟨_, step_parse e toks _ _ [] t h rfl ht, ?_⟩
  obtain ⟨h1, h2, h3, h4, h5, h6, h7, h8, h9, h10⟩ := h
  simp [ParserEngine.parseStep, ParserEngine.addLog, ParserEngine.cleared, *]

/-! ## Parsing the strings of the grammar -/

/-- The numbers of one row are parsed: `NumList` and `NumTail`, inside an open row and in front of
the closing bracket, consume their tokens and add the count of numbers to `currentRowLength`. -/
theorem parse_numbers (cf : Bool) (toks : List Token) (X : GSym) (w : List TokenType)
    (attr : List Nat) (hd : Derives cf X w attr) :
    ∀ (pre post : List TokenType) (r : List Str) (x y z : Int) (n : Nat),
      toks.map Token.type = pre ++ w ++ RBRACKET :: post → attr = [n] →
      (X = .NumList → Steps toks ⟨"NumList".toList :: r, pre.length, x, y, z, true⟩
          ⟨r, pre.length + w.length, x, y + n, z, true⟩) ∧
      (X = .NumTail → Steps toks ⟨"NumTail".toList :: r, pre.length, x, y, z, true⟩
          ⟨r, pre.length + w.length, x, y + n, z, true⟩) := by
  induction hd with
  | @numList w' n' h ih =>
    intro pre post r x y z n hty hattr
    refine ⟨fun _ => ?_, nofun⟩
    have hn : n = n' + 1 := by simpa using hattr.symm
    subst hn
    have hl : Look toks pre.length NUMBER := look_at toks pre (w' ++ RBRACKET :: post) NUMBER
      (by simpa using hty)
    have h1 := exp_NumList toks r pre.length x y z true hl
    have h2 := match_num_inRow toks ("NumTail".toList :: r) pre.length x y z hl
    have h3 := (ih (pre ++ [NUMBER]) post r x (y + 1) z n' (by simpa using hty) rfl).2 rfl
    rw [List.length_append, List.length_singleton] at h3
    have h4 := h1.trans (h2.trans h3)
    have e1 : pre.length + 1 + w'.length = pre.length + (NUMBER :: w').length := by
      simp only [List.length_cons]; omega
    have e2 : y + 1 + (n' : Int) = y + ((n' + 1 : Nat) : Int) := by push_cast; ring
    rw [e1, e2] at h4
    exact h4
  | @numTailMore w' n' h ih =>
    intro pre post r x y z n hty hattr
    refine ⟨nofun, fun _ => ?_⟩
    have hn : n = n' := by simpa using hattr.symm
    subst hn
    have hl : Look toks pre.length COMMA := look_at toks pre (w' ++ RBRACKET :: post) COMMA
      (by simpa using hty)
    have h1 := exp_NumTail_more toks r pre.length x y z true hl
    have h2 := match_comma toks ("NumList".toList :: r) pre.length x y z true hl
    have h3 := (ih (pre ++ [COMMA]) post r x y z n (by simpa using hty) rfl).1 rfl
    rw [List.length_append, List.length_singleton] at h3
    have h4 := h1.trans (h2.trans h3)
    have e1 : pre.length + 1 + w'.length = pre.length + (COMMA :: w').length := by
      simp only [List.length_cons]; omega
    rw [e1] at h4
    exact h4
  | numTailEnd =>
    intro pre post r x y z n hty hattr
    refine ⟨nofun, fun _ => ?_⟩
    have hn : n = 0 := by simpa using hattr.symm
    subst hn
    have hl : Look toks pre.length RBRACKET := look_at toks pre post RBRACKET (by simpa using hty)
    have h1 := exp_NumTail_eps toks r pre.length x y z true RBRACKET hl (by decide)
    simpa using h1
  | _ =>
    intros
    exact ⟨nofun, nofun⟩

theorem numList_first (cf : Bool) (w : List TokenType) (attr : List Nat)
    (hd : Derives cf .NumList w attr) : ∃ w', w = NUMBER :: w' := by
  cases hd with
  | numList h => exact ⟨_, rfl⟩

theorem row_first (cf : Bool) (w : List TokenType) (attr : List Nat)
    (hd : Derives cf .Row w attr) : ∃ w', w = LBRACKET :: w' := by
  cases hd with
  | row h => exact ⟨_, rfl⟩

theorem rowList_first (cf : Bool) (w : List TokenType) (attr : List Nat)
    (hd : Derives cf .RowList w attr) : ∃ w', w = LBRACKET :: w' := by
  cases hd with
  | rowList h1 h2 =>
    obtain ⟨w', rfl⟩ := row_first cf _ _ h1
    exact ⟨_, rfl⟩

theorem core_first (cf : Bool) (w : List TokenType) (attr : List Nat)
    (hd : Derives cf .Core w attr) : ∃ w', w = LBRACKET :: w' := by
  cases hd with
  | core h => exact ⟨_, rfl⟩

/-- One row `[ n1 , ... , nk ]` is parsed: its width `n` passes the three checks and becomes (or
confirms) `expectedRowLength`. -/
theorem parse_row (cf : Bool) (toks : List Token) (w : List TokenType) (attr : List Nat)
    (hd : Derives cf .Row w attr) (pre post : List TokenType) (r : List Str) (x y z : Int)
    (b : Bool) (n : Nat) (hty : toks.map Token.type = pre ++ w ++ post)
    (hattr : ∀ k ∈ attr, k = n) (hn : 2 ≤ n) (hz : z = -1 ∨ z = n) (hx : x = -1 ∨ x = n) :
    Steps toks ⟨"Row".toList :: r, pre.length, x, y, z, b⟩
      ⟨r, pre.length + w.length, n, 0, z, false⟩ := by
  cases hd with
  | @row w' k h =>
    have hk : k = n := hattr k (by simp)
    subst hk
    have hty' : toks.map Token.type = pre ++ LBRACKET :: (w' ++ RBRACKET :: post) := by
      simpa using hty
    have hl : Look toks pre.length LBRACKET := look_at toks pre _ LBRACKET hty'
    have h1 := exp_Row toks r pre.length x y z b hl
    have h2 := match_lbracket toks ("NumList".toList :: "]".toList :: r) pre.length x 0 z true hl
    have h3 := (parse_numbers cf toks .NumList w' [k] h (pre ++ [LBRACKET]) post
      ("]".toList :: r) x 0 z k (by simpa using hty) rfl).1 rfl
    have hl4 : Look toks ((pre ++ [LBRACKET]).length + w'.length) RBRACKET := by
      rw [← List.length_append]
      exact look_at toks (pre ++ [LBRACKET] ++ w') post RBRACKET (by simpa using hty)
    have h4 := match_rbracket_row toks r ((pre ++ [LBRACKET]).length + w'.length) x (0 + k) z hl4
      (by omega) (by omega) (by omega)
    rw [List.length_append, List.length_singleton] at h3 h4
    have h5 := h1.trans (h2.trans (h3.trans h4))
    have e1 : pre.length + 1 + w'.length + 1 = pre.length + (LBRACKET :: w' ++ [RBRACKET]).length := by
      simp only [List.length_cons, List.length_append, List.length_nil]; omega
    have e2 : (0 : Int) + (k : Int) = k := by ring
    rw [e1, e2] at h5
    exact h5

/-- The rows of a matrix are parsed: every row of `RowList` (and of the `RowTail` after a first
row) has the width `n`. -/
theorem parse_rows (cf : Bool) (toks : List Token) (X : GSym) (w : List TokenType)
    (attr : List Nat) (hd : Derives cf X w attr) :
    ∀ (pre post : List TokenType) (r : List Str) (z : Int) (n : Nat),
      toks.map Token.type = pre ++ w ++ RBRACKET :: post → (∀ k ∈ attr, k = n) → 2 ≤ n →
      (z = -1 ∨ z = n) →
      (X = .RowList → ∀ (x y : Int) (b : Bool), (x = -1 ∨ x = n) →
        Steps toks ⟨"RowList".toList :: r, pre.length, x, y, z, b⟩
          ⟨r, pre.length + w.length, n, 0, z, false⟩) ∧
      (X = .RowTail →
        Steps toks ⟨"RowTail".toList :: r, pre.length, n, 0, z, false⟩
          ⟨r, pre.length + w.length, n, 0, z, false⟩) := by
  induction hd with
  | @rowList a b ra rb hrow htail _ ihtail =>
    intro pre post r z n hty hattr hn hz
    refine ⟨fun _ x y bb hx => ?_, nofun⟩
    obtain ⟨a', ha⟩ := row_first cf a ra hrow
    have hl : Look toks pre.length LBRACKET :=
      look_at toks pre (a' ++ b ++ RBRACKET :: post) LBRACKET (by simpa [ha] using hty)
    have h1 := exp_RowList toks r pre.length x y z bb LBRACKET hl
    have h2 := parse_row cf toks a ra hrow pre (b ++ RBRACKET :: post) ("RowTail".toList :: r)
      x y z bb n (by simpa using hty) (fun k hk => hattr k (by simp [hk])) hn hz hx
    have h3 := (ihtail (pre ++ a) post r z n (by simpa using hty)
      (fun k hk => hattr k (by simp [hk])) hn hz).2 rfl
    rw [List.length_append] at h3
    have h4 := h1.trans (h2.trans h3)
    have e1 : pre.length + a.length + b.length = pre.length + (a ++ b).length := by
      simp only [List.length_append]; omega
    rw [e1] at h4
    exact h4
  | @rowTailMore w' rr h ih =>
    intro pre post r z n hty hattr hn hz
    refine ⟨nofun, fun _ => ?_⟩
    have hl : Look toks pre.length COMMA := look_at toks pre (w' ++ RBRACKET :: post) COMMA
      (by simpa using hty)
    have h1 := exp_RowTail_more toks r pre.length n 0 z false hl
    have h2 := match_comma toks ("RowList".toList :: r) pre.length n 0 z false hl
    have h3 := (ih (pre ++ [COMMA]) post r z n (by simpa using hty) hattr hn hz).1 rfl n 0 false
      (Or.inr rfl)
    rw [List.length_append, List.length_singleton] at h3
    have h4 := h1.trans (h2.trans h3)
    have e1 : pre.length + 1 + w'.length = pre.length + (COMMA :: w').length := by
      simp only [List.length_cons]; omega
    rw [e1] at h4
    exact h4
  | rowTailEnd =>
    intro pre post r z n hty hattr hn hz
    refine ⟨nofun, fun _ => ?_⟩
    have hl : Look toks pre.length RBRACKET := look_at toks pre post RBRACKET (by simpa using hty)
    have h1 := exp_RowTail_eps toks r pre.length n 0 z false RBRACKET hl (by decide)
    simpa using h1
  | _ =>
    intros
    exact ⟨nofun, nofun⟩

/-- A bracketed operand `Core` is parsed: all its rows have the width `n`, which becomes
`expectedRowLength`. -/
theorem parse_core (cf : Bool) (toks : List Token) (w : List TokenType) (attr : List Nat)
    (hd : Derives cf .Core w attr) (pre post : List TokenType) (r : List Str) (x y z : Int)
    (b : Bool) (n : Nat) (hty : toks.map Token.type = pre ++ w ++ post)
    (hattr : ∀ k ∈ attr, k = n) (hn : 2 ≤ n) (hz : z = -1 ∨ z = n) (hx : x = -1 ∨ x = n) :
    Steps toks ⟨"Core".toList :: r, pre.length, x, y, z, b⟩
      ⟨r, pre.length + w.length, n, 0, z, false⟩ := by
  cases hd with
  | @core w' _ hin =>
    have hty' : toks.map Token.type = pre ++ LBRACKET :: (w' ++ RBRACKET :: post) := by
      simpa using hty
    have hl : Look toks pre.length LBRACKET := look_at toks pre _ LBRACKET hty'
    have h1 := exp_Core toks r pre.length x y z b hl
    have h2 := match_lbracket toks ("Inside".toList :: "]".toList :: r) pre.length x y z b hl
    have hl4 : Look toks (pre.length + 1 + w'.length) RBRACKET := by
      have e0 : (pre ++ [LBRACKET] ++ w').length = pre.length + 1 + w'.length := by
        simp only [List.length_append, List.length_singleton]
      rw [← e0]
      exact look_at toks (pre ++ [LBRACKET] ++ w') post RBRACKET (by simpa using hty)
    have e1 : pre.length + 1 + w'.length + 1 = pre.length + (LBRACKET :: w' ++ [RBRACKET]).length := by
      simp only [List.length_cons, List.length_append, List.length_nil]; omega
    have hty2 : toks.map Token.type = (pre ++ [LBRACKET]) ++ w' ++ RBRACKET :: post := by
      simpa using hty
    cases hin with
    | insideRows hrl =>
      obtain ⟨w'', hw⟩ := rowList_first cf w' attr hrl
      have hl3 : Look toks (pre.length + 1) LBRACKET := by
        have := look_at toks (pre ++ [LBRACKET]) (w'' ++ RBRACKET :: post) LBRACKET
          (by simpa [hw] using hty)
        simpa using this
      have h3 := exp_Inside_rows toks ("]".toList :: r) (pre.length + 1) x y z b hl3
      have h4 := (parse_rows cf toks .RowList w' attr hrl (pre ++ [LBRACKET]) post
        ("]".toList :: r) z n hty2 hattr hn hz).1 rfl x y b hx
      rw [List.length_append, List.length_singleton] at h4
      have h5 := match_rbracket_outside toks r (pre.length + 1 + w'.length) n 0 z hl4
      have h6 := h1.trans (h2.trans (h3.trans (h4.trans h5)))
      rw [e1] at h6
      exact h6
    | @insideNums _ k hnl =>
      have hk : k = n := hattr k (by simp)
      subst hk
      obtain ⟨w'', hw⟩ := numList_first cf w' _ hnl
      have hl3 : Look toks (pre.length + 1) NUMBER := by
        have := look_at toks (pre ++ [LBRACKET]) (w'' ++ RBRACKET :: post) NUMBER
          (by simpa [hw] using hty)
        simpa using this
      have h3 := exp_Inside_nums toks ("]".toList :: r) (pre.length + 1) x y z b hl3
      have h4 := (parse_numbers cf toks .NumList w' [k] hnl (pre ++ [LBRACKET]) post
        ("]".toList :: r) x 0 z k hty2 rfl).1 rfl
      rw [List.length_append, List.length_singleton] at h4
      have h5 := match_rbracket_row toks r (pre.length + 1 + w'.length) x (0 + k) z hl4
        (by omega) (by omega) (by omega)
      have h6 := h1.trans (h2.trans (h3.trans (h4.trans h5)))
      have e2 : (0 : Int) + (k : Int) = k := by ring
      rw [e1, e2] at h6
      exact h6

theorem operand_first (w : List TokenType) (attr : List Nat) (hd : Derives false .M w attr) :
    ∃ t w', w = t :: w' := by
  cases hd with
  | operandCoreFirst hcf _ _ => cases hcf
  | @operandScalarFirst a b _ _ hs hc =>
    obtain ⟨a', ha⟩ := core_first false a attr hc
    cases hs with
    | scalar => exact ⟨_, _, rfl⟩
    | noScalar => exact ⟨_, _, by rw [ha]; rfl⟩

/-- One operand `M -> S_OPT Core` is parsed (the grammar with the scalar first): all its rows
have the width `n`, which becomes `expectedRowLength`. -/
theorem parse_operand (toks : List Token) (w : List TokenType) (attr : List Nat)
    (hd : Derives false .M w attr) (pre post : List TokenType) (r : List Str) (x y z : Int)
    (n : Nat) (hty : toks.map Token.type = pre ++ w ++ post)
    (hattr : ∀ k ∈ attr, k = n) (hn : 2 ≤ n) (hz : z = -1 ∨ z = n) (hx : x = -1 ∨ x = n) :
    Steps toks ⟨"M".toList :: r, pre.length, x, y, z, false⟩
      ⟨r, pre.length + w.length, n, 0, z, false⟩ := by
  cases hd with
  | operandCoreFirst hcf _ _ => cases hcf
  | @operandScalarFirst a b _ _ hs hc =>
    obtain ⟨a', ha⟩ := core_first false a attr hc
    cases hs with
    | scalar =>
      have hl : Look toks pre.length NUMBER :=
        look_at toks pre (a ++ post) NUMBER (by simpa using hty)
      have h1 := exp_M toks r pre.length x y z false NUMBER hl
      have h2 := exp_S_OPT_num toks ("Core".toList :: r) pre.length x y z false hl
      have h3 := match_num_outside toks ("Core".toList :: r) pre.length x y z hl
      have h4 := parse_core false toks a attr hc (pre ++ [NUMBER]) post r x y z false n
        (by simpa using hty) hattr hn hz hx
      rw [List.length_append, List.length_singleton] at h4
      have h5 := h1.trans (h2.trans (h3.trans h4))
      have e1 : pre.length + 1 + a.length = pre.length + ([NUMBER] ++ a).length := by
        simp only [List.length_append, List.length_singleton]; omega
      rw [e1] at h5
      exact h5
    | noScalar =>
      have hl : Look toks pre.length LBRACKET :=
        look_at toks pre (a' ++ post) LBRACKET (by simpa [ha] using hty)
      have h1 := exp_M toks r pre.length x y z false LBRACKET hl
      have h2 := exp_S_OPT_eps toks ("Core".toList :: r) pre.length x y z false LBRACKET hl
        (by decide)
      have h4 := parse_core false toks a attr hc pre post r x y z false n
        (by simpa using hty) hattr hn hz hx
      exact h1.trans (h2.trans h4)

/-- A whole expression `S -> M OP M` is parsed: from the start configuration the parser consumes
both operands and is left with the end marker alone on the stack. -/
theorem parse_start (toks : List Token) (w : List TokenType) (attr : List Nat)
    (hd : Derives false .S w attr) (post : List TokenType) (n : Nat)
    (hty : toks.map Token.type = w ++ post) (hattr : ∀ k ∈ attr, k = n) (hn : 2 ≤ n) :
    Steps toks startConf ⟨["$".toList], w.length, n, 0, n, false⟩ := by
  cases hd with
  | @start a b c ra rc hm1 hop hm2 =>
    obtain ⟨t, a', ha⟩ := operand_first a ra hm1
    have hl : Look toks ([] : List TokenType).length t :=
      look_at toks [] (a' ++ b ++ c ++ post) t (by simpa [ha] using hty)
    have h1 := exp_S toks ["$".toList] 0 (-1) 0 (-1) false t hl
    have h2 := parse_operand toks a ra hm1 [] (b ++ c ++ post)
      ["OP".toList, "M".toList, "$".toList] (-1) 0 (-1) n (by simpa using hty)
      (fun k hk => hattr k (by simp [hk])) hn (Or.inl rfl) (Or.inl rfl)
    have hop' : ∃ ty, b = [ty] ∧ (ty = PLUS ∨ ty = MINUS ∨ ty = MULTIPLY) := by
      cases hop with
      | plus => exact ⟨_, rfl, Or.inl rfl⟩
      | minus => exact ⟨_, rfl, Or.inr (Or.inl rfl)⟩
      | times => exact ⟨_, rfl, Or.inr (Or.inr rfl)⟩
    obtain ⟨ty, hb, hty3⟩ := hop'
    subst hb
    have hl3 : Look toks a.length ty := look_at toks a (c ++ post) ty (by simpa using hty)
    have h3 := operator_step toks ["M".toList, "$".toList] a.length n 0 (-1) false ty hty3 hl3
      (by omega)
    have h4 := parse_operand toks c rc hm2 (a ++ [ty]) post ["$".toList] (-1) 0 n n
      (by simpa using hty) (fun k hk => hattr k (by simp [hk])) hn (Or.inr rfl) (Or.inl rfl)
    rw [List.length_append, List.length_singleton] at h4
    simp only [List.length_nil, Nat.zero_add] at h2
    have h5 := h1.trans (h2.trans (h3.trans h4))
    have e1 : a.length + 1 + c.length = (a ++ [ty] ++ c).length := by
      simp only [List.length_append, List.length_singleton]
    rw [e1] at h5
    exact h5

/-! ## Whole runs from reset -/

theorem acceptedRun_of_finished (prior : ParserEngine) (text : Str) (n : Nat) (e : ParserEngine)
    (h : (prior.reset text).run n = some e) (hf : e.isFinished = true) (hl : e.isLocked = false) :
    AcceptedRun prior text := by
  refine ⟨⟨n, e, h, hf⟩, fun j => ?_⟩
  obtain ⟨e', h1, h2⟩ := never_locked_of_finished _ e n h hf hl j
  exact ⟨e', h1, h2, run_noError j _ e' h1 h2 (reset_noError prior text)⟩

theorem lockedRun_of_locked (prior : ParserEngine) (text msg : Str) (stack : List Str)
    (cursor n : Nat) (e : ParserEngine) (h : (prior.reset text).run n = some e)
    (hl : LockedWith (tokenize text) msg stack cursor e) : LockedRun prior text msg stack cursor := by
  refine ⟨⟨n, e, h, hl, fun j hj => ?_⟩, fun j => ?_⟩
  · obtain ⟨k, rfl⟩ := Nat.exists_eq_add_of_le hj
    rw [run_add, h, Option.some_bind]
    rcases run_halted_cases e (Or.inl hl.1) k with hk | hk
    · exact ⟨_, hk, hl.1, hl.2.2.1⟩
    · exact ⟨_, hk, hl.1, hl.2.2.1⟩
  · exact never_finished_of_locked _ e n h hl.1 hl.2.1 j

/-- From the start of the parsing phase to a locked state: the run from `reset(text)` is a
`LockedRun`. -/
theorem lockedRun_of_fails (prior : ParserEngine) (text msg : Str) (stack : List Str)
    (cursor : Nat) (h : Fails (tokenize text) startConf msg stack cursor) :
    LockedRun prior text msg stack cursor := by
  obtain ⟨k, e0, a1, a2⟩ := reset_lexes prior text
  obtain ⟨m, e1, b1, b2⟩ := h e0 a2
  exact lockedRun_of_locked prior text msg stack cursor (k + m) e1
    (by rw [run_add, a1, Option.some_bind, b1]) b2

theorem tokenize_types (text : Str) :
    (tokenize text).map Token.type = (scanTokens [] text).map Token.type ++ [END_TOKEN] := by
  simp [tokenize, eofToken]

/-- Texts whose tokens are derivable from `S` in the grammar with `M -> S_OPT Core`, all rows
having one width `n ≥ 2`, are accepted. -/
theorem acceptedRun_of_derives (prior : ParserEngine) (text : Str) (rows : List Nat) (n : Nat)
    (hd : Derives false .S ((scanTokens [] text).map Token.type) rows) (hn : 2 ≤ n)
    (hrows : ∀ r ∈ rows, r = n) : AcceptedRun prior text := by
  obtain ⟨k, e0, a1, a2⟩ := reset_lexes prior text
  obtain ⟨m, e1, b1, b2⟩ := parse_start (tokenize text) _ rows hd [END_TOKEN] n
    (tokenize_types text) hrows hn e0 a2
  have hl : Look (tokenize text) ((scanTokens [] text).map Token.type).length END_TOKEN :=
    look_at (tokenize text) _ [] END_TOKEN (tokenize_types text)
  obtain ⟨e2, c1, c2, c3, -⟩ := accept_step (tokenize text) _ _ _ _ _ e1 hl b2
  refine acceptedRun_of_finished prior text (k + (m + 1)) e2 ?_ c2 c3
  rw [run_add, a1, Option.some_bind, run_add, b1, Option.some_bind]
  simp [ParserEngine.run, c1]

theorem scan_digitString (a rest : Str) (ha : DigitString a) (hr : NoDigitAhead rest) :
    scanTokens [] (a ++ rest) = ⟨NUMBER, a⟩ :: scanTokens [] rest := by
  obtain ⟨hne, hd⟩ := ha
  cases a with
  | nil => exact absurd rfl hne
  | cons d ds => exact scan_number d ds rest hd hr

theorem noDigitAhead_cons (c : Char) (cs : Str) (hc : isdigit c = false) :
    NoDigitAhead (c :: cs) := by
  intro x xs hx
  cases hx
  exact hc

theorem scan_commaSep (as : List Str) : ∀ (rest : Str), as ≠ [] → (∀ a ∈ as, DigitString a) →
    scanTokens [] (commaSep as ++ ']' :: rest) =
      numTokens as ++ ⟨RBRACKET, "]".toList⟩ :: scanTokens [] rest := by
  induction as with
  | nil => intro rest h; exact absurd rfl h
  | cons a tl ih =>
    intro rest _ hd
    cases tl with
    | nil =>
      simp only [commaSep, numTokens, List.singleton_append]
      rw [scan_digitString a _ (hd a (by simp)) (noDigitAhead_cons _ _ (by decide)),
        scan_char ']' rest (by decide) (by decide)]
      rfl
    | cons b tl' =>
      have h1 := ih rest (by simp) (fun x hx => hd x (by simp [hx]))
      simp only [commaSep, numTokens, List.append_assoc, List.cons_append]
      rw [scan_digitString a _ (hd a (by simp)) (noDigitAhead_cons _ _ (by decide)),
        scan_char ',' _ (by decide) (by decide), h1]
      rfl

theorem scan_vectorText (as : List Str) (rest : Str) (hne : as ≠ [])
    (hd : ∀ a ∈ as, DigitString a) :
    scanTokens [] (vectorText as ++ rest) = vectorTokens as ++ scanTokens [] rest := by
  unfold vectorText vectorTokens
  simp only [List.cons_append, List.append_assoc, List.singleton_append, List.nil_append]
  rw [scan_char '[' _ (by decide) (by decide), scan_commaSep as rest hne hd]
  rfl

theorem derives_numTokens (cf : Bool) (as : List Str) : as ≠ [] →
    Derives cf .NumList ((numTokens as).map Token.type) [as.length] := by
  induction as with
  | nil => intro h; exact absurd rfl h
  | cons a tl ih =>
    intro _
    cases tl with
    | nil => exact Derives.numList Derives.numTailEnd
    | cons b tl' =>
      have h1 := ih (by simp)
      exact Derives.numList (Derives.numTailMore h1)

theorem derives_vector (as : List Str) (hne : as ≠ []) :
    Derives false .M ((vectorTokens as).map Token.type) [as.length] := by
  have h1 : Derives false .Core ((vectorTokens as).map Token.type) [as.length] := by
    have := Derives.core (Derives.insideNums (derives_numTokens false as hne))
    simpa [vectorTokens] using this
  exact Derives.operandScalarFirst rfl Derives.noScalar h1

/-- The token of an operator character. -/
theorem charToken_operator (op : Char) (hop : op = '+' ∨ op = '-' ∨ op = '*') :
    isspace op = false ∧ isdigit op = false ∧
      Derives false .OP [(charToken op).type] [] := by
  rcases hop with h | h | h <;> subst h
  · exact ⟨by decide, by decide, Derives.plus⟩
  · exact ⟨by decide, by decide, Derives.minus⟩
  · exact ⟨by decide, by decide, Derives.times⟩

theorem scan_two_vectors (as bs : List Str) (op : Char) (hop : op = '+' ∨ op = '-' ∨ op = '*')
    (ha : as ≠ []) (hb : bs ≠ []) (hda : ∀ a ∈ as, DigitString a) (hdb : ∀ b ∈ bs, DigitString b) :
    scanTokens [] (vectorText as ++ op :: vectorText bs) =
      vectorTokens as ++ charToken op :: vectorTokens bs := by
  obtain ⟨h1, h2, -⟩ := charToken_operator op hop
  have h3 := scan_vectorText bs [] hb hdb
  rw [List.append_nil] at h3
  rw [scan_vectorText as _ ha hda, scan_char op _ h1 h2, h3]
  simp [scanTokens, flushNumber]

theorem numTokens_first (as : List Str) (hne : as ≠ []) :
    ∃ w, (numTokens as).map Token.type = NUMBER :: w := by
  cases as with
  | nil => exact absurd rfl hne
  | cons a tl =>
    cases tl with
    | nil => exact ⟨_, rfl⟩
    | cons b tl' => exact ⟨_, rfl⟩

/-- The numbers of a row are read up to its closing bracket: from `NumList` in an open row of
running length `0`, the parser reaches the closing bracket with `currentRowLength` the number of
strings. -/
theorem numbers_until_close (toks : List Token) (pre post : List TokenType) (r : List Str)
    (x z : Int) (as : List Str) (hne : as ≠ [])
    (hty : toks.map Token.type = pre ++ (numTokens as).map Token.type ++ RBRACKET :: post) :
    Steps toks ⟨"NumList".toList :: "]".toList :: r, pre.length, x, 0, z, true⟩
        ⟨"]".toList :: r, pre.length + (numTokens as).length, x, as.length, z, true⟩ ∧
      Look toks (pre.length + (numTokens as).length) RBRACKET := by
  have h1 := (parse_numbers false toks .NumList _ _ (derives_numTokens false as hne) pre post
    ("]".toList :: r) x 0 z as.length hty rfl).1 rfl
  have hl := look_at toks (pre ++ (numTokens as).map Token.type) post RBRACKET hty
  simp only [List.length_map, List.length_append, zero_add] at h1 hl
  exact ⟨h1, hl⟩

/-- A one-row operand is read up to its closing bracket. -/
theorem vector_until_close (toks : List Token) (pre post : List TokenType) (r : List Str)
    (x y z : Int) (as : List Str) (hne : as ≠ [])
    (hty : toks.map Token.type = pre ++ (vectorTokens as).map Token.type ++ post) :
    Steps toks ⟨"M".toList :: r, pre.length, x, y, z, false⟩
        ⟨"]".toList :: r, pre.length + 1 + (numTokens as).length, x, as.length, z, true⟩ ∧
      Look toks (pre.length + 1 + (numTokens as).length) RBRACKET := by
  obtain ⟨w, hw⟩ := numTokens_first as hne
  have hty1 : toks.map Token.type
      = pre ++ LBRACKET :: ((numTokens as).map Token.type ++ RBRACKET :: post) := by
    simpa [vectorTokens] using hty
  have hty2 : toks.map Token.type
      = (pre ++ [LBRACKET]) ++ (numTokens as).map Token.type ++ RBRACKET :: post := by
    simpa [vectorTokens] using hty
  have hl : Look toks pre.length LBRACKET := look_at toks pre _ LBRACKET hty1
  have hl2 : Look toks (pre.length + 1) NUMBER := by
    have := look_at toks (pre ++ [LBRACKET]) (w ++ RBRACKET :: post) NUMBER
      (by rw [hty2, hw]; simp)
    simpa using this
  have h1 := exp_M toks r pre.length x y z false LBRACKET hl
  have h2 := exp_S_OPT_eps toks ("Core".toList :: r) pre.length x y z false LBRACKET hl (by decide)
  have h3 := exp_Core toks r pre.length x y z false hl
  have h4 := match_lbracket toks ("Inside".toList :: "]".toList :: r) pre.length x y z false hl
  have h5 := exp_Inside_nums toks ("]".toList :: r) (pre.length + 1) x y z false hl2
  obtain ⟨h6, hl6⟩ := numbers_until_close toks (pre ++ [LBRACKET]) post r x z as hne hty2
  rw [List.length_append, List.length_singleton] at h6 hl6
  exact ⟨h1.trans (h2.trans (h3.trans (h4.trans (h5.trans h6)))), hl6⟩

/-- A row of a matrix is read up to its closing bracket. -/
theorem row_until_close (toks : List Token) (pre post : List TokenType) (r : List Str)
    (x y z : Int) (b : Bool) (as : List Str) (hne : as ≠ [])
    (hty : toks.map Token.type = pre ++ (vectorTokens as).map Token.type ++ post) :
    Steps toks ⟨"Row".toList :: r, pre.length, x, y, z, b⟩
        ⟨"]".toList :: r, pre.length + 1 + (numTokens as).length, x, as.length, z, true⟩ ∧
      Look toks (pre.length + 1 + (numTokens as).length) RBRACKET := by
  have hty1 : toks.map Token.type
      = pre ++ LBRACKET :: ((numTokens as).map Token.type ++ RBRACKET :: post) := by
    simpa [vectorTokens] using hty
  have hty2 : toks.map Token.type
      = (pre ++ [LBRACKET]) ++ (numTokens as).map Token.type ++ RBRACKET :: post := by
    simpa [vectorTokens] using hty
  have hl : Look toks pre.length LBRACKET := look_at toks pre _ LBRACKET hty1
  have h1 := exp_Row toks r pre.length x y z b hl
  have h2 := match_lbracket toks ("NumList".toList :: "]".toList :: r) pre.length x 0 z true hl
  obtain ⟨h3, hl3⟩ := numbers_until_close toks (pre ++ [LBRACKET]) post r x z as hne hty2
  rw [List.length_append, List.length_singleton] at h3 hl3
  exact ⟨h1.trans (h2.trans h3), hl3⟩

theorem vectorTokens_length (as : List Str) :
    (vectorTokens as).length = (numTokens as).length + 2 := by
  simp [vectorTokens]

theorem derives_row (as : List Str) (hne : as ≠ []) :
    Derives false .Row ((vectorTokens as).map Token.type) [as.length] := by
  have := Derives.row (derives_numTokens false as hne)
  simpa [vectorTokens] using this

/-! ## Invariants of the parsing phase -/

theorem expand_sameInput (e : ParserEngine) (top : Str) (t : TokenType) :
    SameInput e (e.expand top t) := by
  unfold ParserEngine.expand
  repeat' refine ite_ind (fun x : ParserEngine => SameInput e x) _ _ _ ?_ ?_
  all_goals exact ⟨rfl, rfl, rfl, rfl⟩

theorem semanticChecks_sameInput (e : ParserEngine) (top : Str) :
    match e.semanticChecks top with
    | .error e' => SameInput e e'
    | .ok e' => SameInput e e' := by
  unfold ParserEngine.semanticChecks
  split_ifs
  all_goals exact ⟨rfl, rfl, rfl, rfl⟩

theorem terminalMatches_type (top : Str) (ty : TokenType) (h : terminalMatches top ty = true) :
    ty ≠ UNKNOWN ∧ ty ≠ END_TOKEN ∧ ty ≠ NONE_TOKEN := by
  unfold terminalMatches at h
  split_ifs at h with h1 h2 h3 h4 h5 h6 h7
  · rw [h1.2]; decide
  · rw [h2.2]; decide
  · rw [h3.2]; decide
  · rw [h4.2]; decide
  · rw [h5.2]; decide
  · rw [h6.2]; decide
  · rw [h7.2]; decide

/-- What one parser action does to the input side of the state: the token stream and the phase
are kept; either the cursor is kept (and the engine can only become finished on an end-of-input
lookahead), or the cursor advances by one over a token that matches a terminal. -/
theorem parseStep_effect (e : ParserEngine) (top : Str) (rest : List Str) (t : Token) :
    (e.parseStep top rest t).tokenStream = e.tokenStream ∧
    (e.parseStep top rest t).lexingPhase = e.lexingPhase ∧
    (((e.parseStep top rest t).tokenCursor = e.tokenCursor ∧
        ((e.parseStep top rest t).isFinished = e.isFinished ∨ t.type = END_TOKEN)) ∨
      ((e.parseStep top rest t).tokenCursor = e.tokenCursor + 1 ∧
        (e.parseStep top rest t).isFinished = e.isFinished ∧
        terminalMatches top t.type = true)) := by
  unfold ParserEngine.parseStep
  split_ifs with h1 h2 h3 h4
  · exact ⟨rfl, rfl, Or.inl ⟨rfl, Or.inr h2⟩⟩
  · exact ⟨rfl, rfl, Or.inl ⟨rfl, Or.inl rfl⟩⟩
  · have := semanticChecks_sameInput e top
    cases hs : e.semanticChecks top with
    | error e' =>
      simp only [hs] at this ⊢
      exact ⟨this.1, this.2.1, Or.inl ⟨this.2.2.1, Or.inl this.2.2.2⟩⟩
    | ok e' =>
      simp only [hs] at this ⊢
      refine ⟨this.1, this.2.1, Or.inr ⟨?_, this.2.2.2, h4⟩⟩
      show e'.tokenCursor + 1 = e.tokenCursor + 1
      rw [this.2.2.1]
  · exact ⟨rfl, rfl, Or.inl ⟨rfl, Or.inl rfl⟩⟩
  · have := expand_sameInput { e with pdaStack := rest } top t.type
    exact ⟨this.1, this.2.1, Or.inl ⟨this.2.2.1, Or.inl this.2.2.2⟩⟩

/-- In the parsing phase a step keeps the phase and the token stream. -/
theorem step_parsing_frame (e e' : ParserEngine) (hp : e.lexingPhase = false)
    (hs : e.step = some e') : e'.lexingPhase = false ∧ e'.tokenStream = e.tokenStream := by
  unfold ParserEngine.step at hs
  simp only at hs
  split_ifs at hs with h1 h2
  · cases hs; exact ⟨hp, rfl⟩
  · simp [ParserEngine.cleared, hp] at h2
  · split at hs
    · cases hs; exact ⟨hp, rfl⟩
    · split at hs
      · cases hs
      · cases hs
        have := parseStep_effect e.cleared ‹_› ‹_› ‹_›
        exact ⟨by rw [this.2.1]; exact hp, this.1⟩

theorem run_parsing_frame (n : Nat) : ∀ (e e' : ParserEngine), e.lexingPhase = false →
    e.run n = some e' → e'.lexingPhase = false ∧ e'.tokenStream = e.tokenStream := by
  induction n with
  | zero => intro e e' hp hs; cases hs; exact ⟨hp, rfl⟩
  | succ n ih =>
    intro e e' hp hs
    simp only [ParserEngine.run] at hs
    cases h1 : e.step with
    | none => simp [h1] at hs
    | some e1 =>
      simp only [h1, Option.some_bind] at hs
      obtain ⟨a1, a2⟩ := step_parsing_frame e e1 hp h1
      obtain ⟨b1, b2⟩ := ih e1 e' a1 hs
      exact ⟨b1, by rw [b2, a2]⟩

theorem endsOnce_end_index (toks : List Token) (hE : EndsOnce toks) (i : Nat) (t : Token)
    (ht : toks[i]? = some t) : (t.type = END_TOKEN ↔ i + 1 = toks.length) := by
  obtain ⟨body, rfl, hb⟩ := hE
  rcases Nat.lt_or_ge i body.length with hi | hi
  · rw [List.getElem?_append_left hi] at ht
    have hmem : t ∈ body := List.getElem?_mem ht
    constructor
    · intro h; exact absurd h (hb t hmem)
    · intro h; simp at h; omega
  · rw [List.getElem?_append_right hi] at ht
    have hlt : i - body.length < 1 := by
      by_contra hc
      rw [List.getElem?_eq_none (by simp only [List.length_singleton]; omega)] at ht
      cases ht
    have h0 : i - body.length = 0 := by omega
    rw [h0] at ht
    simp only [List.getElem?_cons_zero, Option.some.injEq] at ht
    subst ht
    constructor
    · intro _; simp; omega
    · intro _; rfl

/-- The parsing-phase invariant is kept by every step, and every step of a state that satisfies
it is defined (the lookahead read is in range). -/
theorem parseInv_step (toks : List Token) (hE : EndsOnce toks) (e : ParserEngine)
    (h : ParseInv toks e) : ∃ e', e.step = some e' ∧ ParseInv toks e' := by
  obtain ⟨h1, h2, h3, h4, h5⟩ := h
  have hc : ParseInv toks e.cleared := ⟨h1, h2, h3, h4, h5⟩
  unfold ParserEngine.step
  simp only
  split_ifs with g1 g2
  · exact ⟨_, rfl, hc⟩
  · simp [ParserEngine.cleared, h1] at g2
  · split
    · exact ⟨_, rfl, hc⟩
    · rename_i top rest hstk
      have hcur : e.cleared.tokenCursor < e.cleared.tokenStream.length := by
        show e.tokenCursor < e.tokenStream.length
        rw [h2]; exact h3
      rw [List.getElem?_eq_getElem hcur]
      simp only
      refine ⟨_, rfl, ?_⟩
      set t := e.cleared.tokenStream[e.cleared.tokenCursor] with ht
      have hget : toks[e.tokenCursor]? = some t := by
        rw [ht, ← List.getElem?_eq_getElem hcur]
        show toks[e.tokenCursor]? = e.tokenStream[e.tokenCursor]?
        rw [h2]
      have hnf : e.isFinished = false := by
        simp only [ParserEngine.cleared, Bool.or_eq_true, not_or, Bool.not_eq_true] at g1
        exact g1.2
      obtain ⟨a1, a2, a3⟩ := parseStep_effect e.cleared top rest t
      rcases a3 with ⟨b1, b2⟩ | ⟨b1, b2, b3⟩
      · refine ⟨by rw [a2]; exact h1, by rw [a1]; exact h2, by rw [b1]; exact h3, ?_, ?_⟩
        · rw [b1]; exact h4
        · intro hf
          rw [b1]
          rcases b2 with b2 | b2
          · rw [b2] at hf
            have : e.isFinished = true := hf
            rw [hnf] at this; cases this
          · exact ⟨t, hget, b2⟩
      · obtain ⟨c1, c2, c3⟩ := terminalMatches_type top t.type b3
        have hne : ¬ e.tokenCursor + 1 = toks.length :=
          fun hh => c2 ((endsOnce_end_index toks hE _ t hget).mpr hh)
        refine ⟨by rw [a2]; exact h1, by rw [a1]; exact h2, ?_, ?_, ?_⟩
        · rw [b1]; show e.tokenCursor + 1 < toks.length; omega
        · intro j hj u hu
          rw [b1] at hj
          have hj' : j < e.tokenCursor + 1 := hj
          rcases Nat.lt_succ_iff_lt_or_eq.mp hj' with hlt | heq
          · exact h4 j hlt u hu
          · subst heq
            rw [hget] at hu
            cases hu
            exact c1
        · intro hf
          rw [b2] at hf
          have : e.isFinished = true := hf
          rw [hnf] at this; cases this

theorem parseInv_run (toks : List Token) (hE : EndsOnce toks) (n : Nat) :
    ∀ e, ParseInv toks e → ∃ e', e.run n = some e' ∧ ParseInv toks e' := by
  induction n with
  | zero => intro e h; exact ⟨e, rfl, h⟩
  | succ n ih =>
    intro e h
    obtain ⟨e1, a1, a2⟩ := parseInv_step toks hE e h
    obtain ⟨e2, b1, b2⟩ := ih e1 a2
    exact ⟨e2, by simp [ParserEngine.run, a1, b1], b2⟩

theorem flushNumber_type (pend : Str) : ∀ t ∈ flushNumber pend, t.type = NUMBER := by
  intro t ht
  unfold flushNumber at ht
  split_ifs at ht
  · cases ht
  · simp only [List.mem_singleton] at ht
    subst ht; rfl

theorem scan_no_end (text : Str) : ∀ (pend : Str), ∀ t ∈ scanTokens pend text,
    t.type ≠ END_TOKEN := by
  induction text with
  | nil =>
    intro pend t ht
    rw [scanTokens] at ht
    rw [flushNumber_type pend t ht]; decide
  | cons c cs ih =>
    intro pend t ht
    rw [scanTokens] at ht
    split_ifs at ht with h1 h2
    · exact ih _ t ht
    · simp only [List.append_nil, List.mem_append] at ht
      rcases ht with ht | ht
      · rw [flushNumber_type pend t ht]; decide
      · exact ih _ t ht
    · simp only [List.mem_append, List.mem_singleton] at ht
      rcases ht with (ht | ht) | ht
      · rw [flushNumber_type pend t ht]; decide
      · subst ht; exact (charToken_type c).2
      · exact ih _ t ht

theorem tokenize_endsOnce (text : Str) : EndsOnce (tokenize text) :=
  ⟨scanTokens [] text, rfl, scan_no_end text []⟩

theorem charToken_unknown (c : Char) (hp : c ∉ "[],+-*".toList) :
    charToken c = ⟨UNKNOWN, [c]⟩ := by
  simp only [String.toList, List.mem_cons, List.mem_singleton, not_or] at hp
  have hp' : c ≠ '[' ∧ c ≠ ']' ∧ c ≠ ',' ∧ c ≠ '+' ∧ c ≠ '-' ∧ c ≠ '*' := by
    simpa using hp
  obtain ⟨p1, p2, p3, p4, p5, p6⟩ := hp'
  simp [charToken, p1, p2, p3, p4, p5, p6]

theorem scan_unknown (text : Str) (c : Char) (hd : isdigit c = false) (hs : isspace c = false)
    (hp : c ∉ "[],+-*".toList) : ∀ (pend : Str), c ∈ text →
    (⟨UNKNOWN, [c]⟩ : Token) ∈ scanTokens pend text := by
  induction text with
  | nil => intro pend h; cases h
  | cons x xs ih =>
    intro pend h
    rw [scanTokens]
    rcases List.mem_cons.mp h with h | h
    · subst h
      rw [if_neg (by simp [hd]), if_neg (by simp [hs]), charToken_unknown c hp]
      simp
    · split_ifs
      · exact ih _ h
      · simp only [List.append_nil, List.mem_append]
        exact Or.inr (ih _ h)
      · simp only [List.mem_append]
        exact Or.inr (ih _ h)

theorem startConf_parseInv (toks : List Token) (e : ParserEngine) (hE : EndsOnce toks)
    (h : InConf toks startConf e) : ParseInv toks e := by
  obtain ⟨h1, h2, h3, h4, h5, h6, -⟩ := h
  obtain ⟨body, hb, -⟩ := hE
  refine ⟨h1, h4, ?_, ?_, ?_⟩
  · rw [h6, hb]; simp [startConf]
  · intro j hj; rw [h6] at hj; simp [startConf] at hj
  · intro hf; rw [h3] at hf; cases hf

/-- Every run from `reset` is defined at every length (no step reads the token stream out of
range).  The state after `j` steps either precedes the start `e0` of the parsing phase or
satisfies the parsing-phase invariant. -/
theorem run_defined (prior : ParserEngine) (text : Str) (j : Nat) :
    ∃ e0, InConf (tokenize text) startConf e0 ∧ ∃ e, (prior.reset text).run j = some e ∧
      ((∃ m, e.run m = some e0) ∨ ParseInv (tokenize text) e) := by
  obtain ⟨k, e0, a1, a2⟩ := reset_lexes prior text
  have hinv := startConf_parseInv _ e0 (tokenize_endsOnce text) a2
  refine ⟨e0, a2, ?_⟩
  rcases Nat.le_total k j with hkj | hjk
  · obtain ⟨m, rfl⟩ := Nat.exists_eq_add_of_le hkj
    obtain ⟨e, b1, b2⟩ := parseInv_run _ (tokenize_endsOnce text) m e0 hinv
    exact ⟨e, by rw [run_add, a1, Option.some_bind, b1], Or.inr b2⟩
  · obtain ⟨m, rfl⟩ := Nat.exists_eq_add_of_le hjk
    obtain ⟨e, b1, b2⟩ := run_initial_segment j m _ e0 a1
    exact ⟨e, b1, Or.inl ⟨m, b2⟩⟩

/-- A state from which an unfinished state is reached is not finished. -/
theorem not_finished_before (e e0 : ParserEngine) (m : Nat) (h : e.run m = some e0)
    (h0 : e0.isFinished = false) : e.isFinished = false := by
  by_contra hc
  rcases run_halted_cases e (Or.inr (by simpa using hc)) m with hm | hm
  · rw [hm] at h; cases h; rw [h0] at hc; exact hc rfl
  · rw [hm] at h; cases h
    simp only [ParserEngine.cleared] at h0
    rw [h0] at hc; exact hc rfl

/-! ## Further facts used by the claims -/

theorem run_eval {α : Type} (s : ParserEngine) (n : Nat) (f : ParserEngine → α) (v : α)
    (h : (s.run n).map f = some v) : ∃ e, s.run n = some e ∧ f e = v := by
  cases hr : s.run n with
  | none => simp [hr] at h
  | some e => exact ⟨e, rfl, by simpa [hr] using h⟩

theorem charToken_value (c : Char) : (charToken c).value = [c] := by
  unfold charToken
  split_ifs with h1 h2 h3 h4 h5 h6
  · subst h1; rfl
  · subst h2; rfl
  · subst h3; rfl
  · subst h4; rfl
  · subst h5; rfl
  · subst h6; rfl
  · rfl

theorem flushNumber_values (pend : Str) :
    ((flushNumber pend).map Token.value).flatten = pend := by
  unfold flushNumber
  split_ifs with h
  · simp [h]
  · simp

/-- The values of the scanned tokens, concatenated, are the text without its white space. -/
theorem scan_values (text : Str) : ∀ (pend : Str),
    ((scanTokens pend text).map Token.value).flatten
      = pend ++ text.filter (fun c => !isspace c) := by
  induction text with
  | nil => intro pend; simp [scanTokens, flushNumber_values]
  | cons c cs ih =>
    intro pend
    rw [scanTokens]
    split_ifs with h1 h2
    · rw [ih, List.filter_cons_of_pos (by simp [isspace_of_isdigit c h1])]
      simp
    · rw [List.filter_cons_of_neg (by simp [h2])]
      simp [flushNumber_values, ih]
    · rw [List.filter_cons_of_pos (by simpa using h2)]
      simp [flushNumber_values, ih, charToken_value]

/-- The token stream of every parsing-phase state of a run from `reset(text)` is
`tokenize text`. -/
theorem parsing_tokenStream (prior : ParserEngine) (text : Str) (k : Nat) (e : ParserEngine)
    (h : (prior.reset text).run k = some e) (hp : e.lexingPhase = false) :
    e.tokenStream = tokenize text := by
  obtain ⟨e0, a0, e1, a1, a2⟩ := run_defined prior text k
  rw [h] at a1
  cases a1
  rcases a2 with ⟨m, hm⟩ | hinv
  · rw [← (run_parsing_frame m e e0 hp hm).2]
    exact a0.2.2.2.1
  · exact hinv.2.1

/-- The step is defined exactly on the states whose lookahead read is in range. -/
theorem step_defined (e : ParserEngine) (h : ReadInRange e) : ∃ e', e.step = some e' := by
  unfold ParserEngine.step
  simp only
  split_ifs with h1 h2
  · exact ⟨_, rfl⟩
  · exact ⟨_, rfl⟩
  · split
    · exact ⟨_, rfl⟩
    · rename_i top rest hstk
      have hcur : e.cleared.tokenCursor < e.cleared.tokenStream.length := by
        simp only [ParserEngine.cleared, Bool.or_eq_true, not_or, Bool.not_eq_true] at h1 h2 hstk
        rcases h with h | h | h | h | h
        · rw [h1.1] at h; cases h
        · rw [h1.2] at h; cases h
        · rw [h2] at h; cases h
        · rw [h] at hstk; cases hstk
        · exact h
      rw [List.getElem?_eq_getElem hcur]
      exact ⟨_, rfl⟩

theorem run_history (n : Nat) : ∀ (e e' : ParserEngine), e.run n = some e' →
    e.history <+: e'.history := by
  induction n with
  | zero => intro e e' h; cases h; exact ⟨[], List.append_nil _⟩
  | succ n ih =>
    intro e e' h
    simp only [ParserEngine.run] at h
    cases h1 : e.step with
    | none => simp [h1] at h
    | some e1 =>
      simp only [h1, Option.some_bind] at h
      exact (step_history e e1 h1).trans (ih e1 e' h)

/-! ## Effects of single steps and invariants of runs -/

theorem refCharToken_eq (c : Char) : refCharToken c = charToken c := by
  unfold refCharToken charToken
  split <;> simp_all

theorem takeWhile_digits (cs : Str) : ∀ c ∈ cs.takeWhile isdigit, isdigit c = true := by
  induction cs with
  | nil => intro c hc; cases hc
  | cons x xs ih =>
    intro c hc
    by_cases hx : isdigit x = true
    · rw [List.takeWhile_cons_of_pos hx] at hc
      rcases List.mem_cons.mp hc with h | h
      · rw [h]; exact hx
      · exact ih c h
    · rw [List.takeWhile_cons_of_neg hx] at hc
      cases hc

theorem dropWhile_digits (cs : Str) :
    NoDigitAhead (cs.dropWhile isdigit) ∧ (cs.dropWhile isdigit).length ≤ cs.length := by
  induction cs with
  | nil => exact ⟨nofun, le_refl _⟩
  | cons x xs ih =>
    by_cases hx : isdigit x = true
    · rw [List.dropWhile_cons_of_pos hx]
      exact ⟨ih.1, by simp only [List.length_cons]; omega⟩
    · rw [List.dropWhile_cons_of_neg hx]
      exact ⟨noDigitAhead_cons x xs (by simpa using hx), le_refl _⟩

/-- The reference classifier and the scan that summarises the lexer give the same tokens. -/
theorem refScan_eq (fuel : Nat) : ∀ (text : Str), text.length ≤ fuel →
    refScan fuel text = scanTokens [] text := by
  induction fuel with
  | zero =>
    intro text h
    have : text = [] := List.length_eq_zero.mp (Nat.le_zero.mp h)
    subst this
    simp [refScan, scanTokens, flushNumber]
  | succ fuel ih =>
    intro text h
    cases text with
    | nil => simp [refScan, scanTokens, flushNumber]
    | cons c cs =>
      have hlen : cs.length ≤ fuel := by simp only [List.length_cons] at h; omega
      rw [refScan]
      split_ifs with h1 h2
      · have := scan_spaces [c] cs (by simpa using h1)
        rw [List.singleton_append] at this
        rw [this, ih cs hlen]
      · have hsplit : c :: cs = c :: cs.takeWhile isdigit ++ cs.dropWhile isdigit := by
          rw [List.cons_append, List.takeWhile_append_dropWhile]
        have hd : ∀ x ∈ c :: cs.takeWhile isdigit, isdigit x = true := by
          intro x hx
          rcases List.mem_cons.mp hx with hx | hx
          · rw [hx]; exact h2
          · exact takeWhile_digits cs x hx
        have hn := scan_number c (cs.takeWhile isdigit) (cs.dropWhile isdigit) hd
          (dropWhile_digits cs).1
        rw [← hsplit] at hn
        rw [hn, ih _ (le_trans (dropWhile_digits cs).2 hlen)]
      · rw [scan_char c cs (by simpa using h1) (by simpa using h2), ih cs hlen, refCharToken_eq]

theorem refTokens_eq (text : Str) : refTokens text = tokenize text := by
  rw [refTokens, tokenize, refScan_eq _ text (le_refl _)]
  rfl

/-- A state from which an unlocked state is reached is not locked. -/
theorem not_locked_before (e e0 : ParserEngine) (m : Nat) (h : e.run m = some e0)
    (h0 : e0.isLocked = false) : e.isLocked = false := by
  by_contra hc
  rcases run_halted_cases e (Or.inl (by simpa using hc)) m with hm | hm
  · rw [hm] at h; cases h; rw [h0] at hc; exact hc rfl
  · rw [hm] at h; cases h
    simp only [ParserEngine.cleared] at h0
    rw [h0] at hc; exact hc rfl

theorem step_parsing (e : ParserEngine) (top : Str) (rest : List Str) (t : Token)
    (hp : Parsing e) (hs : e.pdaStack = top :: rest) (ht : e.tokenStream[e.tokenCursor]? = some t) :
    e.step = some (e.cleared.parseStep top rest t) := by
  obtain ⟨h1, h2, h3⟩ := hp
  simp [ParserEngine.step, ParserEngine.cleared, h1, h2, h3, hs, ht]

theorem lexStep_sameParser (e : ParserEngine) : SameParser e e.lexStep := by
  unfold ParserEngine.lexStep
  dsimp only
  split_ifs
  all_goals exact ⟨rfl, rfl, rfl, rfl, rfl, rfl, rfl, rfl⟩

/-- The cases of one call of `step()`: a halted engine, the lexing phase, an empty stack, or one
parser action on the stack `top :: rest` with the lookahead `t`. -/
theorem step_cases (e e' : ParserEngine) (h : e.step = some e') :
    (Halted e ∧ e' = e.cleared) ∨
    (¬ Halted e ∧ e.lexingPhase = true ∧ e' = e.cleared.lexStep) ∨
    (Parsing e ∧ e.pdaStack = [] ∧ e' = e.cleared) ∨
    (Parsing e ∧ ∃ top rest t, e.pdaStack = top :: rest ∧
      e.tokenStream[e.tokenCursor]? = some t ∧ e' = e.cleared.parseStep top rest t) := by
  unfold ParserEngine.step at h
  simp only at h
  split_ifs at h with h1 h2
  · left
    cases h
    simp only [ParserEngine.cleared, Bool.or_eq_true] at h1
    exact ⟨h1, rfl⟩
  · right; left
    cases h
    simp only [ParserEngine.cleared, Bool.or_eq_true, not_or, Bool.not_eq_true] at h1 h2
    exact ⟨fun hh => by rcases hh with hh | hh <;> simp_all, h2, rfl⟩
  · simp only [ParserEngine.cleared, Bool.or_eq_true, not_or, Bool.not_eq_true] at h1 h2
    have hp : Parsing e := ⟨h2, h1.1, h1.2⟩
    split at h
    · rename_i hstk
      right; right; left
      cases h
      exact ⟨hp, hstk, rfl⟩
    · rename_i top rest hstk
      split at h
      · cases h
      · rename_i t ht
        right; right; right
        cases h
        exact ⟨hp, top, rest, t, hstk, ht, rfl⟩

/-- Induction along a run from `reset`: a property of the state that `reset` yields and that
every step keeps holds in every state of the run. -/
theorem run_induction (P : ParserEngine → Prop) (s : ParserEngine) (h0 : P s)
    (hs : ∀ e e', P e → e.step = some e' → P e') :
    ∀ j e, s.run j = some e → P e := by
  intro j
  induction j with
  | zero => intro e h; cases h; exact h0
  | succ j ih =>
    intro e h
    obtain ⟨e1, a1, a2⟩ := run_initial_segment j 1 s e h
    simp only [ParserEngine.run] at a2
    cases hstep : e1.step with
    | none => simp [hstep] at a2
    | some e2 =>
      simp only [hstep, Option.some_bind, Option.some.injEq] at a2
      subst a2
      exact hs e1 e2 (ih e1 a1) hstep

theorem terminalType_spec (top : Str) (ty : TokenType) (h : terminalType top = some ty) :
    isTerminal top = true ∧ top ≠ "$".toList ∧
    ∀ ty', terminalMatches top ty' = true ↔ ty' = ty := by
  unfold terminalType at h
  split_ifs at h with h1 h2 h3 h4 h5 h6 h7
  all_goals first | subst h1 | subst h2 | subst h3 | subst h4 | subst h5 | subst h6 | subst h7
  all_goals cases h
  all_goals refine ⟨by decide, by decide, fun ty' => ?_⟩
  all_goals cases ty' <;> decide

theorem terminalType_of_isTerminal (top : Str) (h : isTerminal top = true) :
    ∃ ty, terminalType top = some ty := by
  unfold isTerminal at h
  simp only [Bool.or_eq_true, decide_eq_true_eq] at h
  rcases h with (((((h | h) | h) | h) | h) | h) | h
  all_goals subst h
  all_goals exact ⟨_, rfl⟩

/-- The semantic checks fail exactly on a closing bracket with an open row body for which one of
the three rules fails. -/
theorem semanticChecks_error_iff (e : ParserEngine) (top : Str) :
    (∃ e1, e.semanticChecks top = .error e1) ↔
      (top = "]".toList ∧ e.inRow = true ∧ RowRuleFails e) := by
  unfold ParserEngine.semanticChecks RowRuleFails
  constructor
  · intro ⟨e1, h⟩
    split_ifs at h with h1 h2 h3 h4 h5 h6 h7
    all_goals first
      | exact ⟨h2.1, h2.2, Or.inl h3⟩
      | exact ⟨h2.1, h2.2, Or.inr (Or.inl h4)⟩
      | exact ⟨h2.1, h2.2, Or.inr (Or.inr ⟨h5, h6⟩)⟩
  · intro ⟨a1, a2, a3⟩
    subst a1
    have hn : ¬ ("]".toList = "num".toList ∧ e.inRow = true) := fun hh => by
      have := hh.1
      simp at this
    rw [if_neg hn, if_pos ⟨rfl, a2⟩]
    split_ifs with h3 h4 h5 h6
    · exact ⟨_, rfl⟩
    · exact ⟨_, rfl⟩
    · exfalso
      rcases a3 with a3 | a3 | a3
      · exact h3 a3
      · exact h4 a3
      · exact a3.1 h5
    · exact ⟨_, rfl⟩
    · exfalso
      rcases a3 with a3 | a3 | a3
      · exact h3 a3
      · exact h4 a3
      · exact h6 a3.2

/-- A failed semantic check locks the engine and keeps the stack, the cursor and the counters. -/
theorem semanticChecks_error_effect (e e1 : ParserEngine) (top : Str)
    (h : e.semanticChecks top = .error e1) :
    e1.isLocked = true ∧ e1.pdaStack = e.pdaStack ∧ e1.tokenCursor = e.tokenCursor ∧
    SameCounters e e1 ∧ e1.isFinished = e.isFinished := by
  unfold ParserEngine.semanticChecks at h
  split_ifs at h
  all_goals cases h
  all_goals exact ⟨rfl, rfl, rfl, ⟨rfl, rfl, rfl, rfl⟩, rfl⟩

/-- A passed semantic check keeps the stack, the cursor and the two halting flags. -/
theorem semanticChecks_ok_effect (e e1 : ParserEngine) (top : Str)
    (h : e.semanticChecks top = .ok e1) :
    e1.isLocked = e.isLocked ∧ e1.pdaStack = e.pdaStack ∧ e1.tokenCursor = e.tokenCursor ∧
    e1.isFinished = e.isFinished := by
  unfold ParserEngine.semanticChecks at h
  split_ifs at h
  all_goals cases h
  all_goals exact ⟨rfl, rfl, rfl, rfl⟩

theorem expand_cursor (e : ParserEngine) (top : Str) (t : TokenType) :
    (e.expand top t).tokenCursor = e.tokenCursor := (expand_sameInput e top t).2.2.1

/-- One parser action that moves the cursor is the match of a terminal that passes the semantic
checks: the stack is popped, the cursor advances by one and the engine stays unlocked. -/
theorem parseStep_cursor (e : ParserEngine) (top : Str) (rest : List Str) (t : Token)
    (h : (e.parseStep top rest t).tokenCursor ≠ e.tokenCursor) :
    top ≠ "$".toList ∧ isTerminal top = true ∧ terminalMatches top t.type = true ∧
    ¬ (top = "]".toList ∧ e.inRow = true ∧ RowRuleFails e) ∧
    (e.parseStep top rest t).tokenCursor = e.tokenCursor + 1 ∧
    (e.parseStep top rest t).pdaStack = rest ∧
    (e.parseStep top rest t).isLocked = e.isLocked := by
  unfold ParserEngine.parseStep at h ⊢
  split_ifs at h ⊢ with h1 h2 h3 h4
  · exact absurd rfl h
  · exact absurd rfl h
  · cases hs : e.semanticChecks top with
    | error e1 =>
      rw [hs] at h
      exact absurd (semanticChecks_error_effect e e1 top hs).2.2.1 h
    | ok e1 =>
      obtain ⟨a1, a2, a3, a4⟩ := semanticChecks_ok_effect e e1 top hs
      refine ⟨h1, h3, h4, ?_, ?_, rfl, a1⟩
      · intro hf
        obtain ⟨e2, h2⟩ := (semanticChecks_error_iff e top).2 hf
        rw [hs] at h2
        cases h2
      · show e1.tokenCursor + 1 = e.tokenCursor + 1
        rw [a3]
  · exact absurd rfl h
  · exact absurd (expand_cursor _ top t.type) h

/-- An expansion pushes symbols other than the end marker on the stack it is given, and keeps
`isFinished`. -/
theorem expand_stack (e : ParserEngine) (top : Str) (t : TokenType) :
    ∃ items, (e.expand top t).pdaStack = items ++ e.pdaStack ∧ "$".toList ∉ items := by
  unfold ParserEngine.expand
  repeat' refine ite_ind (fun x : ParserEngine =>
    ∃ items, x.pdaStack = items ++ e.pdaStack ∧ "$".toList ∉ items) _ _ _ ?_ ?_
  all_goals first
    | exact ⟨[], rfl, by simp⟩
    | exact ⟨_, rfl, by decide⟩

/-- What one parser action does to the stack `top :: rest`: the acceptance pops the end marker and
finishes; every other action keeps `isFinished` and either keeps the stack or replaces a top
symbol other than the end marker by symbols other than the end marker. -/
theorem parseStep_stack (e : ParserEngine) (top : Str) (rest : List Str) (t : Token)
    (hs : e.pdaStack = top :: rest) :
    (top = "$".toList ∧ t.type = END_TOKEN ∧ (e.parseStep top rest t).pdaStack = rest ∧
      (e.parseStep top rest t).isFinished = true) ∨
    ((e.parseStep top rest t).isFinished = e.isFinished ∧
      ((e.parseStep top rest t).pdaStack = top :: rest ∨
        (top ≠ "$".toList ∧ ∃ items, (e.parseStep top rest t).pdaStack = items ++ rest ∧
          "$".toList ∉ items))) := by
  unfold ParserEngine.parseStep
  split_ifs with h1 h2 h3 h4
  · exact Or.inl ⟨h1, h2, rfl, rfl⟩
  · exact Or.inr ⟨rfl, Or.inl hs⟩
  · cases hc : e.semanticChecks top with
    | error e1 =>
      obtain ⟨_, a2, _, _, a5⟩ := semanticChecks_error_effect e e1 top hc
      exact Or.inr ⟨a5, Or.inl (by rw [← hs]; exact a2)⟩
    | ok e1 =>
      obtain ⟨_, _, _, a4⟩ := semanticChecks_ok_effect e e1 top hc
      exact Or.inr ⟨a4, Or.inr ⟨h1, [], rfl, by simp⟩⟩
  · exact Or.inr ⟨rfl, Or.inl hs⟩
  · obtain ⟨items, b1, b2⟩ := expand_stack { e with pdaStack := rest } top t.type
    exact Or.inr ⟨(expand_sameInput { e with pdaStack := rest } top t.type).2.2.2,
      Or.inr ⟨h1, items, b1, b2⟩⟩

theorem stackInv_step (e e' : ParserEngine) (h : StackInv e) (hs : e.step = some e') :
    StackInv e' := by
  rcases step_cases e e' hs with ⟨_, rfl⟩ | ⟨_, _, rfl⟩ | ⟨_, _, rfl⟩ | ⟨hp, top, rest, t, c1, c2, rfl⟩
  · exact h
  · obtain ⟨a1, _, _, _, _, _, _, a8⟩ := lexStep_sameParser e.cleared
    unfold StackInv
    rw [a1, a8]
    exact h
  · exact h
  · obtain ⟨body, b1, b2⟩ := h.2 hp.2.2
    rw [c1] at b1
    rcases parseStep_stack e.cleared top rest t c1 with ⟨d1, _, d3, d4⟩ | ⟨d1, d2⟩
    · have hb : body = [] := by
        cases body with
        | nil => rfl
        | cons x xs =>
          simp only [List.cons_append, List.cons.injEq] at b1
          exact absurd (by rw [← b1.1, d1]; simp) b2
      subst hb
      simp only [List.nil_append, List.cons.injEq] at b1
      refine ⟨fun _ => (by rw [d3, b1.2]), fun hf => ?_⟩
      rw [d4] at hf; cases hf
    · have hfin : (e.cleared.parseStep top rest t).isFinished = false := by
        rw [d1]; exact hp.2.2
      refine ⟨fun hf => (by rw [hfin] at hf; cases hf), fun _ => ?_⟩
      rcases d2 with d2 | ⟨d2, items, d3, d4⟩
      · exact ⟨body, by rw [d2, b1], b2⟩
      · cases body with
        | nil =>
          simp only [List.nil_append, List.cons.injEq] at b1
          exact absurd b1.1 d2
        | cons x xs =>
          simp only [List.cons_append, List.cons.injEq] at b1
          refine ⟨items ++ xs, by rw [d3, b1.2, List.append_assoc], ?_⟩
          simp only [List.mem_append, not_or]
          exact ⟨d4, fun hx => b2 (List.mem_cons_of_mem _ hx)⟩

theorem stackInv_reset (prior : ParserEngine) (text : Str) : StackInv (prior.reset text) :=
  ⟨fun hf => by simp [ParserEngine.reset, ParserEngine.addLog] at hf,
    fun _ => ⟨["S".toList], rfl, by decide⟩⟩

theorem stackInv_run (prior : ParserEngine) (text : Str) (n : Nat) (e : ParserEngine)
    (h : (prior.reset text).run n = some e) : StackInv e :=
  run_induction StackInv _ (stackInv_reset prior text) stackInv_step n e h

theorem run_total (prior : ParserEngine) (text : Str) (n : Nat) :
    ∃ e, (prior.reset text).run n = some e := by
  obtain ⟨_, _, e, h, _⟩ := run_defined prior text n
  exact ⟨e, h⟩

/-- The parser action on the terminal `"]"` with a closing-bracket lookahead. -/
theorem parseStep_rbracket (e : ParserEngine) (rest : List Str) (t : Token)
    (hty : t.type = RBRACKET) :
    e.parseStep "]".toList rest t =
      match e.semanticChecks "]".toList with
      | .error e1 => e1
      | .ok e1 =>
        ({ e1 with lastAction := "PDA: Matched ".toList ++ "]".toList,
                   lastOperation := "POP & MATCH".toList,
                   pdaStack := rest, tokenCursor := e1.tokenCursor + 1 }).addLog
          ("Match ".toList ++ "]".toList) := by
  have h1 : ¬ ("]".toList = "$".toList) := by decide
  have h2 : isTerminal "]".toList = true := by decide
  have h3 : terminalMatches "]".toList t.type = true := by rw [hty]; decide
  unfold ParserEngine.parseStep
  rw [if_neg h1, if_pos h2, if_pos h3]

/-- The semantic checks on `"]"` with an open row body, as the chain of lines 209-237. -/
theorem semanticChecks_rbracket (e : ParserEngine) (hr : e.inRow = true) :
    e.semanticChecks "]".toList =
      if e.currentRowLength < 2 then
        .error (e.triggerError "Invalid Matrix: 1x1 not allowed".toList)
      else if e.matrix1Cols ≠ -1 ∧ e.currentRowLength ≠ e.matrix1Cols then
        .error (e.triggerError ("Dimension Mismatch! Matrix 1=".toList ++ to_string e.matrix1Cols
                  ++ ", Matrix 2=".toList ++ to_string e.currentRowLength))
      else if e.expectedRowLength = -1 then
        .ok { ({ e with expectedRowLength := e.currentRowLength }).addLog
                ("Set Dim: ".toList ++ to_string e.currentRowLength) with
              currentRowLength := 0, inRow := false }
      else if e.currentRowLength ≠ e.expectedRowLength then
        .error (e.triggerError ("Row Mismatch! Exp ".toList ++ to_string e.expectedRowLength
                  ++ ", Got ".toList ++ to_string e.currentRowLength))
      else
        .ok { e with currentRowLength := 0, inRow := false } := by
  have h1 : ¬ ("]".toList = "num".toList ∧ e.inRow = true) := fun hh => by
    have := hh.1
    simp at this
  unfold ParserEngine.semanticChecks
  rw [if_neg h1, if_pos ⟨rfl, hr⟩]

theorem ite_cases {α : Type} (P : α → Prop) (c : Prop) [Decidable c] (a b : α)
    (ha : c → P a) (hb : ¬ c → P b) : P (if c then a else b) := by
  split
  · exact ha ‹_›
  · exact hb ‹_›

/-- An expansion keeps `expectedRowLength` and `matrix1Cols`; it keeps `inRow` and
`currentRowLength` too, unless it is one of the two expansions that open a row body. -/
theorem expand_counters (e : ParserEngine) (top : Str) (t : TokenType) :
    (e.expand top t).expectedRowLength = e.expectedRowLength ∧
    (e.expand top t).matrix1Cols = e.matrix1Cols ∧
    (((e.expand top t).inRow = e.inRow ∧ (e.expand top t).currentRowLength = e.currentRowLength) ∨
      (OpensRow top t ∧ (e.expand top t).inRow = true ∧ (e.expand top t).currentRowLength = 0)) := by
  unfold ParserEngine.expand
  repeat' refine ite_cases (fun x : ParserEngine => x.expectedRowLength = e.expectedRowLength ∧
    x.matrix1Cols = e.matrix1Cols ∧ ((x.inRow = e.inRow ∧ x.currentRowLength = e.currentRowLength) ∨
      (OpensRow top t ∧ x.inRow = true ∧ x.currentRowLength = 0))) _ _ _ (fun _ => ?_) (fun _ => ?_)
  all_goals first
    | exact ⟨rfl, rfl, Or.inl ⟨rfl, rfl⟩⟩
    | exact ⟨rfl, rfl, Or.inr ⟨Or.inl ⟨by assumption, by assumption⟩, rfl, rfl⟩⟩
    | exact ⟨rfl, rfl, Or.inr ⟨Or.inr ⟨by assumption, by assumption⟩, rfl, rfl⟩⟩

/-- The semantic checks never set `inRow`. -/
theorem semanticChecks_inRow (e : ParserEngine) (top : Str) :
    match e.semanticChecks top with
    | .error e1 => e1.inRow = e.inRow
    | .ok e1 => e1.inRow = e.inRow ∨ e1.inRow = false := by
  unfold ParserEngine.semanticChecks
  split_ifs
  all_goals first
    | exact rfl
    | exact Or.inl rfl
    | exact Or.inr rfl

/-- A parser action that sets `inRow` is one of the two expansions that open a row body. -/
theorem parseStep_opens (e : ParserEngine) (top : Str) (rest : List Str) (t : Token)
    (h0 : e.inRow = false) (h1 : (e.parseStep top rest t).inRow = true) :
    isTerminal top = false ∧ OpensRow top t.type ∧
    (e.parseStep top rest t).currentRowLength = 0 := by
  unfold ParserEngine.parseStep at h1 ⊢
  split_ifs at h1 ⊢ with g1 g2 g3 g4
  · exact absurd (h0.symm.trans h1) (by decide)
  · exact absurd (h0.symm.trans h1) (by decide)
  · have := semanticChecks_inRow e top
    cases hc : e.semanticChecks top with
    | error e1 =>
      rw [hc] at this h1
      exact absurd ((h0.symm.trans this.symm).trans h1) (by decide)
    | ok e1 =>
      rw [hc] at this h1
      have h2 : e1.inRow = true := h1
      rcases this with h | h
      · exact absurd ((h0.symm.trans h.symm).trans h2) (by decide)
      · exact absurd (h.symm.trans h2) (by decide)
  · exact absurd (h0.symm.trans h1) (by decide)
  · obtain ⟨_, _, h | h⟩ := expand_counters { e with pdaStack := rest } top t.type
    · exact absurd ((h0.symm.trans h.1.symm).trans h1) (by decide)
    · exact ⟨by simpa using g3, h.1, h.2.2⟩

theorem isOperator_spec (top : Str) (h : isOperator top = true) :
    top ≠ "$".toList ∧ isTerminal top = true ∧ isOperatorSource top = true ∧
    ¬ (top = "num".toList) ∧ ¬ (top = "]".toList) ∧
    (top = "+".toList ∨ top = "-".toList ∨ top = "*".toList) := by
  unfold isOperator at h
  simp only [Bool.or_eq_true, decide_eq_true_eq] at h
  rcases h with (h | h) | h
  all_goals subst h
  all_goals refine ⟨by decide, by decide, by decide, by decide, by decide, ?_⟩
  · exact Or.inl rfl
  · exact Or.inr (Or.inl rfl)
  · exact Or.inr (Or.inr rfl)

/-- The semantic checks change `matrix1Cols` only on an operator terminal with a known row
width. -/
theorem semanticChecks_m1 (e : ParserEngine) (top : Str) :
    match e.semanticChecks top with
    | .error e1 => e1.matrix1Cols = e.matrix1Cols
    | .ok e1 => e1.matrix1Cols = e.matrix1Cols ∨
        (isOperator top = true ∧ e.expectedRowLength ≠ -1) := by
  unfold ParserEngine.semanticChecks
  split_ifs with h1 h2 h3 h4 h5 h6 h7 h8
  all_goals first
    | exact rfl
    | exact Or.inl rfl
    | (refine Or.inr ⟨?_, by assumption⟩
       rcases h7 with h | h | h <;> subst h <;> decide)

/-- The semantic checks on an operator terminal pass; they record a known row width in
`matrix1Cols` and reset the other three counters. -/
theorem semanticChecks_operator (e : ParserEngine) (top : Str) (h : isOperator top = true) :
    ∃ e1, e.semanticChecks top = .ok e1 ∧ e1.expectedRowLength = -1 ∧ e1.currentRowLength = 0 ∧
      e1.inRow = false ∧ (e.expectedRowLength ≠ -1 → e1.matrix1Cols = e.expectedRowLength) := by
  obtain ⟨_, _, _, a4, a5, a6⟩ := isOperator_spec top h
  unfold ParserEngine.semanticChecks
  rw [if_neg (fun hh => a4 hh.1), if_neg (fun hh => a5 hh.1), if_pos a6]
  refine ⟨_, rfl, rfl, rfl, rfl, fun hx => ?_⟩
  simp only [ne_eq, hx, not_false_eq_true, if_true]
  rfl

/-- A parser action that changes `matrix1Cols` is the match of an operator terminal with a known
row width. -/
theorem parseStep_m1 (e : ParserEngine) (top : Str) (rest : List Str) (t : Token)
    (h : (e.parseStep top rest t).matrix1Cols ≠ e.matrix1Cols) :
    isOperator top = true ∧ terminalMatches top t.type = true ∧ e.expectedRowLength ≠ -1 := by
  unfold ParserEngine.parseStep at h
  split_ifs at h with g1 g2 g3 g4
  · exact absurd rfl h
  · exact absurd rfl h
  · have := semanticChecks_m1 e top
    cases hc : e.semanticChecks top with
    | error e1 =>
      rw [hc] at this h
      exact absurd this h
    | ok e1 =>
      rw [hc] at this h
      rcases this with h' | h'
      · exact absurd h' h
      · exact ⟨h'.1, g4, h'.2⟩
  · exact absurd rfl h
  · exact absurd (expand_counters { e with pdaStack := rest } top t.type).2.1 h

/-- The match of an operator terminal: the terminal is popped, a known row width is recorded in
`matrix1Cols`, and the other three counters are reset. -/
theorem parseStep_operator (e : ParserEngine) (top : Str) (rest : List Str) (t : Token)
    (h : isOperator top = true) (hm : terminalMatches top t.type = true) :
    (e.parseStep top rest t).pdaStack = rest ∧
    (e.parseStep top rest t).expectedRowLength = -1 ∧
    (e.parseStep top rest t).currentRowLength = 0 ∧
    (e.parseStep top rest t).inRow = false ∧
    (e.expectedRowLength ≠ -1 → (e.parseStep top rest t).matrix1Cols = e.expectedRowLength) := by
  obtain ⟨a1, a2, _, _, _, _⟩ := isOperator_spec top h
  obtain ⟨e1, b1, b2, b3, b4, b5⟩ := semanticChecks_operator e top h
  unfold ParserEngine.parseStep
  rw [if_neg a1, if_pos a2, if_pos hm]
  simp only [b1]
  exact ⟨rfl, b2, b3, b4, b5⟩

theorem opWeight_cons (x : Str) (xs : List Str) :
    opWeight (x :: xs) = opWeight xs + (if isOperatorSource x = true then 1 else 0) := by
  simp [opWeight, List.countP_cons]

theorem opWeight_append (xs ys : List Str) : opWeight (xs ++ ys) = opWeight xs + opWeight ys := by
  simp [opWeight, List.countP_append]

/-- An expansion puts at most one operator source on the stack, and none unless the expanded
symbol is one. -/
theorem expand_weight (e : ParserEngine) (top : Str) (t : TokenType) :
    opWeight (e.expand top t).pdaStack
      ≤ opWeight e.pdaStack + (if isOperatorSource top = true then 1 else 0) := by
  unfold ParserEngine.expand
  repeat' refine ite_cases (fun x : ParserEngine => opWeight x.pdaStack ≤
    opWeight e.pdaStack + (if isOperatorSource top = true then 1 else 0)) _ _ _ (fun _ => ?_) (fun _ => ?_)
  all_goals first
    | exact Nat.le_add_right _ _
    | (show opWeight (_ ++ e.pdaStack) ≤ _
       rw [opWeight_append]
       subst_vars
       simp [opWeight, isOperatorSource, isOperator, List.countP_cons]
       try omega)

/-- No parser action raises the number of operator sources on the stack. -/
theorem parseStep_weight (e : ParserEngine) (top : Str) (rest : List Str) (t : Token)
    (hs : e.pdaStack = top :: rest) :
    opWeight (e.parseStep top rest t).pdaStack ≤ opWeight e.pdaStack := by
  rw [hs]
  unfold ParserEngine.parseStep
  split_ifs with h1 h2 h3 h4
  · show opWeight rest ≤ _
    rw [opWeight_cons]; exact Nat.le_add_right _ _
  · show opWeight e.pdaStack ≤ _
    rw [hs]
  · cases hc : e.semanticChecks top with
    | error e1 =>
      show opWeight e1.pdaStack ≤ _
      rw [(semanticChecks_error_effect e e1 top hc).2.1, hs]
    | ok e1 =>
      show opWeight rest ≤ _
      rw [opWeight_cons]; exact Nat.le_add_right _ _
  · show opWeight e.pdaStack ≤ _
    rw [hs]
  · rw [opWeight_cons]
    exact expand_weight { e with pdaStack := rest } top t.type

theorem step_weight (e e' : ParserEngine) (hs : e.step = some e') :
    opWeight e'.pdaStack ≤ opWeight e.pdaStack := by
  rcases step_cases e e' hs with ⟨_, rfl⟩ | ⟨_, _, rfl⟩ | ⟨_, _, rfl⟩ | ⟨_, top, rest, t, c1, _, rfl⟩
  · exact le_refl _
  · rw [(lexStep_sameParser e.cleared).1]
    exact le_refl _
  · exact le_refl _
  · exact parseStep_weight e.cleared top rest t c1

/-- A step that changes `matrix1Cols` is an operator match with a known row width. -/
theorem step_m1 (e e' : ParserEngine) (hs : e.step = some e')
    (h : e'.matrix1Cols ≠ e.matrix1Cols) :
    OperatorMatch e ∧ e.expectedRowLength ≠ -1 := by
  rcases step_cases e e' hs with ⟨_, rfl⟩ | ⟨_, _, rfl⟩ | ⟨_, _, rfl⟩ | ⟨hp, top, rest, t, c1, c2, rfl⟩
  · exact absurd rfl h
  · exact absurd (lexStep_sameParser e.cleared).2.2.2.2.1 h
  · exact absurd rfl h
  · obtain ⟨a1, a2, a3⟩ := parseStep_m1 e.cleared top rest t h
    exact ⟨⟨hp, top, rest, t, c1, c2, a1, a2⟩, a3⟩

/-- The effect of an operator match. -/
theorem step_operator (e e' : ParserEngine) (hs : e.step = some e') (h : OperatorMatch e) :
    opWeight e'.pdaStack + 1 = opWeight e.pdaStack ∧ e'.expectedRowLength = -1 ∧
    e'.currentRowLength = 0 ∧ e'.inRow = false ∧
    (e.expectedRowLength ≠ -1 → e'.matrix1Cols = e.expectedRowLength) := by
  obtain ⟨hp, top, rest, t, c1, c2, c3, c4⟩ := h
  rw [step_parsing e top rest t hp c1 c2] at hs
  cases hs
  obtain ⟨a1, a2, a3, a4, a5⟩ := parseStep_operator e.cleared top rest t c3 c4
  refine ⟨?_, a2, a3, a4, a5⟩
  rw [a1, c1, opWeight_cons, if_pos (isOperator_spec top c3).2.2.1]

theorem operatorInv_step (e e' : ParserEngine) (h : OperatorInv e) (hs : e.step = some e') :
    OperatorInv e' := by
  have hw := step_weight e e' hs
  refine ⟨le_trans hw h.1, fun hm => ?_⟩
  by_cases hc : e'.matrix1Cols = e.matrix1Cols
  · have := h.2 (by rw [← hc]; exact hm)
    omega
  · have := (step_operator e e' hs (step_m1 e e' hs hc).1).1
    have := h.1
    omega

theorem operatorInv_reset (prior : ParserEngine) (text : Str) :
    OperatorInv (prior.reset text) :=
  ⟨(by decide : opWeight ["S".toList, "$".toList] ≤ 1), fun h => absurd rfl h⟩

theorem operatorInv_run (prior : ParserEngine) (text : Str) (n : Nat) (e : ParserEngine)
    (h : (prior.reset text).run n = some e) : OperatorInv e :=
  run_induction OperatorInv _ (operatorInv_reset prior text) operatorInv_step n e h

/-- Once no operator source is left on the stack, none appears again. -/
theorem weight_zero_run (s e : ParserEngine) (d : Nat) (h0 : opWeight s.pdaStack = 0)
    (h : s.run d = some e) : opWeight e.pdaStack = 0 :=
  run_induction (fun x => opWeight x.pdaStack = 0) s h0
    (fun a b ha hs => Nat.le_zero.1 (ha ▸ step_weight a b hs)) d e h

/-- Of two steps of a run that both change `matrix1Cols`, the later is not after the earlier. -/
theorem m1_change_order (prior : ParserEngine) (text : Str) (i j : Nat)
    (ei ei' ej ej' : ParserEngine) (hi : (prior.reset text).run i = some ei)
    (hi' : ei.step = some ei') (hj : (prior.reset text).run j = some ej)
    (hj' : ej.step = some ej') (ci : ei'.matrix1Cols ≠ ei.matrix1Cols)
    (cj : ej'.matrix1Cols ≠ ej.matrix1Cols) : j ≤ i := by
  by_contra hlt
  obtain ⟨d, rfl⟩ := Nat.exists_eq_add_of_le (show i + 1 ≤ j by omega)
  have a1 := (step_operator ei ei' hi' (step_m1 ei ei' hi' ci).1).1
  have a2 := (operatorInv_run prior text i ei hi).1
  have a3 : opWeight ei'.pdaStack = 0 := by omega
  have hrun : ei'.run d = some ej := by
    rw [run_add, run_add, hi] at hj
    simpa [ParserEngine.run, hi'] using hj
  have a4 := weight_zero_run ei' ej d a3 hrun
  have a5 := (step_operator ej ej' hj' (step_m1 ej ej' hj' cj).1).1
  omega

theorem stepsIn_succ (m : AnimMode) (l : Lexer) (n : Nat) (hm : l.mode = m)
    (h : l.step.1 = true) (hr : l.step.2.readyToken = noToken) :
    l.stepsIn m (n + 1) = l.step.2.stepsIn m n := by
  simp [Lexer.stepsIn, hm, h, hr]

theorem stepsIn_add (m : AnimMode) (a b : Nat) : ∀ (l : Lexer),
    l.stepsIn m (a + b) = (l.stepsIn m a).bind (Lexer.stepsIn m b) := by
  induction a with
  | zero => intro l; simp [Lexer.stepsIn]
  | succ a ih =>
    intro l
    rw [Nat.add_right_comm]
    simp only [Lexer.stepsIn]
    split_ifs
    · exact ih _
    · rfl

/-- Calls counted by `stepsIn` are calls counted by `stepsBusy`. -/
theorem stepsIn_busy (m : AnimMode) (n : Nat) : ∀ (l l' : Lexer),
    l.stepsIn m n = some l' → l.stepsBusy n = some l' := by
  induction n with
  | zero => intro l l' h; simpa [Lexer.stepsIn, Lexer.stepsBusy] using h
  | succ n ih =>
    intro l l' h
    simp only [Lexer.stepsIn] at h
    split_ifs at h with hc
    rw [stepsBusy_succ l n hc.2.1]
    exact ih _ _ h

theorem nfa_stepsIn (ds : Str) : ∀ (l : Lexer) (pre rest b : Str),
    LexNfa l (pre ++ (ds ++ rest)) pre.length b 2 → (∀ c ∈ ds, isdigit c = true) →
    NoDigitAhead rest →
    ∃ l', l.stepsIn MODE_NFA (3 * ds.length + 1) = some l' ∧
      LexNfa l' (pre ++ (ds ++ rest)) (pre.length + ds.length) (b ++ ds) 5 := by
  induction ds with
  | nil =>
    intro l pre rest b h _ hr
    obtain ⟨h1, h2⟩ := nfa2_done l pre rest b h hr
    exact ⟨l.step.2, by simp [Lexer.stepsIn, h1, h.2.2.1, h2.2.2.2.2.2.1], by simpa using h2⟩
  | cons d ds ih =>
    intro l pre rest b h hd hr
    have hdd : isdigit d = true := hd d (by simp)
    obtain ⟨a1, a2⟩ := nfa2_more l pre d (ds ++ rest) b h hdd
    obtain ⟨b1, b2⟩ := nfa3 l.step.2 pre d (ds ++ rest) b a2
    obtain ⟨c1, c2⟩ := nfa4 l.step.2.step.2 _ _ _ b2
    have c3 : LexNfa l.step.2.step.2.step.2 ((pre ++ [d]) ++ (ds ++ rest)) (pre ++ [d]).length
        (b ++ [d]) 2 := by simpa using c2
    obtain ⟨l', e1, e2⟩ := ih _ (pre ++ [d]) rest (b ++ [d]) c3
      (fun c hc => hd c (by simp [hc])) hr
    refine ⟨l', ?_, ?_⟩
    · have : 3 * (d :: ds).length + 1 = (3 * ds.length + 1) + 1 + 1 + 1 := by
        simp only [List.length_cons]; omega
      rw [this, stepsIn_succ _ l _ h.2.2.1 a1 a2.2.2.2.2.2.1,
        stepsIn_succ _ _ _ a2.2.2.1 b1 b2.2.2.2.2.2.1,
        stepsIn_succ _ _ _ b2.2.2.1 c1 c2.2.2.2.2.2.1, e1]
    · have : pre.length + (d :: ds).length = (pre ++ [d]).length + ds.length := by
        simp only [List.length_cons, List.length_append, List.length_nil]; omega
      rw [this]
      simpa using e2

theorem dfa_stepsIn (k : Nat) : ∀ (l : Lexer) (input : Str) (p : Nat) (b : Str) (i : Nat),
    LexDfa l input p b D_ACCEPT i → i + k = b.length →
    ∃ l', l.stepsIn MODE_DFA k = some l' ∧ LexDfa l' input p b D_ACCEPT b.length := by
  induction k with
  | zero =>
    intro l input p b i h hi
    exact ⟨l, rfl, by simpa [← hi] using h⟩
  | succ k ih =>
    intro l input p b i h hi
    obtain ⟨a1, a2⟩ := dfa_accept l input p b i h (by omega)
    obtain ⟨l', e1, e2⟩ := ih _ input p b (i + 1) a2 (by omega)
    exact ⟨l', by rw [stepsIn_succ _ l _ h.2.2.1 a1 a2.2.2.2.2.2.2.1, e1], e2⟩

theorem step_cursor_le (e e' : ParserEngine) (hs : e.step = some e') :
    e.tokenCursor ≤ e'.tokenCursor := by
  rcases step_cases e e' hs with ⟨_, rfl⟩ | ⟨_, _, rfl⟩ | ⟨_, _, rfl⟩ | ⟨_, top, rest, t, _, _, rfl⟩
  · exact le_refl _
  · rw [(lexStep_sameParser e.cleared).2.1]
    exact le_refl _
  · exact le_refl _
  · rcases (parseStep_effect e.cleared top rest t).2.2 with h | h
    · rw [h.1]; exact le_refl _
    · rw [h.1]; exact Nat.le_succ _

theorem run_cursor_le (e e' : ParserEngine) (d : Nat) (h : e.run d = some e') :
    e.tokenCursor ≤ e'.tokenCursor :=
  run_induction (fun x => e.tokenCursor ≤ x.tokenCursor) e (le_refl _)
    (fun a b ha hs => le_trans ha (step_cursor_le a b hs)) d e' h

/-- An expansion that does not lock lowers the potential of the stack. -/
theorem expand_potential (e : ParserEngine) (top : Str) (t : TokenType)
    (h : (e.expand top t).isLocked = false) :
    potential (e.expand top t).pdaStack < expansionRank top + potential e.pdaStack := by
  revert h
  unfold ParserEngine.expand
  repeat' refine ite_cases (fun x : ParserEngine => x.isLocked = false →
    potential x.pdaStack < expansionRank top + potential e.pdaStack) _ _ _ (fun _ => ?_) (fun _ => ?_)
  all_goals intro h
  all_goals first
    | (rw [triggerError_isLocked] at h; cases h)
    | (subst_vars
       simp [potential, isTerminal, expansionRank, ParserEngine.pushStack, ParserEngine.addLog]
       first | done | omega | (split_ifs <;> omega))

/-- A parser action that neither halts the engine nor moves the cursor is an expansion, and
lowers the potential of the stack. -/
theorem parseStep_potential (e : ParserEngine) (top : Str) (rest : List Str) (t : Token)
    (h1 : (e.parseStep top rest t).isLocked = false)
    (h2 : (e.parseStep top rest t).isFinished = false)
    (hc : (e.parseStep top rest t).tokenCursor = e.tokenCursor) :
    potential (e.parseStep top rest t).pdaStack < potential (top :: rest) := by
  unfold ParserEngine.parseStep at h1 h2 hc ⊢
  split_ifs at h1 h2 hc ⊢ with g1 g2 g3 g4
  · cases h2
  · cases h1
  · cases hs : e.semanticChecks top with
    | error e1 =>
      rw [hs] at h1
      have := (semanticChecks_error_effect e e1 top hs).1
      rw [h1] at this
      cases this
    | ok e1 =>
      rw [hs] at hc
      have a3 := (semanticChecks_ok_effect e e1 top hs).2.2.1
      have hc' : e1.tokenCursor + 1 = e.tokenCursor := hc
      omega
  · cases h1
  · have := expand_potential { e with pdaStack := rest } top t.type h1
    have hp : potential (top :: rest) = expansionRank top + potential rest := by
      rw [potential, if_neg (fun hh => hh.elim g1 g3)]
    rw [hp]
    exact this

theorem halted_of_not (e : ParserEngine) (h : ¬ Halted e) :
    e.isLocked = false ∧ e.isFinished = false := by
  constructor
  · cases hl : e.isLocked with
    | false => rfl
    | true => exact absurd (Or.inl hl) h
  · cases hf : e.isFinished with
    | false => rfl
    | true => exact absurd (Or.inr hf) h

/-- Progress of the parsing phase: a state that has not halted and satisfies the parsing-phase
invariant and the stack invariant steps to a state that satisfies them too and that has halted,
or has matched one more token, or has the same cursor and a lower potential. -/
theorem parse_progress (toks : List Token) (hE : EndsOnce toks) (e : ParserEngine)
    (hinv : ParseInv toks e) (hstk : StackInv e) (hh : ¬ Halted e) :
    ∃ e1, e.step = some e1 ∧ ParseInv toks e1 ∧ StackInv e1 ∧
      (Halted e1 ∨ e1.tokenCursor = e.tokenCursor + 1 ∨
        (e1.tokenCursor = e.tokenCursor ∧ potential e1.pdaStack < potential e.pdaStack)) := by
  obtain ⟨hl, hf⟩ := halted_of_not e hh
  obtain ⟨e1, s1, inv1⟩ := parseInv_step toks hE e hinv
  refine ⟨e1, s1, inv1, stackInv_step e e1 hstk s1, ?_⟩
  rcases step_cases e e1 s1 with ⟨c, _⟩ | ⟨_, c, _⟩ | ⟨_, c, _⟩ | ⟨_, top, rest, t, c1, _, c3⟩
  · exact absurd c hh
  · rw [hinv.1] at c; cases c
  · obtain ⟨body, b1, _⟩ := hstk.2 hf
    rw [c] at b1
    simp at b1
  · by_cases hh1 : Halted e1
    · exact Or.inl hh1
    · obtain ⟨hl1, hf1⟩ := halted_of_not e1 hh1
      rcases (parseStep_effect e.cleared top rest t).2.2 with hk | hk
      · have hlt := parseStep_potential e.cleared top rest t (c3 ▸ hl1) (c3 ▸ hf1) hk.1
        rw [← c3, ← c1] at hlt
        exact Or.inr (Or.inr ⟨by rw [c3]; exact hk.1, hlt⟩)
      · exact Or.inr (Or.inl (by rw [c3]; exact hk.1))

/-- From every state of the parsing phase that satisfies the parsing-phase invariant and the
stack invariant, finitely many steps reach a halted state: `r` bounds the tokens not yet matched
and `p` the potential of the stack. -/
theorem parse_halts (toks : List Token) (hE : EndsOnce toks) (r : Nat) :
    ∀ (p : Nat) (e : ParserEngine), ParseInv toks e → StackInv e →
      toks.length - e.tokenCursor ≤ r → potential e.pdaStack ≤ p →
      ∃ n e', e.run n = some e' ∧ Halted e' := by
  induction r with
  | zero =>
    intro p e hinv _ hr _
    have := hinv.2.2.1
    omega
  | succ r ihr =>
    intro p
    induction p with
    | zero =>
      intro e hinv hstk hr hp
      by_cases hh : Halted e
      · exact ⟨0, e, rfl, hh⟩
      · obtain ⟨e1, s1, inv1, stk1, h | h | h⟩ := parse_progress toks hE e hinv hstk hh
        · exact ⟨1, e1, by simp [ParserEngine.run, s1], h⟩
        · have hlen := inv1.2.2.1
          obtain ⟨n, e2, r1, r2⟩ := ihr (potential e1.pdaStack) e1 inv1 stk1
            (by omega) (le_refl _)
          exact ⟨n + 1, e2, by simp [ParserEngine.run, s1, r1], r2⟩
        · omega
    | succ p ihp =>
      intro e hinv hstk hr hp
      by_cases hh : Halted e
      · exact ⟨0, e, rfl, hh⟩
      · obtain ⟨e1, s1, inv1, stk1, h | h | h⟩ := parse_progress toks hE e hinv hstk hh
        · exact ⟨1, e1, by simp [ParserEngine.run, s1], h⟩
        · have hlen := inv1.2.2.1
          obtain ⟨n, e2, r1, r2⟩ := ihr (potential e1.pdaStack) e1 inv1 stk1
            (by omega) (le_refl _)
          exact ⟨n + 1, e2, by simp [ParserEngine.run, s1, r1], r2⟩
        · obtain ⟨n, e2, r1, r2⟩ := ihp e1 inv1 stk1 (by omega) (by omega)
          exact ⟨n + 1, e2, by simp [ParserEngine.run, s1, r1], r2⟩

theorem semanticChecks_width (e : ParserEngine) (top : Str) (h : WidthInv e) :
    match e.semanticChecks top with
    | .error e1 => WidthInv e1
    | .ok e1 => WidthInv e1 := by
  obtain ⟨h1, h2, h3⟩ := h
  unfold ParserEngine.semanticChecks
  split_ifs with g1 g2 g3 g4 g5 g6 g7 g8
  all_goals simp only [WidthInv, ParserEngine.addLog, ParserEngine.triggerError]
  all_goals refine ⟨?_, ?_, ?_⟩
  all_goals first
    | assumption
    | exact Or.inl rfl
    | exact Or.inl trivial
    | (intro a b; exact absurd rfl a)
    | omega

theorem parseStep_width (e : ParserEngine) (top : Str) (rest : List Str) (t : Token)
    (h : WidthInv e) : WidthInv (e.parseStep top rest t) := by
  unfold ParserEngine.parseStep
  split_ifs with g1 g2 g3 g4
  · exact h
  · exact h
  · have := semanticChecks_width e top h
    cases hs : e.semanticChecks top with
    | error e1 => rw [hs] at this; exact this
    | ok e1 => rw [hs] at this; exact this
  · exact h
  · obtain ⟨a1, a2, _⟩ := expand_counters { e with pdaStack := rest } top t.type
    unfold WidthInv
    rw [a1, a2]
    exact h

theorem widthInv_step (e e' : ParserEngine) (h : WidthInv e) (hs : e.step = some e') :
    WidthInv e' := by
  rcases step_cases e e' hs with ⟨_, rfl⟩ | ⟨_, _, rfl⟩ | ⟨_, _, rfl⟩ | ⟨_, top, rest, t, _, _, rfl⟩
  · exact h
  · obtain ⟨_, _, a3, _, a5, _⟩ := lexStep_sameParser e.cleared
    unfold WidthInv
    rw [a3, a5]
    exact h
  · exact h
  · exact parseStep_width e.cleared top rest t h

theorem widthInv_run (prior : ParserEngine) (text : Str) (n : Nat) (e : ParserEngine)
    (h : (prior.reset text).run n = some e) : WidthInv e :=
  run_induction WidthInv _ ⟨Or.inl rfl, Or.inl rfl, fun a _ => absurd rfl a⟩ widthInv_step n e h

/-- Popping a symbol that is neither an operator source, nor a closing bracket, nor one of the
symbols that open a row body keeps the pending row width. -/
theorem widthPending_pop (top : Str) (stk : List Str) (exp : Int) (inRow : Bool)
    (h1 : isOperatorSource top = false) (h2 : ¬ top = "]".toList)
    (h3 : ¬ (top = "S".toList ∨ top = "M".toList ∨ top = "Core".toList ∨ top = "RowList".toList
      ∨ top = "Row".toList)) (h4 : ¬ top = "Inside".toList)
    (h : WidthPending (top :: stk) exp inRow) : WidthPending stk exp inRow := by
  unfold WidthPending at h ⊢
  simp only [opWeight_cons, hasClose, willSetWidth, h1, if_neg h3, if_neg h4,
    decide_eq_false h2, Bool.false_or, Bool.false_eq_true, if_false, Nat.add_zero] at h
  exact h

/-- An expansion that does not lock keeps the pending row width of the left operand. -/
theorem expand_operand (e : ParserEngine) (top : Str) (t : TokenType)
    (hop : isOperator top = false) (hcl : ¬ top = "]".toList)
    (hj : WidthPending (top :: e.pdaStack) e.expectedRowLength e.inRow) :
    (e.expand top t).isLocked = false →
      WidthPending (e.expand top t).pdaStack (e.expand top t).expectedRowLength
        (e.expand top t).inRow := by
  unfold ParserEngine.expand
  repeat' refine ite_cases (fun x : ParserEngine => x.isLocked = false →
    WidthPending x.pdaStack x.expectedRowLength x.inRow) _ _ _ (fun _ => ?_) (fun _ => ?_)
  all_goals intro h
  all_goals first
    | (rw [triggerError_isLocked] at h; cases h)
    | (subst_vars
       simp only [WidthPending, opWeight, hasClose, willSetWidth, isOperatorSource, isOperator,
         ParserEngine.pushStack, ParserEngine.addLog, List.countP_cons, List.reverse_cons,
         List.reverse_nil, List.nil_append, List.cons_append, List.singleton_append] at hj ⊢
       simp at hj ⊢
       first | done | omega | tauto)
    | (refine widthPending_pop top _ _ _ ?_ hcl ?_ (by assumption) hj
       · unfold isOperatorSource
         rw [hop, decide_eq_false ‹¬ top = "S".toList›, decide_eq_false ‹¬ top = "OP".toList›]
         rfl
       · rintro (hh | hh | hh | hh | hh) <;> contradiction)

/-- A terminal match that passes the semantic checks and leaves `matrix1Cols` unwritten keeps
the pending row width of the left operand. -/
theorem semanticChecks_operand (e e1 : ParserEngine) (top : Str) (rest : List Str)
    (ht : isTerminal top = true) (hs : e.semanticChecks top = .ok e1)
    (hj : WidthPending (top :: rest) e.expectedRowLength e.inRow)
    (hm : e1.matrix1Cols = -1) :
    WidthPending rest e1.expectedRowLength e1.inRow := by
  unfold isTerminal at ht
  simp only [Bool.or_eq_true, decide_eq_true_eq] at ht
  unfold ParserEngine.semanticChecks at hs
  rcases ht with (((((h | h) | h) | h) | h) | h) | h
  all_goals subst h
  all_goals simp only [WidthPending, opWeight_cons, hasClose, willSetWidth, isOperatorSource,
    isOperator] at hj
  all_goals simp at hj hs
  all_goals try split_ifs at hs
  all_goals try simp only [Except.ok.injEq] at hs
  all_goals subst hs
  all_goals simp only [WidthPending, ParserEngine.addLog] at hm ⊢
  all_goals first
    | exact hj
    | (refine ⟨hj.1, ?_⟩; omega)
    | (refine ⟨hj.1, ?_⟩; tauto)
    | tauto

theorem not_terminal_spec (top : Str) (h : ¬ isTerminal top = true) :
    isOperator top = false ∧ ¬ top = "]".toList := by
  unfold isTerminal at h
  unfold isOperator
  simp only [Bool.or_eq_true, decide_eq_true_eq, not_or] at h
  obtain ⟨⟨⟨⟨⟨⟨_, h2⟩, _⟩, h4⟩, h5⟩, h6⟩, _⟩ := h
  simp only [decide_eq_false h4, decide_eq_false h5, decide_eq_false h6, Bool.or_self]
  exact ⟨trivial, h2⟩

/-- A parser action that neither locks the engine nor writes `matrix1Cols` keeps the pending row
width of the left operand. -/
theorem parseStep_operand (e : ParserEngine) (top : Str) (rest : List Str) (t : Token)
    (hj : WidthPending (top :: rest) e.expectedRowLength e.inRow)
    (h1 : (e.parseStep top rest t).isLocked = false)
    (hm : (e.parseStep top rest t).matrix1Cols = -1) :
    WidthPending (e.parseStep top rest t).pdaStack (e.parseStep top rest t).expectedRowLength
      (e.parseStep top rest t).inRow := by
  unfold ParserEngine.parseStep at h1 hm ⊢
  split_ifs at h1 hm ⊢ with g1 g2 g3 g4
  · subst g1
    exact widthPending_pop _ rest _ _ (by decide) (by decide) (by decide) (by decide) hj
  · cases h1
  · cases hs : e.semanticChecks top with
    | error e1 =>
      rw [hs] at h1
      have := (semanticChecks_error_effect e e1 top hs).1
      rw [h1] at this
      cases this
    | ok e1 =>
      rw [hs] at hm
      exact semanticChecks_operand e e1 top rest g3 hs hj hm
  · cases h1
  · obtain ⟨a1, a2⟩ := not_terminal_spec top g3
    exact expand_operand { e with pdaStack := rest } top t.type a1 a2 hj h1

theorem operandInv_step (e e' : ParserEngine) (h : OperandInv e) (hs : e.step = some e') :
    OperandInv e' := by
  rcases step_cases e e' hs with ⟨_, rfl⟩ | ⟨_, _, rfl⟩ | ⟨_, _, rfl⟩ | ⟨hp, top, rest, t, c1, _, rfl⟩
  · exact h
  · obtain ⟨a1, _, a3, _, a5, a6, a7, _⟩ := lexStep_sameParser e.cleared
    unfold OperandInv
    rw [a1, a3, a5, a6, a7]
    exact h
  · exact h
  · intro h1 hm
    have hm0 : e.matrix1Cols = -1 := by
      by_contra hne
      by_cases hc : (e.cleared.parseStep top rest t).matrix1Cols = e.cleared.matrix1Cols
      · rw [hm] at hc
        exact hne hc.symm
      · obtain ⟨b1, b2, b3⟩ := parseStep_m1 e.cleared top rest t hc
        have := (parseStep_operator e.cleared top rest t b1 b2).2.2.2.2 b3
        rw [hm] at this
        exact b3 this.symm
    have hj := h hp.2.1 hm0
    rw [c1] at hj
    exact parseStep_operand e.cleared top rest t hj h1 hm

theorem operandInv_run (prior : ParserEngine) (text : Str) (n : Nat) (e : ParserEngine)
    (h : (prior.reset text).run n = some e) : OperandInv e :=
  run_induction OperandInv _
    (fun _ _ => ⟨(by decide : 1 ≤ opWeight ["S".toList, "$".toList]),
      Or.inr (Or.inr (by decide : willSetWidth ["S".toList, "$".toList] = true))⟩)
    operandInv_step n e h

theorem expand_message (e : ParserEngine) (top : Str) (t : TokenType)
    (h : RowMismatchReported (e.expand top t)) : RowMismatchReported e := by
  revert h
  unfold ParserEngine.expand
  repeat' refine ite_cases (fun x : ParserEngine => RowMismatchReported x →
    RowMismatchReported e) _ _ _ (fun _ => ?_) (fun _ => ?_)
  all_goals intro h
  all_goals first
    | exact h
    | (simp [RowMismatchReported, ParserEngine.triggerError, ParserEngine.addLog] at h)

/-- The semantic checks report a row mismatch only from rule 3 (line 230), and leave the status
message alone when they pass. -/
theorem semanticChecks_message (e : ParserEngine) (top : Str) :
    match e.semanticChecks top with
    | .error e1 => RowMismatchReported e1 → e1.isLocked = true ∧
        e1.matrix1Cols = e.matrix1Cols ∧
        ¬ (e.matrix1Cols ≠ -1 ∧ e.currentRowLength ≠ e.matrix1Cols) ∧
        e.expectedRowLength ≠ -1 ∧ e.currentRowLength ≠ e.expectedRowLength
    | .ok e1 => e1.statusMessage = e.statusMessage := by
  unfold ParserEngine.semanticChecks
  split_ifs with g1 g2 g3 g4 g5 g6 g7 g8
  all_goals first
    | rfl
    | exact fun _ => ⟨rfl, rfl, g4, g5, g6⟩
    | (intro h
       simp [RowMismatchReported, ParserEngine.triggerError, ParserEngine.addLog] at h)

/-- A parser action after which a row mismatch is reported either found it reported already or
is the failure of rule 3, with `matrix1Cols` kept. -/
theorem parseStep_message (e : ParserEngine) (top : Str) (rest : List Str) (t : Token)
    (h : RowMismatchReported (e.parseStep top rest t)) :
    RowMismatchReported e ∨
      ((e.parseStep top rest t).isLocked = true ∧
        (e.parseStep top rest t).matrix1Cols = e.matrix1Cols ∧
        ¬ (e.matrix1Cols ≠ -1 ∧ e.currentRowLength ≠ e.matrix1Cols) ∧
        e.expectedRowLength ≠ -1 ∧ e.currentRowLength ≠ e.expectedRowLength) := by
  unfold ParserEngine.parseStep at h ⊢
  split_ifs at h ⊢ with g1 g2 g3 g4
  · simp [RowMismatchReported, ParserEngine.addLog] at h
  · simp [RowMismatchReported, ParserEngine.triggerError, ParserEngine.addLog] at h
  · have := semanticChecks_message e top
    cases hs : e.semanticChecks top with
    | error e1 =>
      rw [hs] at this h
      exact Or.inr (this h)
    | ok e1 =>
      rw [hs] at this h
      have h' : RowMismatchReported e1 := h
      unfold RowMismatchReported at h' ⊢
      rw [this] at h'
      exact Or.inl h'
  · simp [RowMismatchReported, ParserEngine.triggerError, ParserEngine.addLog] at h
  · exact Or.inl (expand_message { e with pdaStack := rest } top t.type h)

theorem lexStep_message (e : ParserEngine) (h : RowMismatchReported e.lexStep) :
    RowMismatchReported e := by
  revert h
  unfold ParserEngine.lexStep
  dsimp only
  split_ifs
  all_goals intro h
  all_goals first
    | exact h
    | (simp [RowMismatchReported, ParserEngine.addLog] at h)

theorem mismatchInv_step (e e' : ParserEngine) (h : MismatchInv e ∧ WidthInv e)
    (hs : e.step = some e') : MismatchInv e' ∧ WidthInv e' := by
  refine ⟨?_, widthInv_step e e' h.2 hs⟩
  rcases step_cases e e' hs with ⟨_, rfl⟩ | ⟨_, _, rfl⟩ | ⟨_, _, rfl⟩ | ⟨hp, top, rest, t, _, _, rfl⟩
  · exact h.1
  · intro hr
    obtain ⟨_, _, _, _, a5, _, a7, _⟩ := lexStep_sameParser e.cleared
    rw [a5, a7]
    exact h.1 (lexStep_message e.cleared hr)
  · exact h.1
  · intro hr
    rcases parseStep_message e.cleared top rest t hr with hk | ⟨k1, k2, k3, k4, k5⟩
    · have := (h.1 hk).1
      rw [hp.2.1] at this
      cases this
    · refine ⟨k1, ?_⟩
      rw [k2]
      by_contra hne
      have heq := h.2.2.2 k4 hne
      have k3' : ¬ (e.matrix1Cols ≠ -1 ∧ e.currentRowLength ≠ e.matrix1Cols) := k3
      have k5' : e.currentRowLength ≠ e.expectedRowLength := k5
      have heq' : e.expectedRowLength = e.matrix1Cols := heq
      exact k3' ⟨hne, fun hc => k5' (hc.trans heq'.symm)⟩

theorem mismatchInv_run (prior : ParserEngine) (text : Str) (n : Nat) (e : ParserEngine)
    (h : (prior.reset text).run n = some e) : MismatchInv e :=
  (run_induction (fun x => MismatchInv x ∧ WidthInv x) _
    ⟨fun hr => by simp [RowMismatchReported, ParserEngine.reset, ParserEngine.addLog] at hr,
      Or.inl rfl, Or.inl rfl, fun a _ => absurd rfl a⟩ mismatchInv_step n e h).1

/-- A parser action that finishes an unfinished engine keeps `isLocked`. -/
theorem parseStep_finished (e : ParserEngine) (top : Str) (rest : List Str) (t : Token)
    (h0 : e.isFinished = false) (h : (e.parseStep top rest t).isFinished = true) :
    (e.parseStep top rest t).isLocked = e.isLocked := by
  unfold ParserEngine.parseStep at h ⊢
  split_ifs at h ⊢ with g1 g2 g3 g4
  · rfl
  · exact absurd (h0.symm.trans h) (by decide)
  · cases hs : e.semanticChecks top with
    | error e1 =>
      rw [hs] at h
      have := (semanticChecks_error_effect e e1 top hs).2.2.2.2
      exact absurd ((h0.symm.trans this.symm).trans h) (by decide)
    | ok e1 =>
      rw [hs] at h
      have := (semanticChecks_ok_effect e e1 top hs).2.2.2
      have h' : e1.isFinished = true := h
      exact absurd ((h0.symm.trans this.symm).trans h') (by decide)
  · exact absurd (h0.symm.trans h) (by decide)
  · have := (expand_sameInput { e with pdaStack := rest } top t.type).2.2.2
    exact absurd ((h0.symm.trans this.symm).trans h) (by decide)

/-- Invariant of a run: a finished engine is not locked. -/
theorem finished_unlocked_step (e e' : ParserEngine)
    (h : e.isFinished = true → e.isLocked = false) (hs : e.step = some e') :
    e'.isFinished = true → e'.isLocked = false := by
  rcases step_cases e e' hs with ⟨_, rfl⟩ | ⟨_, _, rfl⟩ | ⟨_, _, rfl⟩ | ⟨hp, top, rest, t, _, _, rfl⟩
  · exact h
  · obtain ⟨_, _, _, _, _, _, a7, a8⟩ := lexStep_sameParser e.cleared
    rw [a7, a8]
    exact h
  · exact h
  · intro hf
    rw [parseStep_finished e.cleared top rest t hp.2.2 hf]
    exact hp.2.1

theorem finished_unlocked_run (prior : ParserEngine) (text : Str) (n : Nat) (e : ParserEngine)
    (h : (prior.reset text).run n = some e) (hf : e.isFinished = true) : e.isLocked = false :=
  run_induction (fun x => x.isFinished = true → x.isLocked = false) _
    (fun hx => by simp [ParserEngine.reset, ParserEngine.addLog] at hx)
    finished_unlocked_step n e h hf

set_option maxRecDepth 100000 in
/-- The member `nfaTarget` is assigned neither by `Lexer::init` nor on entering mode `MODE_NFA`
(line 63), only by the micro-steps of lines 79-84: one step after `reset("1")` of the state
reached by three steps on `"7"` the lexer is in mode `MODE_NFA` with `nfaState = S0` and
`nfaTarget = S2`, where the same step after `reset("1")` of a newly constructed engine gives
`nfaTarget = S_NONE`. -/
theorem reset_keeps_nfaTarget :
    ∃ p a b, (ParserEngine.new.reset "7".toList).run 3 = some p ∧
      (p.reset "1".toList).run 1 = some a ∧ (ParserEngine.new.reset "1".toList).run 1 = some b ∧
      (a.lexer.mode, a.lexer.nfaState, a.lexer.nfaTarget) = (MODE_NFA, S0, S2) ∧
      (b.lexer.mode, b.lexer.nfaState, b.lexer.nfaTarget) = (MODE_NFA, S0, S_NONE) := by
  obtain ⟨p, h1, h2⟩ := run_eval (ParserEngine.new.reset "7".toList) 3
    (fun p => ((p.reset "1".toList).run 1).map
      (fun a : ParserEngine => (a.lexer.mode, a.lexer.nfaState, a.lexer.nfaTarget)))
    (some (MODE_NFA, S0, S2)) rfl
  obtain ⟨b, g1, g2⟩ := run_eval (ParserEngine.new.reset "1".toList) 1
    (fun b => (b.lexer.mode, b.lexer.nfaState, b.lexer.nfaTarget)) (MODE_NFA, S0, S_NONE) rfl
  cases ha : (p.reset "1".toList).run 1 with
  | none => rw [ha] at h2; cases h2
  | some a =>
    rw [ha] at h2
    simp only [Option.map_some', Option.some.injEq] at h2
    exact ⟨p, a, b, h1, ha, g1, h2, g2⟩
/-! ## The claims -/

/-- C1. For every `k ≥ 2`, every operator `op` among `+ - *` and all lists `as`, `bs` of `k`
non-empty digit strings, the run from `reset("[a1,...,ak]" op "[b1,...,bk]")` reaches a finished
state after finitely many steps, and every state of the run is defined, has `isLocked = false` and
has no history entry whose action starts with `"ERROR"`. -/
theorem C1_equal_vectors_accepted (prior : ParserEngine) (k : Nat) (op : Char) (as bs : List Str)
    (hk : 2 ≤ k) (hop : op = '+' ∨ op = '-' ∨ op = '*') (hla : as.length = k)
    (hlb : bs.length = k) (ha : ∀ a ∈ as, DigitString a) (hb : ∀ b ∈ bs, DigitString b) :
    (∃ n e, (prior.reset (vectorText as ++ op :: vectorText bs)).run n = some e ∧
      e.isFinished = true) ∧
    ∀ j, ∃ e, (prior.reset (vectorText as ++ op :: vectorText bs)).run j = some e ∧
      e.isLocked = false ∧ ∀ h ∈ e.history, ¬ "ERROR".toList <+: h.action := by
  have hane : as ≠ [] := by intro h; rw [h] at hla; simp at hla; omega
  have hbne : bs ≠ [] := by intro h; rw [h] at hlb; simp at hlb; omega
  have hscan := scan_two_vectors as bs op hop hane hbne ha hb
  have hd : Derives false .S
      ((scanTokens [] (vectorText as ++ op :: vectorText bs)).map Token.type)
      ([as.length] ++ [bs.length]) := by
    have := Derives.start (derives_vector as hane) (charToken_operator op hop).2.2
      (derives_vector bs hbne)
    rw [hscan]
    simpa using this
  exact acceptedRun_of_derives prior _ _ k hd hk (by simp [hla, hlb])

/-- Witness of C1: the text `"[10,20]+[30,40]"`. -/
theorem C1_equal_vectors_accepted_witness :
    vectorText ["10".toList, "20".toList] ++ '+' :: vectorText ["30".toList, "40".toList]
        = "[10,20]+[30,40]".toList ∧
    (∃ n e, (ParserEngine.new.reset "[10,20]+[30,40]".toList).run n = some e ∧
      e.isFinished = true) ∧
    ∀ j, ∃ e, (ParserEngine.new.reset "[10,20]+[30,40]".toList).run j = some e ∧
      e.isLocked = false ∧ ∀ h ∈ e.history, ¬ "ERROR".toList <+: h.action :=
  ⟨by decide,
   C1_equal_vectors_accepted ParserEngine.new 2 '+' ["10".toList, "20".toList]
     ["30".toList, "40".toList] (by decide) (by decide) (by decide) (by decide) (by decide)
     (by decide)⟩

/-- C2. For `k ≥ 2`, `m ≥ 2`, `k ≠ m`, an operator `op` among `+ - *` and lists `as`, `bs` of `k`
and `m` non-empty digit strings, the run from `reset("[a1,...,ak]" op "[b1,...,bm]")` reaches a
locked state whose status message (and last history action) is
`"ERROR: Dimension Mismatch! Matrix 1=k, Matrix 2=m"`; the error is raised with the terminal `]`
on top of the stack and the cursor on the closing bracket of the right operand (the last token
before the end-of-input token); every later state is locked with the same message, every state of
the run is defined and none is finished. -/
theorem C2_dimension_mismatch (prior : ParserEngine) (k m : Nat) (op : Char) (as bs : List Str)
    (hk : 2 ≤ k) (hm : 2 ≤ m) (hkm : k ≠ m) (hop : op = '+' ∨ op = '-' ∨ op = '*')
    (hla : as.length = k) (hlb : bs.length = m) (ha : ∀ a ∈ as, DigitString a)
    (hb : ∀ b ∈ bs, DigitString b) :
    (∃ n e, (prior.reset (vectorText as ++ op :: vectorText bs)).run n = some e ∧
      e.isLocked = true ∧ e.isFinished = false ∧
      e.statusMessage = "ERROR: ".toList ++ ("Dimension Mismatch! Matrix 1=".toList ++
        to_string k ++ ", Matrix 2=".toList ++ to_string m) ∧
      (∃ h, e.history.getLast? = some h ∧ h.action = e.statusMessage) ∧
      e.pdaStack = ["]".toList, "$".toList] ∧
      Look e.tokenStream e.tokenCursor RBRACKET ∧ e.tokenCursor + 2 = e.tokenStream.length ∧
      ∀ j, n ≤ j → ∃ e', (prior.reset (vectorText as ++ op :: vectorText bs)).run j = some e' ∧
        e'.isLocked = true ∧ e'.statusMessage = e.statusMessage) ∧
    ∀ j, ∃ e, (prior.reset (vectorText as ++ op :: vectorText bs)).run j = some e ∧
      e.isFinished = false := by
  have hane : as ≠ [] := by intro h; rw [h] at hla; simp at hla; omega
  have hbne : bs ≠ [] := by intro h; rw [h] at hlb; simp at hlb; omega
  have hscan := scan_two_vectors as bs op hop hane hbne ha hb
  obtain ⟨-, -, hdop⟩ := charToken_operator op hop
  have hopty : (charToken op).type = PLUS ∨ (charToken op).type = MINUS ∨
      (charToken op).type = MULTIPLY := by
    rcases hop with h | h | h <;> subst h <;> decide
  have hty : (tokenize (vectorText as ++ op :: vectorText bs)).map Token.type
      = (vectorTokens as).map Token.type ++ (charToken op).type ::
          ((vectorTokens bs).map Token.type ++ [END_TOKEN]) := by
    rw [tokenize_types, hscan]; simp
  set toks := tokenize (vectorText as ++ op :: vectorText bs) with htoks
  have hl0 : Look toks ([] : List TokenType).length LBRACKET :=
    look_at toks [] ((numTokens as).map Token.type ++ [RBRACKET] ++ (charToken op).type ::
      ((vectorTokens bs).map Token.type ++ [END_TOKEN])) LBRACKET
      (by rw [hty]; simp [vectorTokens])
  have h1 := exp_S toks ["$".toList] 0 (-1) 0 (-1) false LBRACKET hl0
  have h2 := parse_operand toks _ _ (derives_vector as hane) []
    ((charToken op).type :: ((vectorTokens bs).map Token.type ++ [END_TOKEN]))
    ["OP".toList, "M".toList, "$".toList] (-1) 0 (-1) k (by rw [hty]; simp)
    (by simp [hla]) hk (Or.inl rfl) (Or.inl rfl)
  have hl3 : Look toks ((vectorTokens as).map Token.type).length (charToken op).type :=
    look_at toks _ _ _ hty
  have h3 := operator_step toks ["M".toList, "$".toList] _ k 0 (-1) false _ hopty hl3 (by omega)
  obtain ⟨h4, hl4⟩ := vector_until_close toks
    ((vectorTokens as).map Token.type ++ [(charToken op).type]) [END_TOKEN] ["$".toList]
    (-1) 0 k bs hbne (by rw [hty]; simp)
  have h5 := fail_dimension toks ["$".toList] _ (-1) bs.length k hl4 (by omega) (by omega)
    (by omega)
  simp only [List.length_nil, Nat.zero_add, List.length_append, List.length_singleton,
    List.length_map] at h2 h3 h4 h5 hl4
  have hfail := h1.fails (h2.fails (h3.fails (h4.fails h5)))
  obtain ⟨⟨n, e, r1, ⟨l1, l2, l3, l4, l5, l6, l7⟩, r3⟩, r4⟩ :=
    lockedRun_of_fails prior _ _ _ _ hfail
  refine ⟨⟨n, e, r1, l1, l2, ?_, ?_, l4, ?_, ?_, ?_⟩, r4⟩
  · rw [l3, hlb]
  · obtain ⟨h, g1, g2⟩ := l7
    exact ⟨h, g1, by rw [g2, l3]⟩
  · rw [l5, l6]; exact hl4
  · rw [l5, l6, ← htoks]
    have : toks.length = (toks.map Token.type).length := by simp
    rw [this, hty]
    simp only [List.length_append, List.length_cons, List.length_map, List.length_nil,
      vectorTokens_length]
    omega
  · intro j hj
    obtain ⟨e', g1, g2, g3⟩ := r3 j hj
    exact ⟨e', g1, g2, by rw [g3, l3]⟩

/-- Witness of C2: the text `"[10,20]+[1,2,3]"`, expected `2`, actual `3`. -/
theorem C2_dimension_mismatch_witness :
    vectorText ["10".toList, "20".toList] ++ '+' :: vectorText ["1".toList, "2".toList, "3".toList]
        = "[10,20]+[1,2,3]".toList ∧
    "ERROR: ".toList ++ ("Dimension Mismatch! Matrix 1=".toList ++ to_string (2 : Nat) ++
        ", Matrix 2=".toList ++ to_string (3 : Nat))
      = "ERROR: Dimension Mismatch! Matrix 1=2, Matrix 2=3".toList ∧
    ((∃ n e, (ParserEngine.new.reset (vectorText ["10".toList, "20".toList] ++
        '+' :: vectorText ["1".toList, "2".toList, "3".toList])).run n = some e ∧
      e.isLocked = true ∧ e.isFinished = false ∧
      e.statusMessage = "ERROR: ".toList ++ ("Dimension Mismatch! Matrix 1=".toList ++
        to_string (2 : Nat) ++ ", Matrix 2=".toList ++ to_string (3 : Nat)) ∧
      (∃ h, e.history.getLast? = some h ∧ h.action = e.statusMessage) ∧
      e.pdaStack = ["]".toList, "$".toList] ∧
      Look e.tokenStream e.tokenCursor RBRACKET ∧ e.tokenCursor + 2 = e.tokenStream.length ∧
      ∀ j, n ≤ j → ∃ e', (ParserEngine.new.reset (vectorText ["10".toList, "20".toList] ++
          '+' :: vectorText ["1".toList, "2".toList, "3".toList])).run j = some e' ∧
        e'.isLocked = true ∧ e'.statusMessage = e.statusMessage) ∧
    ∀ j, ∃ e, (ParserEngine.new.reset (vectorText ["10".toList, "20".toList] ++
        '+' :: vectorText ["1".toList, "2".toList, "3".toList])).run j = some e ∧
      e.isFinished = false) :=
  ⟨by decide, by decide,
   C2_dimension_mismatch ParserEngine.new 2 3 '+' ["10".toList, "20".toList]
     ["1".toList, "2".toList, "3".toList] (by decide) (by decide) (by decide) (by decide)
     (by decide) (by decide) (by decide) (by decide)⟩

/-- C3. For `k ≥ 2`, `m ≥ 2`, `k ≠ m` and lists `as`, `bs` of `k` and `m` non-empty digit
strings, the run from `reset("[[a1,...,ak],[b1,...,bm]]")` reaches a locked state whose status
message (and last history action) is `"ERROR: Row Mismatch! Exp k, Got m"`; the error is raised
with the terminal `]` on top of the stack and the cursor on the closing bracket of the second row;
every later state is locked with the same message, every state of the run is defined and none is
finished. -/
theorem C3_row_mismatch (prior : ParserEngine) (k m : Nat) (as bs : List Str)
    (hk : 2 ≤ k) (hm : 2 ≤ m) (hkm : k ≠ m) (hla : as.length = k) (hlb : bs.length = m)
    (ha : ∀ a ∈ as, DigitString a) (hb : ∀ b ∈ bs, DigitString b) :
    (∃ n e, (prior.reset (twoRowText as bs)).run n = some e ∧
      e.isLocked = true ∧ e.isFinished = false ∧
      e.statusMessage = "ERROR: ".toList ++ ("Row Mismatch! Exp ".toList ++ to_string k ++
        ", Got ".toList ++ to_string m) ∧
      (∃ h, e.history.getLast? = some h ∧ h.action = e.statusMessage) ∧
      e.pdaStack.head? = some "]".toList ∧
      Look e.tokenStream e.tokenCursor RBRACKET ∧ e.tokenCursor + 3 = e.tokenStream.length ∧
      ∀ j, n ≤ j → ∃ e', (prior.reset (twoRowText as bs)).run j = some e' ∧
        e'.isLocked = true ∧ e'.statusMessage = e.statusMessage) ∧
    ∀ j, ∃ e, (prior.reset (twoRowText as bs)).run j = some e ∧ e.isFinished = false := by
  have hane : as ≠ [] := by intro h; rw [h] at hla; simp at hla; omega
  have hbne : bs ≠ [] := by intro h; rw [h] at hlb; simp at hlb; omega
  have hscan : scanTokens [] (twoRowText as bs) =
      ⟨LBRACKET, "[".toList⟩ :: (vectorTokens as ++ ⟨COMMA, ",".toList⟩ ::
        (vectorTokens bs ++ [⟨RBRACKET, "]".toList⟩])) := by
    unfold twoRowText
    simp only [List.cons_append, List.append_assoc]
    rw [scan_char '[' _ (by decide) (by decide), scan_vectorText as _ hane ha,
      scan_char ',' _ (by decide) (by decide), scan_vectorText bs _ hbne hb,
      scan_char ']' _ (by decide) (by decide)]
    rfl
  have hty : (tokenize (twoRowText as bs)).map Token.type
      = LBRACKET :: ((vectorTokens as).map Token.type ++ COMMA ::
          ((vectorTokens bs).map Token.type ++ [RBRACKET, END_TOKEN])) := by
    rw [tokenize_types, hscan]; simp
  set toks := tokenize (twoRowText as bs) with htoks
  have hVa : (vectorTokens as).map Token.type
      = LBRACKET :: ((numTokens as).map Token.type ++ [RBRACKET]) := by simp [vectorTokens]
  have hl0 : Look toks ([] : List TokenType).length LBRACKET := look_at toks [] _ LBRACKET hty
  have hl1 : Look toks ([LBRACKET] : List TokenType).length LBRACKET :=
    look_at toks [LBRACKET] ((numTokens as).map Token.type ++ [RBRACKET] ++ COMMA ::
      ((vectorTokens bs).map Token.type ++ [RBRACKET, END_TOKEN])) LBRACKET
      (by rw [hty, hVa]; simp)
  have hl2 : Look toks ([LBRACKET] ++ (vectorTokens as).map Token.type).length COMMA :=
    look_at toks _ ((vectorTokens bs).map Token.type ++ [RBRACKET, END_TOKEN]) COMMA
      (by rw [hty]; simp)
  simp only [List.length_nil, List.length_singleton, List.length_append, List.length_map]
    at hl0 hl1 hl2
  let tail : List Str := ["]".toList, "OP".toList, "M".toList, "$".toList]
  have h1 := exp_S toks ["$".toList] 0 (-1) 0 (-1) false LBRACKET hl0
  have h2 := exp_M toks ["OP".toList, "M".toList, "$".toList] 0 (-1) 0 (-1) false LBRACKET hl0
  have h3 := exp_S_OPT_eps toks ["Core".toList, "OP".toList, "M".toList, "$".toList] 0 (-1) 0
    (-1) false LBRACKET hl0 (by decide)
  have h4 := exp_Core toks ["OP".toList, "M".toList, "$".toList] 0 (-1) 0 (-1) false hl0
  have h5 := match_lbracket toks ("Inside".toList :: tail) 0 (-1) 0 (-1) false hl0
  have h6 := exp_Inside_rows toks tail (0 + 1) (-1) 0 (-1) false hl1
  have h7 := exp_RowList toks tail (0 + 1) (-1) 0 (-1) false LBRACKET hl1
  have h8 := parse_row false toks _ _ (derives_row as hane) [LBRACKET]
    (COMMA :: ((vectorTokens bs).map Token.type ++ [RBRACKET, END_TOKEN]))
    ("RowTail".toList :: tail) (-1) 0 (-1) false k (by rw [hty]; simp) (by simp [hla]) hk
    (Or.inl rfl) (Or.inl rfl)
  have h9 := exp_RowTail_more toks tail (1 + (vectorTokens as).length) k 0 (-1) false hl2
  have h10 := match_comma toks ("RowList".toList :: tail) (1 + (vectorTokens as).length) k 0 (-1)
    false hl2
  have hl3 : Look toks (([LBRACKET] ++ (vectorTokens as).map Token.type ++ [COMMA]).length)
      LBRACKET :=
    look_at toks _ ((numTokens bs).map Token.type ++ [RBRACKET] ++ [RBRACKET, END_TOKEN]) LBRACKET
      (by rw [hty]; simp [vectorTokens])
  have h11 := exp_RowList toks tail _ k 0 (-1) false LBRACKET hl3
  obtain ⟨h12, hl12⟩ := row_until_close toks
    ([LBRACKET] ++ (vectorTokens as).map Token.type ++ [COMMA]) [RBRACKET, END_TOKEN]
    ("RowTail".toList :: tail) k 0 (-1) false bs hbne (by rw [hty]; simp)
  have h13 := fail_row toks ("RowTail".toList :: tail) _ k bs.length (-1) hl12 (by omega) rfl
    (by omega) (by omega)
  simp only [List.length_nil, Nat.zero_add, List.length_append, List.length_singleton,
    List.length_map] at h8 h11 h12 h13 hl12
  have hfail := h1.fails (h2.fails (h3.fails (h4.fails (h5.fails (h6.fails (h7.fails (h8.fails
    (h9.fails (h10.fails (h11.fails (h12.fails h13)))))))))))
  obtain ⟨⟨n, e, r1, ⟨l1, l2, l3, l4, l5, l6, l7⟩, r3⟩, r4⟩ :=
    lockedRun_of_fails prior _ _ _ _ hfail
  refine ⟨⟨n, e, r1, l1, l2, ?_, ?_, ?_, ?_, ?_, ?_⟩, r4⟩
  · rw [l3, hlb]
  · obtain ⟨h, g1, g2⟩ := l7
    exact ⟨h, g1, by rw [g2, l3]⟩
  · rw [l4]; rfl
  · rw [l5, l6]; exact hl12
  · rw [l5, l6, ← htoks]
    have : toks.length = (toks.map Token.type).length := by simp
    rw [this, hty]
    simp only [List.length_append, List.length_cons, List.length_map, List.length_nil,
      vectorTokens_length]
    omega
  · intro j hj
    obtain ⟨e', g1, g2, g3⟩ := r3 j hj
    exact ⟨e', g1, g2, by rw [g3, l3]⟩

/-- Witness of C3: the text `"[[1,2],[3,4,5]]"`, expected `2`, actual `3`. -/
theorem C3_row_mismatch_witness :
    twoRowText ["1".toList, "2".toList] ["3".toList, "4".toList, "5".toList]
        = "[[1,2],[3,4,5]]".toList ∧
    "ERROR: ".toList ++ ("Row Mismatch! Exp ".toList ++ to_string (2 : Nat) ++
        ", Got ".toList ++ to_string (3 : Nat)) = "ERROR: Row Mismatch! Exp 2, Got 3".toList ∧
    ((∃ n e, (ParserEngine.new.reset (twoRowText ["1".toList, "2".toList]
        ["3".toList, "4".toList, "5".toList])).run n = some e ∧
      e.isLocked = true ∧ e.isFinished = false ∧
      e.statusMessage = "ERROR: ".toList ++ ("Row Mismatch! Exp ".toList ++ to_string (2 : Nat) ++
        ", Got ".toList ++ to_string (3 : Nat)) ∧
      (∃ h, e.history.getLast? = some h ∧ h.action = e.statusMessage) ∧
      e.pdaStack.head? = some "]".toList ∧
      Look e.tokenStream e.tokenCursor RBRACKET ∧ e.tokenCursor + 3 = e.tokenStream.length ∧
      ∀ j, n ≤ j → ∃ e', (ParserEngine.new.reset (twoRowText ["1".toList, "2".toList]
          ["3".toList, "4".toList, "5".toList])).run j = some e' ∧
        e'.isLocked = true ∧ e'.statusMessage = e.statusMessage) ∧
    ∀ j, ∃ e, (ParserEngine.new.reset (twoRowText ["1".toList, "2".toList]
        ["3".toList, "4".toList, "5".toList])).run j = some e ∧ e.isFinished = false) :=
  ⟨by decide, by decide,
   C3_row_mismatch ParserEngine.new 2 3 ["1".toList, "2".toList]
     ["3".toList, "4".toList, "5".toList] (by decide) (by decide) (by decide) (by decide)
     (by decide) (by decide) (by decide)⟩

/-- C4. For every non-empty digit string `d` and every text `r`, the run from
`reset("[" ++ d ++ "]" ++ r)` reaches a locked state whose status message (and last history
action) is `"ERROR: Invalid Matrix: 1x1 not allowed"`; the error is raised with the terminal `]`
on top of the stack and the cursor on the first closing bracket (token index `2`); every later
state is locked with the same message, every state of the run is defined and none is finished. -/
theorem C4_single_element_rejected (prior : ParserEngine) (d r : Str) (hd : DigitString d) :
    (∃ n e, (prior.reset ('[' :: d ++ ']' :: r)).run n = some e ∧
      e.isLocked = true ∧ e.isFinished = false ∧
      e.statusMessage = "ERROR: Invalid Matrix: 1x1 not allowed".toList ∧
      (∃ h, e.history.getLast? = some h ∧ h.action = e.statusMessage) ∧
      e.pdaStack.head? = some "]".toList ∧ e.tokenCursor = 2 ∧
      e.tokenStream.take 3 = [⟨LBRACKET, "[".toList⟩, ⟨NUMBER, d⟩, ⟨RBRACKET, "]".toList⟩] ∧
      ∀ j, n ≤ j → ∃ e', (prior.reset ('[' :: d ++ ']' :: r)).run j = some e' ∧
        e'.isLocked = true ∧ e'.statusMessage = e.statusMessage) ∧
    ∀ j, ∃ e, (prior.reset ('[' :: d ++ ']' :: r)).run j = some e ∧ e.isFinished = false := by
  have hds : ∀ a ∈ [d], DigitString a := by simpa using hd
  have hscan : scanTokens [] ('[' :: d ++ ']' :: r) = vectorTokens [d] ++ scanTokens [] r := by
    have := scan_vectorText [d] r (by simp) hds
    simpa [vectorText, commaSep] using this
  have hty : (tokenize ('[' :: d ++ ']' :: r)).map Token.type
      = (vectorTokens [d]).map Token.type ++
          ((scanTokens [] r).map Token.type ++ [END_TOKEN]) := by
    rw [tokenize_types, hscan]; simp
  have htake : (tokenize ('[' :: d ++ ']' :: r)).take 3
      = [⟨LBRACKET, "[".toList⟩, ⟨NUMBER, d⟩, ⟨RBRACKET, "]".toList⟩] := by
    rw [tokenize, hscan]
    simp [vectorTokens, numTokens]
  set toks := tokenize ('[' :: d ++ ']' :: r) with htoks
  have hl0 : Look toks ([] : List TokenType).length LBRACKET :=
    look_at toks [] ([NUMBER, RBRACKET] ++ ((scanTokens [] r).map Token.type ++ [END_TOKEN]))
      LBRACKET (by rw [hty]; simp [vectorTokens, numTokens])
  have h1 := exp_S toks ["$".toList] 0 (-1) 0 (-1) false LBRACKET hl0
  obtain ⟨h2, hl2⟩ := vector_until_close toks [] ((scanTokens [] r).map Token.type ++ [END_TOKEN])
    ["OP".toList, "M".toList, "$".toList] (-1) 0 (-1) [d] (by simp) (by rw [hty]; simp)
  have h3 := fail_too_small toks ["OP".toList, "M".toList, "$".toList] _ (-1)
    (([d] : List Str).length : Int) (-1) hl2 (by simp)
  have hfail := h1.fails (h2.fails h3)
  obtain ⟨⟨n, e, r1, ⟨l1, l2, l3, l4, l5, l6, l7⟩, r3⟩, r4⟩ :=
    lockedRun_of_fails prior _ _ _ _ hfail
  have hmsg : "ERROR: ".toList ++ "Invalid Matrix: 1x1 not allowed".toList
      = "ERROR: Invalid Matrix: 1x1 not allowed".toList := by decide
  rw [hmsg] at l3
  refine ⟨⟨n, e, r1, l1, l2, l3, ?_, ?_, ?_, ?_, ?_⟩, r4⟩
  · obtain ⟨h, g1, g2⟩ := l7
    exact ⟨h, g1, by rw [g2, l3, hmsg]⟩
  · rw [l4]; rfl
  · rw [l5]; simp [numTokens]
  · rw [l6]; exact htake
  · intro j hj
    obtain ⟨e', g1, g2, g3⟩ := r3 j hj
    exact ⟨e', g1, g2, by rw [g3, l3, hmsg]⟩

/-- Witness of C4: the text `"[5]+[3]"`. -/
theorem C4_single_element_rejected_witness :
    '[' :: "5".toList ++ ']' :: "+[3]".toList = "[5]+[3]".toList ∧
    ((∃ n e, (ParserEngine.new.reset ('[' :: "5".toList ++ ']' :: "+[3]".toList)).run n = some e ∧
      e.isLocked = true ∧ e.isFinished = false ∧
      e.statusMessage = "ERROR: Invalid Matrix: 1x1 not allowed".toList ∧
      (∃ h, e.history.getLast? = some h ∧ h.action = e.statusMessage) ∧
      e.pdaStack.head? = some "]".toList ∧ e.tokenCursor = 2 ∧
      e.tokenStream.take 3
        = [⟨LBRACKET, "[".toList⟩, ⟨NUMBER, "5".toList⟩, ⟨RBRACKET, "]".toList⟩] ∧
      ∀ j, n ≤ j →
        ∃ e', (ParserEngine.new.reset ('[' :: "5".toList ++ ']' :: "+[3]".toList)).run j = some e' ∧
        e'.isLocked = true ∧ e'.statusMessage = e.statusMessage) ∧
    ∀ j, ∃ e, (ParserEngine.new.reset ('[' :: "5".toList ++ ']' :: "+[3]".toList)).run j = some e ∧
      e.isFinished = false) :=
  ⟨by decide, C4_single_element_rejected ParserEngine.new "5".toList "+[3]".toList (by decide)⟩

set_option maxRecDepth 100000 in
/-- C5. (1) For every text that contains a character which is not a digit, not white space and
not one of `[ ] , + - *`, every state of the run from `reset(text)` is defined and none has
`isFinished = true`.  (2) The run on `"[10,20]&[30,40]"` reaches a locked, unfinished state with
status message (and last history action) `"ERROR: Expected OP"`, raised with the cursor on the
`Unknown` token `&`; every later state is locked with the same message. -/
theorem C5_unknown_character :
    (∀ (prior : ParserEngine) (text : Str) (c : Char), c ∈ text → isdigit c = false →
        isspace c = false → c ∉ "[],+-*".toList →
        ∀ j, ∃ e, (prior.reset text).run j = some e ∧ e.isFinished = false) ∧
    (∀ (prior : ParserEngine), ∃ n e,
        (prior.reset "[10,20]&[30,40]".toList).run n = some e ∧
        e.isLocked = true ∧ e.isFinished = false ∧
        e.statusMessage = "ERROR: Expected OP".toList ∧
        (∃ h, e.history.getLast? = some h ∧ h.action = "ERROR: Expected OP".toList) ∧
        e.tokenStream[e.tokenCursor]? = some ⟨UNKNOWN, "&".toList⟩ ∧
        ∀ j, n ≤ j → ∃ e', (prior.reset "[10,20]&[30,40]".toList).run j = some e' ∧
          e'.isLocked = true ∧ e'.statusMessage = "ERROR: Expected OP".toList) := by
  constructor
  · intro prior text c hc hd hs hp j
    obtain ⟨e0, a0, e, a1, a2⟩ := run_defined prior text j
    refine ⟨e, a1, ?_⟩
    rcases a2 with ⟨m, hm⟩ | hinv
    · exact not_finished_before e e0 m hm a0.2.2.1
    · by_contra hfin
      obtain ⟨h1, h2, h3, h4, h5⟩ := hinv
      obtain ⟨t, ht, hty⟩ := h5 (by simpa using hfin)
      have hend := (endsOnce_end_index _ (tokenize_endsOnce text) _ t ht).mp hty
      have hu := scan_unknown text c hd hs hp [] hc
      obtain ⟨i, hi, hget⟩ := List.getElem_of_mem hu
      have hlen : (tokenize text).length = (scanTokens [] text).length + 1 := by
        simp [tokenize]
      have hget' : (tokenize text)[i]? = some ⟨UNKNOWN, [c]⟩ := by
        rw [tokenize, List.getElem?_append_left hi, List.getElem?_eq_getElem hi, hget]
      exact h4 i (by omega) _ hget' rfl
  · intro prior
    have hty : (tokenize "[10,20]&[30,40]".toList).map Token.type
        = [] ++ (vectorTokens ["10".toList, "20".toList]).map Token.type ++
            (UNKNOWN :: [LBRACKET, NUMBER, COMMA, NUMBER, RBRACKET, END_TOKEN]) := by decide
    set toks := tokenize "[10,20]&[30,40]".toList with htoks
    have hl0 : Look toks ([] : List TokenType).length LBRACKET :=
      look_at toks [] [NUMBER, COMMA, NUMBER, RBRACKET, UNKNOWN, LBRACKET, NUMBER, COMMA, NUMBER,
        RBRACKET, END_TOKEN] LBRACKET (by rw [hty]; decide)
    have h1 := exp_S toks ["$".toList] 0 (-1) 0 (-1) false LBRACKET hl0
    have h2 := parse_operand toks _ _ (derives_vector ["10".toList, "20".toList] (by simp)) []
      (UNKNOWN :: [LBRACKET, NUMBER, COMMA, NUMBER, RBRACKET, END_TOKEN])
      ["OP".toList, "M".toList, "$".toList] (-1) 0 (-1) 2 hty (by simp) (le_refl _) (Or.inl rfl)
      (Or.inl rfl)
    have hl3 : Look toks
        (([] : List TokenType) ++ (vectorTokens ["10".toList, "20".toList]).map Token.type).length
        UNKNOWN := look_at toks _ _ UNKNOWN (by rw [hty])
    have h3 := fail_operator toks ["M".toList, "$".toList] _ (2 : Nat) 0 (-1) false UNKNOWN hl3
      (by decide) (by decide) (by decide)
    simp only [List.length_nil, Nat.zero_add, List.nil_append] at h2 h3
    have hfail := h1.fails (h2.fails h3)
    obtain ⟨⟨n, e, r1, ⟨l1, l2, l3, l4, l5, l6, l7⟩, r3⟩, -⟩ :=
      lockedRun_of_fails prior _ _ _ _ hfail
    have hmsg : "ERROR: ".toList ++ "Expected OP".toList = "ERROR: Expected OP".toList := by
      decide
    rw [hmsg] at l3 l7 r3
    refine ⟨n, e, r1, l1, l2, l3, l7, ?_, r3⟩
    rw [l5, l6]
    decide

/-- Witness of C5: the character `&` of `"[10,20]&[30,40]"`. -/
theorem C5_unknown_character_witness :
    ∀ j, ∃ e, (ParserEngine.new.reset "[10,20]&[30,40]".toList).run j = some e ∧
      e.isFinished = false :=
  C5_unknown_character.1 ParserEngine.new "[10,20]&[30,40]".toList '&' (by decide) (by decide)
    (by decide) (by decide)

/-- C6, as amended: for every text whose tokens are derivable from `S` in the grammar of spec
section 4.2 with the operand production read as `M -> S_OPT Core` (the optional number precedes
the bracketed operand), all rows of both operands having one width `n ≥ 2`: the lexing phase
produces exactly these tokens followed by the end-of-input token, the run from `reset(text)`
reaches a finished state, and every state of the run is defined and has `isLocked = false`. -/
theorem C6_derivable_accepted (prior : ParserEngine) (text : Str) (rows : List Nat) (n : Nat)
    (hd : Derives false .S ((scanTokens [] text).map Token.type) rows) (hn : 2 ≤ n)
    (hrows : ∀ r ∈ rows, r = n) :
    (∃ k e, (prior.reset text).run k = some e ∧ e.lexingPhase = false ∧
      e.tokenStream = scanTokens [] text ++ [eofToken]) ∧
    (∃ k e, (prior.reset text).run k = some e ∧ e.isFinished = true) ∧
    ∀ j, ∃ e, (prior.reset text).run j = some e ∧ e.isLocked = false := by
  obtain ⟨k, e0, a1, a2⟩ := reset_lexes prior text
  obtain ⟨hfin, hall⟩ := acceptedRun_of_derives prior text rows n hd hn hrows
  refine ⟨⟨k, e0, a1, a2.1, a2.2.2.2.1⟩, hfin, fun j => ?_⟩
  obtain ⟨e, h1, h2, -⟩ := hall j
  exact ⟨e, h1, h2⟩

/-- Witness of C6 as amended: `"7[1,2]*[[3,4],[5,6]]"`, a scalar in front of the left operand and
a right operand of two rows. -/
theorem C6_derivable_accepted_witness :
    Derives false .S ((scanTokens [] "7[1,2]*[[3,4],[5,6]]".toList).map Token.type) [2, 2, 2] ∧
    (∃ k e, (ParserEngine.new.reset "7[1,2]*[[3,4],[5,6]]".toList).run k = some e ∧
      e.lexingPhase = false ∧
      e.tokenStream = scanTokens [] "7[1,2]*[[3,4],[5,6]]".toList ++ [eofToken]) ∧
    (∃ k e, (ParserEngine.new.reset "7[1,2]*[[3,4],[5,6]]".toList).run k = some e ∧
      e.isFinished = true) ∧
    ∀ j, ∃ e, (ParserEngine.new.reset "7[1,2]*[[3,4],[5,6]]".toList).run j = some e ∧
      e.isLocked = false :=
  have hd : Derives false .S ((scanTokens [] "7[1,2]*[[3,4],[5,6]]".toList).map Token.type)
      [2, 2, 2] :=
    Derives.start
      (Derives.operandScalarFirst rfl Derives.scalar
        (Derives.core (Derives.insideNums
          (Derives.numList (Derives.numTailMore (Derives.numList Derives.numTailEnd))))))
      Derives.times
      (Derives.operandScalarFirst rfl Derives.noScalar
        (Derives.core (Derives.insideRows
          (Derives.rowList
            (Derives.row
              (Derives.numList (Derives.numTailMore (Derives.numList Derives.numTailEnd))))
            (Derives.rowTailMore
              (Derives.rowList
                (Derives.row
                  (Derives.numList (Derives.numTailMore (Derives.numList Derives.numTailEnd))))
                Derives.rowTailEnd))))))
  ⟨hd, C6_derivable_accepted ParserEngine.new _ [2, 2, 2] 2 hd (by decide) (by decide)⟩

set_option maxRecDepth 100000 in
/-- Counterexample to C6 as stated: `"[1,2] 5 + [3,4]"` is derivable from `S` in the grammar as
the spec writes it (`M -> Core S_OPT`, with `S_OPT -> num` after the left operand), both rows have
length `2`, and the run locks with `"ERROR: Expected OP"` and is never finished. -/
theorem C6_counterexample :
    Derives true .S ((scanTokens [] "[1,2] 5 + [3,4]".toList).map Token.type) [2, 2] ∧
    (∃ k e, (ParserEngine.new.reset "[1,2] 5 + [3,4]".toList).run k = some e ∧
      e.tokenStream = scanTokens [] "[1,2] 5 + [3,4]".toList ++ [eofToken] ∧
      e.isLocked = true ∧ e.statusMessage = "ERROR: Expected OP".toList) ∧
    ∀ j, ∃ e, (ParserEngine.new.reset "[1,2] 5 + [3,4]".toList).run j = some e ∧
      e.isFinished = false := by
  have hd : Derives true .S ((scanTokens [] "[1,2] 5 + [3,4]".toList).map Token.type) [2, 2] :=
    Derives.start
      (Derives.operandCoreFirst rfl
        (Derives.core (Derives.insideNums
          (Derives.numList (Derives.numTailMore (Derives.numList Derives.numTailEnd)))))
        Derives.scalar)
      Derives.plus
      (Derives.operandCoreFirst rfl
        (Derives.core (Derives.insideNums
          (Derives.numList (Derives.numTailMore (Derives.numList Derives.numTailEnd)))))
        Derives.noScalar)
  obtain ⟨e, h1, h2⟩ := run_eval (ParserEngine.new.reset "[1,2] 5 + [3,4]".toList) 71
    (fun e => (e.tokenStream, e.isLocked, e.isFinished, e.statusMessage))
    (scanTokens [] "[1,2] 5 + [3,4]".toList ++ [eofToken], true, false,
      "ERROR: Expected OP".toList) (by decide)
  simp only [Prod.mk.injEq] at h2
  exact ⟨hd, ⟨71, e, h1, h2.1, h2.2.1, h2.2.2.2⟩,
    never_finished_of_locked _ e 71 h1 h2.2.1 h2.2.2.1⟩

/-- C7, as amended: the lexing phase completes, and in every state of the run from `reset(text)`
in which it has completed, the `value` fields of the tokens of `tokenStream` other than the final
end-of-input token, concatenated in order, are the text with its white space removed; the final
token is the end-of-input token, whose value is `"EOF"`, so that the concatenation over the whole
`tokenStream` is that text followed by `"EOF"`. -/
theorem C7_token_values_round_trip (prior : ParserEngine) (text : Str) :
    (∃ k e, (prior.reset text).run k = some e ∧ e.lexingPhase = false) ∧
    ∀ k e, (prior.reset text).run k = some e → e.lexingPhase = false →
      (e.tokenStream.dropLast.map Token.value).flatten = text.filter (fun c => !isspace c) ∧
      e.tokenStream.getLast? = some ⟨END_TOKEN, "EOF".toList⟩ ∧
      (e.tokenStream.map Token.value).flatten
        = text.filter (fun c => !isspace c) ++ "EOF".toList := by
  constructor
  · obtain ⟨k, e0, a1, a2⟩ := reset_lexes prior text
    exact ⟨k, e0, a1, a2.1⟩
  · intro k e h hp
    rw [parsing_tokenStream prior text k e h hp, tokenize]
    have hv := scan_values text []
    rw [List.nil_append] at hv
    refine ⟨?_, ?_, ?_⟩
    · rw [List.dropLast_concat, hv]
    · simp [eofToken]
    · rw [List.map_append, List.flatten_append, hv]
      simp [eofToken]

set_option maxRecDepth 100000 in
/-- Witness of C7 as amended: the text `"[1, 2]"` after 24 steps. -/
theorem C7_token_values_round_trip_witness :
    ∃ e, (ParserEngine.new.reset "[1, 2]".toList).run 24 = some e ∧ e.lexingPhase = false ∧
      (e.tokenStream.dropLast.map Token.value).flatten = "[1,2]".toList ∧
      e.tokenStream.getLast? = some ⟨END_TOKEN, "EOF".toList⟩ ∧
      (e.tokenStream.map Token.value).flatten = "[1,2]EOF".toList := by
  obtain ⟨e, h1, h2⟩ := run_eval (ParserEngine.new.reset "[1, 2]".toList) 24
    (fun e => e.lexingPhase) false (by decide)
  exact ⟨e, h1, h2, (C7_token_values_round_trip ParserEngine.new "[1, 2]".toList).2 24 e h1 h2⟩

set_option maxRecDepth 100000 in
/-- Counterexample to C7 as stated: for the text `"1 2"` the lexing phase has completed after 18
steps, and the values of all tokens of `tokenStream` concatenate to `"12EOF"`, not to `"12"`. -/
theorem C7_counterexample :
    ∃ e, (ParserEngine.new.reset "1 2".toList).run 18 = some e ∧ e.lexingPhase = false ∧
      (e.tokenStream.map Token.value).flatten = "12EOF".toList ∧
      (e.tokenStream.map Token.value).flatten ≠ "1 2".toList.filter (fun c => !isspace c) := by
  obtain ⟨e, h1, h2⟩ := run_eval (ParserEngine.new.reset "1 2".toList) 18
    (fun e => (e.lexingPhase, (e.tokenStream.map Token.value).flatten)) (false, "12EOF".toList)
    (by decide)
  simp only [Prod.mk.injEq] at h2
  exact ⟨e, h1, h2.1, h2.2, by rw [h2.2]; decide⟩

/-- C8. For every engine state with `isLocked = true` or `isFinished = true`, `step()` returns
and leaves the stack, `tokenCursor`, `tokenStream`, the row-tracking counters
(`expectedRowLength`, `currentRowLength`, `matrix1Cols`, `inRow`), the flags `isLocked`,
`isFinished`, `lexingPhase`, the status message and the history unchanged (and also the lexer
and `lastAction`). -/
theorem C8_step_after_halt (e : ParserEngine) (h : e.isLocked = true ∨ e.isFinished = true) :
    ∃ e', e.step = some e' ∧ e'.pdaStack = e.pdaStack ∧ e'.tokenCursor = e.tokenCursor ∧
      e'.tokenStream = e.tokenStream ∧ e'.expectedRowLength = e.expectedRowLength ∧
      e'.currentRowLength = e.currentRowLength ∧ e'.matrix1Cols = e.matrix1Cols ∧
      e'.inRow = e.inRow ∧ e'.isLocked = e.isLocked ∧ e'.isFinished = e.isFinished ∧
      e'.lexingPhase = e.lexingPhase ∧ e'.statusMessage = e.statusMessage ∧
      e'.history = e.history ∧ e'.lexer = e.lexer ∧ e'.lastAction = e.lastAction :=
  ⟨e.cleared, step_of_halted e h, rfl, rfl, rfl, rfl, rfl, rfl, rfl, rfl, rfl, rfl, rfl, rfl,
    rfl, rfl⟩

/-- Witness of C8: a locked state. -/
theorem C8_step_after_halt_witness :
    (lockedExample.isLocked = true ∨ lockedExample.isFinished = true) ∧
    ∃ e', lockedExample.step = some e' ∧ e'.pdaStack = lockedExample.pdaStack ∧
      e'.tokenCursor = lockedExample.tokenCursor ∧
      e'.tokenStream = lockedExample.tokenStream ∧
      e'.expectedRowLength = lockedExample.expectedRowLength ∧
      e'.currentRowLength = lockedExample.currentRowLength ∧
      e'.matrix1Cols = lockedExample.matrix1Cols ∧
      e'.inRow = lockedExample.inRow ∧ e'.isLocked = lockedExample.isLocked ∧
      e'.isFinished = lockedExample.isFinished ∧
      e'.lexingPhase = lockedExample.lexingPhase ∧
      e'.statusMessage = lockedExample.statusMessage ∧
      e'.history = lockedExample.history ∧ e'.lexer = lockedExample.lexer ∧
      e'.lastAction = lockedExample.lastAction :=
  ⟨Or.inl rfl, C8_step_after_halt lockedExample (Or.inl rfl)⟩

/-- C9. The history is append-only.  (1) On every engine state whose lookahead read is in range
`step()` returns, and the history before the call is an initial segment of the history after it
(no earlier entry is changed or removed), so the length does not decrease.  (2) The same holds
for every state on which `step()` returns.  (3) Within one run from `reset(text)`, every state is
defined, and the history after `i` steps is an initial segment of the history after `j ≥ i`
steps. -/
theorem C9_history_append_only :
    (∀ e : ParserEngine, ReadInRange e →
      ∃ e', e.step = some e' ∧ e.history <+: e'.history ∧
        e.history.length ≤ e'.history.length) ∧
    (∀ e e' : ParserEngine, e.step = some e' →
      e.history <+: e'.history ∧ e.history.length ≤ e'.history.length) ∧
    (∀ (prior : ParserEngine) (text : Str) (i j : Nat), i ≤ j →
      ∃ ei ej, (prior.reset text).run i = some ei ∧ (prior.reset text).run j = some ej ∧
        ei.history <+: ej.history ∧ ei.history.length ≤ ej.history.length) := by
  refine ⟨fun e h => ?_, fun e e' h => ⟨step_history e e' h, (step_history e e' h).length_le⟩,
    fun prior text i j hij => ?_⟩
  · obtain ⟨e', h1⟩ := step_defined e h
    exact ⟨e', h1, step_history e e' h1, (step_history e e' h1).length_le⟩
  · obtain ⟨k, rfl⟩ := Nat.exists_eq_add_of_le hij
    obtain ⟨-, -, ej, hj, -⟩ := run_defined prior text (i + k)
    obtain ⟨ei, hi, hk⟩ := run_initial_segment i k _ ej hj
    exact ⟨ei, ej, hi, hj, run_history k ei ej hk, (run_history k ei ej hk).length_le⟩

/-- Witness of C9: the first step after `reset("[1,2]+[3,4]")`. -/
theorem C9_history_append_only_witness :
    ReadInRange (ParserEngine.new.reset "[1,2]+[3,4]".toList) ∧
    ∃ e', (ParserEngine.new.reset "[1,2]+[3,4]".toList).step = some e' ∧
      (ParserEngine.new.reset "[1,2]+[3,4]".toList).history <+: e'.history ∧
      (ParserEngine.new.reset "[1,2]+[3,4]".toList).history.length ≤ e'.history.length :=
  ⟨by decide, C9_history_append_only.1 _ (by decide)⟩

/-- C11. For every text: the lexing phase of the run from `reset(text)` completes; in every state
of the run in which it has completed, `tokenStream` is exactly the sequence of the reference
classifier `refTokens` (white space skipped, one `Number` token per maximal run of digits, the
punctuation tokens with their one-character values, `Unknown` tokens for the other characters),
in which the last token is the only token of type `EndOfInput`; every state of the run is defined,
and no state in the lexing phase, nor the state in which the phase completes, is locked. -/
theorem C11_tokenization_reference (prior : ParserEngine) (text : Str) :
    (∃ k e, (prior.reset text).run k = some e ∧ e.lexingPhase = false ∧ e.isLocked = false ∧
      e.tokenStream = refTokens text ∧
      ∀ i, i < k → ∃ ei, (prior.reset text).run i = some ei ∧ ei.isLocked = false) ∧
    (∀ k e, (prior.reset text).run k = some e → e.lexingPhase = false →
      e.tokenStream = refTokens text) ∧
    (∀ k, ∃ e, (prior.reset text).run k = some e ∧ (e.lexingPhase = true → e.isLocked = false)) ∧
    (refTokens text).getLast? = some ⟨END_TOKEN, "EOF".toList⟩ ∧
    (∀ t ∈ (refTokens text).dropLast, t.type ≠ END_TOKEN) := by
  obtain ⟨k, e0, a1, a2⟩ := reset_lexes prior text
  refine ⟨⟨k, e0, a1, a2.1, a2.2.1, by rw [refTokens_eq]; exact a2.2.2.2.1, ?_⟩, ?_, ?_, ?_, ?_⟩
  · intro i hi
    obtain ⟨m, hm⟩ := Nat.exists_eq_add_of_lt hi
    have hk : k = i + (m + 1) := by omega
    rw [hk] at a1
    obtain ⟨ei, b1, b2⟩ := run_initial_segment i (m + 1) _ e0 a1
    exact ⟨ei, b1, not_locked_before ei e0 _ b2 a2.2.1⟩
  · intro j e h hp
    rw [refTokens_eq]
    exact parsing_tokenStream prior text j e h hp
  · intro j
    obtain ⟨e1, c0, e, c1, c2⟩ := run_defined prior text j
    refine ⟨e, c1, fun hp => ?_⟩
    rcases c2 with ⟨m, hm⟩ | hinv
    · exact not_locked_before e e1 m hm c0.2.1
    · rw [hinv.1] at hp; cases hp
  · rw [refTokens_eq, tokenize]; simp [eofToken]
  · rw [refTokens_eq, tokenize, List.dropLast_concat]
    exact scan_no_end text []

set_option maxRecDepth 100000 in
/-- Witness of C11: the text `"[12, 3]&"`, whose reference tokens are written out. -/
theorem C11_tokenization_reference_witness :
    refTokens "[12, 3]&".toList
      = [⟨LBRACKET, "[".toList⟩, ⟨NUMBER, "12".toList⟩, ⟨COMMA, ",".toList⟩,
         ⟨NUMBER, "3".toList⟩, ⟨RBRACKET, "]".toList⟩, ⟨UNKNOWN, "&".toList⟩,
         ⟨END_TOKEN, "EOF".toList⟩] ∧
    ∃ k e, (ParserEngine.new.reset "[12, 3]&".toList).run k = some e ∧ e.lexingPhase = false ∧
      e.isLocked = false ∧ e.tokenStream = refTokens "[12, 3]&".toList ∧
      ∀ i, i < k → ∃ ei, (ParserEngine.new.reset "[12, 3]&".toList).run i = some ei ∧
        ei.isLocked = false :=
  ⟨by decide, (C11_tokenization_reference ParserEngine.new "[12, 3]&".toList).1⟩

/-- C12, as amended: for every active parsing-phase state whose stack top is a non-terminal `X`
and every lookahead `t` for which a production `X -> Y1 ... Yn` is chosen (the operand production
being `M -> S_OPT Core`), `step()` returns, does not lock, keeps the cursor, and the stack after
the step is the stack before with `X` replaced by `Y1 ... Yn`, the leftmost symbol `Y1` on top;
for `n ≥ 1` one history entry `"PUSH n Rules"` is appended, and for an epsilon choice `X` is
popped, nothing is pushed and exactly one history entry with action `"Epsilon"` is appended. -/
theorem C12_expansion_rule (e : ParserEngine) (X : GSym) (rest : List Str) (t : Token)
    (ys : List Str) (hp : Parsing e) (hs : e.pdaStack = X.name :: rest)
    (ht : e.tokenStream[e.tokenCursor]? = some t) (hr : production false X t.type = some ys) :
    ∃ e', e.step = some e' ∧ e'.pdaStack = ys ++ rest ∧ e'.isLocked = false ∧
      e'.tokenCursor = e.tokenCursor ∧
      (ys = [] → e'.history = e.history ++ [⟨t.value, "Epsilon".toList, stackString rest⟩]) ∧
      (ys ≠ [] → e'.history = e.history ++
        [⟨t.value, "PUSH ".toList ++ to_string ys.length ++ " Rules".toList,
          stackString (ys ++ rest)⟩]) := by
  refine ⟨_, step_parsing e _ rest t hp hs ht, ?_⟩
  obtain ⟨h1, h2, h3⟩ := hp
  cases X
  all_goals simp only [production, Bool.false_eq_true, if_false] at hr
  all_goals try split_ifs at hr
  all_goals try cases hr
  all_goals
    simp_all [GSym.name, ParserEngine.parseStep, ParserEngine.expand, isTerminal,
      ParserEngine.pushStack, ParserEngine.addLog, ParserEngine.cleared]

set_option maxRecDepth 100000 in
/-- C12, witness: the state after 49 steps on `"[1,2]+[3,4]"` has `M` on top of `OP M $` and
lookahead `[`; the step replaces `M` by `S_OPT Core`. -/
theorem C12_expansion_rule_witness :
    Parsing (stateAfter "[1,2]+[3,4]".toList 49) ∧
    (stateAfter "[1,2]+[3,4]".toList 49).pdaStack
      = GSym.name .M :: ["OP".toList, "M".toList, "$".toList] ∧
    ∃ e', (stateAfter "[1,2]+[3,4]".toList 49).step = some e' ∧
      e'.pdaStack = ["S_OPT".toList, "Core".toList] ++ ["OP".toList, "M".toList, "$".toList] ∧
      e'.isLocked = false ∧
      e'.tokenCursor = (stateAfter "[1,2]+[3,4]".toList 49).tokenCursor ∧
      (["S_OPT".toList, "Core".toList] = [] → e'.history =
        (stateAfter "[1,2]+[3,4]".toList 49).history ++
          [⟨"[".toList, "Epsilon".toList, stackString ["OP".toList, "M".toList, "$".toList]⟩]) ∧
      (["S_OPT".toList, "Core".toList] ≠ [] → e'.history =
        (stateAfter "[1,2]+[3,4]".toList 49).history ++
          [⟨"[".toList, "PUSH ".toList ++ to_string 2 ++ " Rules".toList,
            stackString (["S_OPT".toList, "Core".toList] ++
              ["OP".toList, "M".toList, "$".toList])⟩]) :=
  ⟨by decide, by decide,
    C12_expansion_rule (stateAfter "[1,2]+[3,4]".toList 49) .M
      ["OP".toList, "M".toList, "$".toList] ⟨LBRACKET, "[".toList⟩
      ["S_OPT".toList, "Core".toList] (by decide) (by decide) (by decide) (by decide)⟩

set_option maxRecDepth 100000 in
/-- Counterexample to C12 as stated: after 49 steps on `"[1,2]+[3,4]"` the engine is in the
parsing phase with `M` on top of `OP M $` and lookahead `[`; the production of the spec grammar is
`M -> Core S_OPT`, and the step leaves `S_OPT` on top and `Core` below it, not `Core` on top. -/
theorem C12_counterexample :
    ∃ e e', (ParserEngine.new.reset "[1,2]+[3,4]".toList).run 49 = some e ∧ Parsing e ∧
      e.pdaStack = GSym.name .M :: ["OP".toList, "M".toList, "$".toList] ∧
      e.tokenStream[e.tokenCursor]? = some ⟨LBRACKET, "[".toList⟩ ∧
      production true .M LBRACKET = some ["Core".toList, "S_OPT".toList] ∧
      e.step = some e' ∧
      e'.pdaStack = ["S_OPT".toList, "Core".toList, "OP".toList, "M".toList, "$".toList] ∧
      e'.pdaStack ≠ ["Core".toList, "S_OPT".toList] ++ ["OP".toList, "M".toList, "$".toList] := by
  obtain ⟨e, h1, h2⟩ := run_eval (ParserEngine.new.reset "[1,2]+[3,4]".toList) 49
    (fun e => (decide (Parsing e), e.pdaStack, e.tokenStream[e.tokenCursor]?,
      e.step.map ParserEngine.pdaStack))
    (true, ["M".toList, "OP".toList, "M".toList, "$".toList], some ⟨LBRACKET, "[".toList⟩,
      some ["S_OPT".toList, "Core".toList, "OP".toList, "M".toList, "$".toList]) (by decide)
  simp only [Prod.mk.injEq, decide_eq_true_eq] at h2
  obtain ⟨a1, a2, a3, a4⟩ := h2
  cases hs : e.step with
  | none => rw [hs] at a4; cases a4
  | some e' =>
    rw [hs] at a4
    simp only [Option.map_some', Option.some.injEq] at a4
    exact ⟨e, e', h1, a1, a2, a3, rfl, hs, a4, by rw [a4]; decide⟩

/-- C13: in an active parsing-phase state whose stack top is a terminal with token type `ty`:
if the type of the lookahead token is not `ty`, `step()` locks the engine with the message
`"ERROR: Expected "` followed by the terminal and keeps the stack and the cursor; if it is `ty`
and no semantic rule fails, `step()` pops that one symbol, advances the cursor by exactly one and
does not lock.  Every step of any state that changes the cursor is such a terminal match and
advances it by exactly one, so in every other kind of step the cursor is unchanged. -/
theorem C13_terminal_rule (e : ParserEngine) (top : Str) (rest : List Str) (t : Token)
    (ty : TokenType) (hp : Parsing e) (hs : e.pdaStack = top :: rest)
    (ht : e.tokenStream[e.tokenCursor]? = some t) (hty : terminalType top = some ty) :
    (t.type ≠ ty → ∃ e', e.step = some e' ∧ e'.isLocked = true ∧
      e'.statusMessage = "ERROR: Expected ".toList ++ top ∧
      e'.pdaStack = e.pdaStack ∧ e'.tokenCursor = e.tokenCursor) ∧
    (t.type = ty → ¬ (top = "]".toList ∧ e.inRow = true ∧ RowRuleFails e) →
      ∃ e', e.step = some e' ∧ e'.pdaStack = rest ∧ e'.tokenCursor = e.tokenCursor + 1 ∧
        e'.isLocked = false) ∧
    (∀ s s', s.step = some s' → s'.tokenCursor ≠ s.tokenCursor →
      Parsing s ∧ ∃ top' rest' t' ty', s.pdaStack = top' :: rest' ∧
        s.tokenStream[s.tokenCursor]? = some t' ∧ terminalType top' = some ty' ∧
        t'.type = ty' ∧ ¬ (top' = "]".toList ∧ s.inRow = true ∧ RowRuleFails s) ∧
        s'.pdaStack = rest' ∧ s'.tokenCursor = s.tokenCursor + 1 ∧ s'.isLocked = false) := by
  obtain ⟨b1, b2, b3⟩ := terminalType_spec top ty hty
  refine ⟨fun hne => ⟨_, step_parsing e top rest t hp hs ht, ?_⟩,
    fun heq hok => ⟨_, step_parsing e top rest t hp hs ht, ?_⟩, ?_⟩
  · have hm : terminalMatches top t.type = false := by
      cases hc : terminalMatches top t.type with
      | false => rfl
      | true => exact absurd ((b3 _).1 hc) hne
    unfold ParserEngine.parseStep
    rw [if_neg b2, if_pos b1, hm]
    simp only [Bool.false_eq_true, if_false]
    exact ⟨rfl, rfl, rfl, rfl⟩
  · have hm : terminalMatches top t.type = true := (b3 _).2 heq
    have hok' : ¬ (top = "]".toList ∧ e.cleared.inRow = true ∧ RowRuleFails e.cleared) := hok
    cases hc : e.cleared.semanticChecks top with
    | error e1 => exact absurd ((semanticChecks_error_iff e.cleared top).1 ⟨e1, hc⟩) hok'
    | ok e1 =>
      obtain ⟨a1, a2, a3, a4⟩ := semanticChecks_ok_effect e.cleared e1 top hc
      unfold ParserEngine.parseStep
      rw [if_neg b2, if_pos b1, hm]
      simp only [if_true, hc]
      refine ⟨rfl, ?_, ?_⟩
      · show e1.tokenCursor + 1 = e.tokenCursor + 1
        rw [a3]; rfl
      · show e1.isLocked = false
        rw [a1]; exact hp.2.1
  · intro s s' hstep hne
    rcases step_cases s s' hstep with ⟨_, rfl⟩ | ⟨_, _, rfl⟩ | ⟨_, _, rfl⟩ | ⟨hps, top', rest', t', c1, c2, rfl⟩
    · exact absurd rfl hne
    · exact absurd (lexStep_sameParser s.cleared).2.1 hne
    · exact absurd rfl hne
    · obtain ⟨d1, d2, d3, d4, d5, d6, d7⟩ := parseStep_cursor s.cleared top' rest' t' hne
      obtain ⟨ty', hty'⟩ := terminalType_of_isTerminal top' d2
      exact ⟨hps, top', rest', t', ty', c1, c2, hty',
        ((terminalType_spec top' ty' hty').2.2 _).1 d3, d4, d6, d5, by rw [d7]; exact hps.2.1⟩

set_option maxRecDepth 100000 in
/-- C13, witness: a matching terminal (`[` against the token `[`, after 52 steps on
`"[1,2]+[3,4]"`) and a mismatching one (`]` against the end of input, after 35 steps on
`"[1,2"`). -/
theorem C13_terminal_rule_witness :
    (Parsing (stateAfter "[1,2]+[3,4]".toList 52) ∧
      (stateAfter "[1,2]+[3,4]".toList 52).pdaStack = "[".toList ::
        ["Inside".toList, "]".toList, "OP".toList, "M".toList, "$".toList] ∧
      ∃ e', (stateAfter "[1,2]+[3,4]".toList 52).step = some e' ∧
        e'.pdaStack = ["Inside".toList, "]".toList, "OP".toList, "M".toList, "$".toList] ∧
        e'.tokenCursor = (stateAfter "[1,2]+[3,4]".toList 52).tokenCursor + 1 ∧
        e'.isLocked = false) ∧
    (Parsing (stateAfter "[1,2".toList 35) ∧
      (stateAfter "[1,2".toList 35).pdaStack = "]".toList ::
        ["OP".toList, "M".toList, "$".toList] ∧
      ∃ e', (stateAfter "[1,2".toList 35).step = some e' ∧ e'.isLocked = true ∧
        e'.statusMessage = "ERROR: Expected ".toList ++ "]".toList ∧
        e'.pdaStack = (stateAfter "[1,2".toList 35).pdaStack ∧
        e'.tokenCursor = (stateAfter "[1,2".toList 35).tokenCursor) :=
  ⟨⟨by decide, by decide,
    (C13_terminal_rule (stateAfter "[1,2]+[3,4]".toList 52) "[".toList
      ["Inside".toList, "]".toList, "OP".toList, "M".toList, "$".toList] ⟨LBRACKET, "[".toList⟩
      LBRACKET (by decide) (by decide) (by decide) (by decide)).2.1 (by decide) (by decide)⟩,
   ⟨by decide, by decide,
    (C13_terminal_rule (stateAfter "[1,2".toList 35) "]".toList
      ["OP".toList, "M".toList, "$".toList] ⟨END_TOKEN, "EOF".toList⟩
      RBRACKET (by decide) (by decide) (by decide) (by decide)).1 (by decide)⟩⟩

/-- C14: in an active parsing-phase state whose stack top is the end marker `"$"`: on an
end-of-input lookahead `step()` pops the marker, sets `isFinished`, stays unlocked and appends one
`"ACCEPTED"` history entry; on any other lookahead it locks with
`"ERROR: Trailing characters found"`, stays unfinished and keeps the stack.  In a state reached
from `reset` nothing lies below the marker, so the pop leaves the stack empty. -/
theorem C14_acceptance_rule (e : ParserEngine) (rest : List Str) (t : Token)
    (hp : Parsing e) (hs : e.pdaStack = "$".toList :: rest)
    (ht : e.tokenStream[e.tokenCursor]? = some t) :
    (t.type = END_TOKEN → ∃ e', e.step = some e' ∧ e'.pdaStack = rest ∧ e'.isFinished = true ∧
      e'.isLocked = false ∧
      e'.history = e.history ++ [⟨t.value, "ACCEPTED".toList, stackString rest⟩]) ∧
    (t.type ≠ END_TOKEN → ∃ e', e.step = some e' ∧ e'.isLocked = true ∧
      e'.statusMessage = "ERROR: Trailing characters found".toList ∧ e'.isFinished = false ∧
      e'.pdaStack = e.pdaStack) ∧
    (∀ (prior : ParserEngine) (text : Str) (n : Nat),
      (prior.reset text).run n = some e → rest = []) := by
  obtain ⟨h1, h2, h3⟩ := hp
  refine ⟨fun hty => ⟨_, step_parsing e _ rest t ⟨h1, h2, h3⟩ hs ht, ?_⟩,
    fun hty => ⟨_, step_parsing e _ rest t ⟨h1, h2, h3⟩ hs ht, ?_⟩, ?_⟩
  · simp [ParserEngine.parseStep, ParserEngine.addLog, ParserEngine.cleared, hty, h1, h2, ht]
  · simp [ParserEngine.parseStep, ParserEngine.addLog, ParserEngine.cleared,
      ParserEngine.triggerError, hty, h3]
  · intro prior text n hr
    obtain ⟨body, b1, b2⟩ := (stackInv_run prior text n e hr).2 h3
    rw [hs] at b1
    cases body with
    | nil => simpa using b1
    | cons x xs =>
      simp only [List.cons_append, List.cons.injEq] at b1
      exact absurd (by rw [← b1.1]; simp) b2

set_option maxRecDepth 100000 in
/-- C14, witness: the state after 77 steps on `"[1,2]+[3,4]"` (stack `$`, lookahead the end of
input) is accepted with an empty stack, and the state after 79 steps on `"[1,2]+[3,4]]"` (stack
`$`, lookahead `]`) locks with the trailing-input error. -/
theorem C14_acceptance_rule_witness :
    (Parsing (stateAfter "[1,2]+[3,4]".toList 77) ∧
      (stateAfter "[1,2]+[3,4]".toList 77).pdaStack = "$".toList :: [] ∧
      ∃ e', (stateAfter "[1,2]+[3,4]".toList 77).step = some e' ∧ e'.pdaStack = [] ∧
        e'.isFinished = true ∧ e'.isLocked = false ∧
        e'.history = (stateAfter "[1,2]+[3,4]".toList 77).history ++
          [⟨"EOF".toList, "ACCEPTED".toList, stackString []⟩]) ∧
    (Parsing (stateAfter "[1,2]+[3,4]]".toList 79) ∧
      (stateAfter "[1,2]+[3,4]]".toList 79).pdaStack = "$".toList :: [] ∧
      ∃ e', (stateAfter "[1,2]+[3,4]]".toList 79).step = some e' ∧ e'.isLocked = true ∧
        e'.statusMessage = "ERROR: Trailing characters found".toList ∧ e'.isFinished = false ∧
        e'.pdaStack = (stateAfter "[1,2]+[3,4]]".toList 79).pdaStack) :=
  ⟨⟨by decide, by decide,
    (C14_acceptance_rule (stateAfter "[1,2]+[3,4]".toList 77) [] ⟨END_TOKEN, "EOF".toList⟩
      (by decide) (by decide) (by decide)).1 rfl⟩,
   ⟨by decide, by decide,
    (C14_acceptance_rule (stateAfter "[1,2]+[3,4]]".toList 79) [] ⟨RBRACKET, "]".toList⟩
      (by decide) (by decide) (by decide)).2.1 (by decide)⟩⟩

/-- C15: in an active parsing-phase state with stack top `"]"`, a closing-bracket lookahead and
an open row body, with `n = currentRowLength`, `step()` returns and its outcome is, in this order:
the error `"Invalid Matrix: 1x1 not allowed"` if `n < 2`; otherwise the dimension-mismatch error
naming `matrix1Cols` and `n` if `matrix1Cols ≠ -1` and `n ≠ matrix1Cols`; otherwise the
row-mismatch error naming `expectedRowLength` and `n` if `expectedRowLength ≠ -1` and
`n ≠ expectedRowLength`; otherwise success, where `expectedRowLength` is `n` afterwards,
`currentRowLength` is `0`, `inRow` is `false`, `matrix1Cols` is kept, the `"]"` is popped and the
cursor advances by one.  Each error outcome locks the engine and keeps the stack, the cursor and
the four counters. -/
theorem C15_row_close_order (e : ParserEngine) (rest : List Str) (t : Token)
    (hp : Parsing e) (hs : e.pdaStack = "]".toList :: rest)
    (ht : e.tokenStream[e.tokenCursor]? = some t) (hty : t.type = RBRACKET)
    (hr : e.inRow = true) :
    ∃ e', e.step = some e' ∧
      (e.currentRowLength < 2 → ErrorOutcome e e' "Invalid Matrix: 1x1 not allowed".toList) ∧
      (2 ≤ e.currentRowLength → e.matrix1Cols ≠ -1 → e.currentRowLength ≠ e.matrix1Cols →
        ErrorOutcome e e' ("Dimension Mismatch! Matrix 1=".toList ++ to_string e.matrix1Cols
          ++ ", Matrix 2=".toList ++ to_string e.currentRowLength)) ∧
      (2 ≤ e.currentRowLength → (e.matrix1Cols = -1 ∨ e.currentRowLength = e.matrix1Cols) →
        e.expectedRowLength ≠ -1 → e.currentRowLength ≠ e.expectedRowLength →
        ErrorOutcome e e' ("Row Mismatch! Exp ".toList ++ to_string e.expectedRowLength
          ++ ", Got ".toList ++ to_string e.currentRowLength)) ∧
      (2 ≤ e.currentRowLength → (e.matrix1Cols = -1 ∨ e.currentRowLength = e.matrix1Cols) →
        (e.expectedRowLength = -1 ∨ e.currentRowLength = e.expectedRowLength) →
        e'.expectedRowLength = e.currentRowLength ∧ e'.currentRowLength = 0 ∧
        e'.inRow = false ∧ e'.matrix1Cols = e.matrix1Cols ∧ e'.pdaStack = rest ∧
        e'.tokenCursor = e.tokenCursor + 1 ∧ e'.isLocked = false) := by
  refine ⟨_, step_parsing e _ rest t hp hs ht, ?_⟩
  have hr' : e.cleared.inRow = true := hr
  rw [parseStep_rbracket _ rest t hty, semanticChecks_rbracket _ hr']
  have c1 : e.cleared.currentRowLength = e.currentRowLength := rfl
  have c2 : e.cleared.matrix1Cols = e.matrix1Cols := rfl
  have c3 : e.cleared.expectedRowLength = e.expectedRowLength := rfl
  rw [c1, c2, c3]
  refine ⟨fun g1 => ?_, fun g1 g2 g3 => ?_, fun g1 g2 g3 g4 => ?_, fun g1 g2 g3 => ?_⟩
  · rw [if_pos g1]
    exact ⟨rfl, rfl, rfl, rfl, rfl, rfl, rfl, rfl⟩
  · rw [if_neg (not_lt.2 g1), if_pos ⟨g2, g3⟩]
    exact ⟨rfl, rfl, rfl, rfl, rfl, rfl, rfl, rfl⟩
  · have n2 : ¬ (e.matrix1Cols ≠ -1 ∧ e.currentRowLength ≠ e.matrix1Cols) := by
      rintro ⟨a, b⟩
      rcases g2 with g2 | g2
      · exact a g2
      · exact b g2
    rw [if_neg (not_lt.2 g1), if_neg n2, if_neg g3, if_pos g4]
    exact ⟨rfl, rfl, rfl, rfl, rfl, rfl, rfl, rfl⟩
  · have n2 : ¬ (e.matrix1Cols ≠ -1 ∧ e.currentRowLength ≠ e.matrix1Cols) := by
      rintro ⟨a, b⟩
      rcases g2 with g2 | g2
      · exact a g2
      · exact b g2
    rw [if_neg (not_lt.2 g1), if_neg n2]
    by_cases g4 : e.expectedRowLength = -1
    · rw [if_pos g4]
      exact ⟨rfl, rfl, rfl, rfl, rfl, rfl, hp.2.1⟩
    · have g5 : e.currentRowLength = e.expectedRowLength := by
        rcases g3 with g3 | g3
        · exact absurd g3 g4
        · exact g3
      rw [if_neg g4, if_neg (not_not.2 g5)]
      exact ⟨g5.symm, rfl, rfl, rfl, rfl, rfl, hp.2.1⟩

set_option maxRecDepth 100000 in
/-- C15, witness: one state for each of the four outcomes, each with `"]"` on top, lookahead `]`
and an open row body: a row of length 1 (`"[1]"`), a right operand of width 3 after a left
operand of width 2 (`"[1,2]+[3,4,5]"`), a second row of length 3 after a first row of length 2
(`"[[1,2],[3,4,5]]"`), and a right operand of width 2 after a left operand of width 2
(`"[1,2]+[3,4]"`). -/
theorem C15_row_close_order_witness :
    (∃ e', (stateAfter "[1]".toList 23).step = some e' ∧
      ErrorOutcome (stateAfter "[1]".toList 23) e' "Invalid Matrix: 1x1 not allowed".toList) ∧
    (∃ e', (stateAfter "[1,2]+[3,4,5]".toList 90).step = some e' ∧
      ErrorOutcome (stateAfter "[1,2]+[3,4,5]".toList 90) e'
        ("Dimension Mismatch! Matrix 1=".toList ++ to_string 2 ++ ", Matrix 2=".toList
          ++ to_string 3)) ∧
    (∃ e', (stateAfter "[[1,2],[3,4,5]]".toList 95).step = some e' ∧
      ErrorOutcome (stateAfter "[[1,2],[3,4,5]]".toList 95) e'
        ("Row Mismatch! Exp ".toList ++ to_string 2 ++ ", Got ".toList ++ to_string 3)) ∧
    (∃ e', (stateAfter "[1,2]+[3,4]".toList 76).step = some e' ∧
      e'.expectedRowLength = 2 ∧ e'.currentRowLength = 0 ∧ e'.inRow = false ∧
      e'.matrix1Cols = 2 ∧ e'.pdaStack = ["$".toList] ∧ e'.tokenCursor = 10 + 1 ∧
      e'.isLocked = false) :=
  ⟨(C15_row_close_order (stateAfter "[1]".toList 23) ["OP".toList, "M".toList, "$".toList]
      ⟨RBRACKET, "]".toList⟩ (by decide) (by decide) (by decide) rfl (by decide)).imp
      (fun _ h => ⟨h.1, h.2.1 (by decide)⟩),
   (C15_row_close_order (stateAfter "[1,2]+[3,4,5]".toList 90) ["$".toList]
      ⟨RBRACKET, "]".toList⟩ (by decide) (by decide) (by decide) rfl (by decide)).imp
      (fun _ h => ⟨h.1, h.2.2.1 (by decide) (by decide) (by decide)⟩),
   (C15_row_close_order (stateAfter "[[1,2],[3,4,5]]".toList 95)
      ["RowTail".toList, "]".toList, "OP".toList, "M".toList, "$".toList]
      ⟨RBRACKET, "]".toList⟩ (by decide) (by decide) (by decide) rfl (by decide)).imp
      (fun _ h => ⟨h.1, h.2.2.2.1 (by decide) (by decide) (by decide) (by decide)⟩),
   (C15_row_close_order (stateAfter "[1,2]+[3,4]".toList 76) ["$".toList]
      ⟨RBRACKET, "]".toList⟩ (by decide) (by decide) (by decide) rfl (by decide)).imp
      (fun _ h => ⟨h.1, h.2.2.2.2 (by decide) (by decide) (by decide)⟩)⟩

/-- C16, as amended: for every active parsing-phase state whose stack top is a non-terminal,
`step()` (an expansion or epsilon step) leaves `expectedRowLength` and `matrix1Cols` unchanged;
it leaves `currentRowLength` and `inRow` unchanged too, except that the expansion of `Inside` on
a `NUMBER` lookahead and the expansion of `Row` on an `LBRACKET` lookahead open a row body
(`inRow` set, `currentRowLength` reset to `0`).  A row body is opened only by these two
expansions, and the step on the terminal `"["` changes none of the four counters. -/
theorem C16_validator_trigger (e : ParserEngine) (X : GSym) (rest : List Str) (t : Token)
    (hp : Parsing e) (hs : e.pdaStack = X.name :: rest)
    (ht : e.tokenStream[e.tokenCursor]? = some t) :
    (∃ e', e.step = some e' ∧ e'.expectedRowLength = e.expectedRowLength ∧
      e'.matrix1Cols = e.matrix1Cols ∧
      (OpensRow X.name t.type → e'.inRow = true ∧ e'.currentRowLength = 0) ∧
      (¬ OpensRow X.name t.type →
        e'.inRow = e.inRow ∧ e'.currentRowLength = e.currentRowLength)) ∧
    (∀ s s', s.step = some s' → s.inRow = false → s'.inRow = true →
      Parsing s ∧ ∃ top rest' t', s.pdaStack = top :: rest' ∧
        s.tokenStream[s.tokenCursor]? = some t' ∧ OpensRow top t'.type ∧
        s'.currentRowLength = 0) ∧
    (∀ (s : ParserEngine) (rest' : List Str) (t' : Token), Parsing s →
      s.pdaStack = "[".toList :: rest' → s.tokenStream[s.tokenCursor]? = some t' →
      ∃ s', s.step = some s' ∧ SameCounters s s') := by
  refine ⟨⟨_, step_parsing e _ rest t hp hs ht, ?_⟩, ?_, ?_⟩
  · cases X
    all_goals simp only [GSym.name, ParserEngine.parseStep, ParserEngine.expand, isTerminal,
      OpensRow]
    all_goals simp
    all_goals try split_ifs
    all_goals simp_all [ParserEngine.pushStack, ParserEngine.addLog, ParserEngine.cleared,
      ParserEngine.triggerError]
  · intro s s' hstep h0 h1
    rcases step_cases s s' hstep with ⟨_, rfl⟩ | ⟨_, _, rfl⟩ | ⟨_, _, rfl⟩ | ⟨hps, top, rest', t', c1, c2, rfl⟩
    · exact absurd (h0.symm.trans h1) (by decide)
    · have := (lexStep_sameParser s.cleared).2.2.2.2.2.1
      exact absurd ((h0.symm.trans this.symm).trans h1) (by decide)
    · exact absurd (h0.symm.trans h1) (by decide)
    · obtain ⟨_, d2, d3⟩ := parseStep_opens s.cleared top rest' t' h0 h1
      exact ⟨hps, top, rest', t', c1, c2, d2, d3⟩
  · intro s rest' t' hps c1 c2
    refine ⟨_, step_parsing s _ rest' t' hps c1 c2, ?_⟩
    simp only [ParserEngine.parseStep, isTerminal, terminalMatches, ParserEngine.semanticChecks,
      SameCounters]
    simp
    split_ifs <;> simp [ParserEngine.addLog, ParserEngine.cleared, ParserEngine.triggerError]

set_option maxRecDepth 100000 in
/-- C16, witness: the state after 53 steps on `"[1,2]+[3,4]"` has `Inside` on top and a `NUMBER`
lookahead; the expansion keeps `expectedRowLength` and `matrix1Cols` and opens the row body. -/
theorem C16_validator_trigger_witness :
    Parsing (stateAfter "[1,2]+[3,4]".toList 53) ∧
    (stateAfter "[1,2]+[3,4]".toList 53).pdaStack
      = GSym.name .Inside :: ["]".toList, "OP".toList, "M".toList, "$".toList] ∧
    ∃ e', (stateAfter "[1,2]+[3,4]".toList 53).step = some e' ∧
      e'.expectedRowLength = (stateAfter "[1,2]+[3,4]".toList 53).expectedRowLength ∧
      e'.matrix1Cols = (stateAfter "[1,2]+[3,4]".toList 53).matrix1Cols ∧
      e'.inRow = true ∧ e'.currentRowLength = 0 :=
  ⟨by decide, by decide,
    (C16_validator_trigger (stateAfter "[1,2]+[3,4]".toList 53) .Inside
      ["]".toList, "OP".toList, "M".toList, "$".toList] ⟨NUMBER, "1".toList⟩
      (by decide) (by decide) (by decide)).1.imp
      (fun _ h => ⟨h.1, h.2.1, h.2.2.1, h.2.2.2.1 (by decide)⟩)⟩

set_option maxRecDepth 100000 in
/-- Counterexample to C16 as stated, on `"[1,2]+[3,4]"`: the state after 52 steps has the
row-opening `"["` on top, and the step that matches it leaves `inRow = false`; the state it
yields has the non-terminal `Inside` on top, and the expansion step from it changes `inRow` from
`false` to `true`. -/
theorem C16_counterexample :
    ∃ e0 e e', (ParserEngine.new.reset "[1,2]+[3,4]".toList).run 52 = some e0 ∧ Parsing e0 ∧
      e0.pdaStack = "[".toList ::
        [GSym.name .Inside, "]".toList, "OP".toList, "M".toList, "$".toList] ∧
      e0.tokenStream[e0.tokenCursor]? = some ⟨LBRACKET, "[".toList⟩ ∧
      e0.inRow = false ∧ e0.step = some e ∧
      Parsing e ∧ e.tokenCursor = e0.tokenCursor + 1 ∧ e.inRow = false ∧
      e.pdaStack = GSym.name .Inside :: ["]".toList, "OP".toList, "M".toList, "$".toList] ∧
      e.step = some e' ∧ e'.inRow = true ∧ e'.inRow ≠ e.inRow := by
  obtain ⟨e0, h1, h2⟩ := run_eval (ParserEngine.new.reset "[1,2]+[3,4]".toList) 52
    (fun e => (decide (Parsing e), e.pdaStack, e.tokenStream[e.tokenCursor]?, e.inRow,
      e.tokenCursor))
    (true, ["[".toList, "Inside".toList, "]".toList, "OP".toList, "M".toList, "$".toList],
      some ⟨LBRACKET, "[".toList⟩, false, 0) (by decide)
  obtain ⟨e, g1, g2⟩ := run_eval (ParserEngine.new.reset "[1,2]+[3,4]".toList) (52 + 1)
    (fun e => (decide (Parsing e), e.tokenCursor, e.inRow, e.pdaStack,
      e.step.map ParserEngine.inRow))
    (true, 1, false, ["Inside".toList, "]".toList, "OP".toList, "M".toList, "$".toList],
      some true) rfl
  simp only [Prod.mk.injEq, decide_eq_true_eq] at h2 g2
  obtain ⟨a1, a2, a3, a4, a5⟩ := h2
  obtain ⟨b1, b2, b3, b4, b5⟩ := g2
  have hs : e0.step = some e := by
    rw [run_add, h1] at g1
    simpa [ParserEngine.run] using g1
  cases hs' : e.step with
  | none => rw [hs'] at b5; cases b5
  | some e' =>
    rw [hs'] at b5
    simp only [Option.map_some', Option.some.injEq] at b5
    exact ⟨e0, e, e', h1, a1, a2, a3, a4, hs, b1, by rw [b2, a5], b3, b4, hs', b5,
      by rw [b5, b3]; decide⟩

/-- C17: along the run `reset(text); step(); step(); ...` every step is defined, and the step
from the state after `i` calls changes `matrix1Cols` exactly when it matches an operator terminal
(`+`, `-` or `*`) while `expectedRowLength ≠ -1`; the new `matrix1Cols` is then the
`expectedRowLength` held before the step, and after it `expectedRowLength = -1`,
`currentRowLength = 0` and `inRow = false`.  At most one step of the run changes
`matrix1Cols`. -/
theorem C17_matrix1Cols_written_once (prior : ParserEngine) (text : Str) :
    (∀ i, ∃ e e', (prior.reset text).run i = some e ∧ e.step = some e' ∧
      (prior.reset text).run (i + 1) = some e' ∧
      (e'.matrix1Cols ≠ e.matrix1Cols ↔ (OperatorMatch e ∧ e.expectedRowLength ≠ -1)) ∧
      (e'.matrix1Cols ≠ e.matrix1Cols → e'.matrix1Cols = e.expectedRowLength ∧
        e'.expectedRowLength = -1 ∧ e'.currentRowLength = 0 ∧ e'.inRow = false)) ∧
    (∀ i j ei ei' ej ej', (prior.reset text).run i = some ei → ei.step = some ei' →
      (prior.reset text).run j = some ej → ej.step = some ej' →
      ei'.matrix1Cols ≠ ei.matrix1Cols → ej'.matrix1Cols ≠ ej.matrix1Cols → i = j) := by
  constructor
  · intro i
    obtain ⟨e', h'⟩ := run_total prior text (i + 1)
    obtain ⟨e, h⟩ := run_total prior text i
    have hs : e.step = some e' := by
      rw [run_add, h] at h'
      cases hc : e.step with
      | none => simp [ParserEngine.run, hc] at h'
      | some x => simpa [ParserEngine.run, hc] using h'
    refine ⟨e, e', h, hs, h', ⟨step_m1 e e' hs, fun hm => ?_⟩, fun hc => ?_⟩
    · obtain ⟨b1, _, _, _, b5⟩ := step_operator e e' hs hm.1
      have b6 := (operatorInv_run prior text i e h).2
      have b7 : e.matrix1Cols = -1 := by
        by_contra hne
        have := b6 hne
        omega
      rw [b5 hm.2, b7]
      exact hm.2
    · obtain ⟨c1, c2⟩ := step_m1 e e' hs hc
      obtain ⟨_, b2, b3, b4, b5⟩ := step_operator e e' hs c1
      exact ⟨b5 c2, b2, b3, b4⟩
  · intro i j ei ei' ej ej' hi hi' hj hj' ci cj
    exact Nat.le_antisymm (m1_change_order prior text j i ej ej' ei ei' hj hj' hi hi' cj ci)
      (m1_change_order prior text i j ei ei' ej ej' hi hi' hj hj' ci cj)

set_option maxRecDepth 100000 in
/-- C17, witness: on `"[1,2]+[3,4]"` the step from the state after 63 calls matches `+` with
`expectedRowLength = 2`: it changes `matrix1Cols` from `-1` to `2` and resets the other
counters. -/
theorem C17_matrix1Cols_written_once_witness :
    ∃ e e', (ParserEngine.new.reset "[1,2]+[3,4]".toList).run 63 = some e ∧ e.step = some e' ∧
      OperatorMatch e ∧ e.expectedRowLength = 2 ∧ e.matrix1Cols = -1 ∧
      e'.matrix1Cols = 2 ∧ e'.expectedRowLength = -1 ∧ e'.currentRowLength = 0 ∧
      e'.inRow = false := by
  obtain ⟨e, e', h1, h2, h3, h4, h5⟩ :=
    (C17_matrix1Cols_written_once ParserEngine.new "[1,2]+[3,4]".toList).1 63
  obtain ⟨x, g1, g2⟩ := run_eval (ParserEngine.new.reset "[1,2]+[3,4]".toList) 63
    (fun e => (e.expectedRowLength, e.matrix1Cols, e.step.map ParserEngine.matrix1Cols))
    (2, -1, some 2) rfl
  rw [h1] at g1
  cases g1
  simp only [Prod.mk.injEq, h2, Option.map_some', Option.some.injEq] at g2
  obtain ⟨a1, a2, a3⟩ := g2
  have hne : e'.matrix1Cols ≠ e.matrix1Cols := by rw [a2, a3]; decide
  obtain ⟨b1, b2, b3, b4⟩ := h5 hne
  exact ⟨e, e', h1, h2, (h4.1 hne).1, a1, a2, a3, b2, b3, b4⟩

/-- C18: every number of `step()` calls after `reset(text)` yields a state; in it the stack is
empty if and only if `isFinished = true`, and in every state that is not finished the stack is
non-empty, its bottom element is the end marker `"$"`, and `"$"` occurs nowhere else in it. -/
theorem C18_stack_invariant (prior : ParserEngine) (text : Str) (n : Nat) :
    ∃ e, (prior.reset text).run n = some e ∧
      (e.pdaStack = [] ↔ e.isFinished = true) ∧
      (e.isFinished = false → e.pdaStack ≠ [] ∧
        ∃ body, e.pdaStack = body ++ ["$".toList] ∧ "$".toList ∉ body) := by
  obtain ⟨e, h⟩ := run_total prior text n
  obtain ⟨a1, a2⟩ := stackInv_run prior text n e h
  refine ⟨e, h, ⟨fun hs => ?_, a1⟩, fun hf => ?_⟩
  · cases hf : e.isFinished with
    | true => rfl
    | false =>
      obtain ⟨body, b1, _⟩ := a2 hf
      rw [hs] at b1
      simp at b1
  · obtain ⟨body, b1, b2⟩ := a2 hf
    exact ⟨by rw [b1]; simp, body, b1, b2⟩

set_option maxRecDepth 100000 in
/-- C18, witness: the state after 60 steps on `"[1,2]+[3,4]"` is not finished, and its stack is
non-empty with the end marker at the bottom and nowhere else; the state after 78 steps is
finished and its stack is empty. -/
theorem C18_stack_invariant_witness :
    (∃ e, (ParserEngine.new.reset "[1,2]+[3,4]".toList).run 60 = some e ∧
      e.isFinished = false ∧ e.pdaStack ≠ [] ∧
      ∃ body, e.pdaStack = body ++ ["$".toList] ∧ "$".toList ∉ body) ∧
    (∃ e, (ParserEngine.new.reset "[1,2]+[3,4]".toList).run 78 = some e ∧
      e.isFinished = true ∧ e.pdaStack = []) := by
  obtain ⟨e, h1, _, h3⟩ := C18_stack_invariant ParserEngine.new "[1,2]+[3,4]".toList 60
  obtain ⟨x, g1, g2⟩ := run_eval (ParserEngine.new.reset "[1,2]+[3,4]".toList) 60
    (fun e => e.isFinished) false rfl
  rw [h1] at g1
  cases g1
  obtain ⟨e2, k1, k2, _⟩ := C18_stack_invariant ParserEngine.new "[1,2]+[3,4]".toList 78
  obtain ⟨y, j1, j2⟩ := run_eval (ParserEngine.new.reset "[1,2]+[3,4]".toList) 78
    (fun e => e.isFinished) true rfl
  rw [k1] at j1
  cases j1
  exact ⟨⟨e, h1, g2, (h3 g2).1, (h3 g2).2⟩, ⟨e2, k1, j2, k2.2 j2⟩⟩

/-- C19: from a lexer in mode `MODE_NONE` with an empty ready slot, not finished, whose input
from its position on is optional white space and then a maximal run of `n ≥ 1` digits, `4n + 3`
calls of `Lexer::step` produce the token: one call made in mode `MODE_NONE` (entering
`MODE_NFA`), then `3n + 1` calls made in mode `MODE_NFA`, then `n + 1` calls made in mode
`MODE_DFA`.  The first `4n + 2` calls return `true` and leave the ready slot empty; the last
returns `false` with the `NUMBER` token of the digit run in the ready slot, the mode back to
`MODE_NONE` and the position just past the run. -/
theorem C19_number_micro_steps (l : Lexer) (pre ws : Str) (d : Char) (ds rest : Str)
    (h : LexIdle l (pre ++ (ws ++ (d :: ds ++ rest))) pre.length)
    (hws : ∀ x ∈ ws, isspace x = true) (hd : ∀ c ∈ d :: ds, isdigit c = true)
    (hr : NoDigitAhead rest) :
    ∃ l1 l2 l3, l.stepsIn MODE_NONE 1 = some l1 ∧
      l1.stepsIn MODE_NFA (3 * (d :: ds).length + 1) = some l2 ∧
      l2.stepsIn MODE_DFA (d :: ds).length = some l3 ∧
      l.stepsBusy (4 * (d :: ds).length + 2) = some l3 ∧
      l3.mode = MODE_DFA ∧ l3.readyToken = noToken ∧ l3.step.1 = false ∧
      l3.step.2.readyToken = ⟨NUMBER, d :: ds⟩ ∧ l3.step.2.mode = MODE_NONE ∧
      l3.step.2.pos = pre.length + ws.length + (d :: ds).length ∧
      l3.step.2.input = l.input ∧ l3.step.2.finished = false := by
  have hdd : isdigit d = true := hd d (by simp)
  obtain ⟨a1, a2⟩ := idle_digit l pre ws d (ds ++ rest) h hws hdd
  have a3 : LexNfa l.step.2 ((pre ++ ws) ++ d :: (ds ++ rest)) (pre ++ ws).length [] 0 := by
    simpa using a2
  obtain ⟨b1, b2⟩ := nfa0 _ (pre ++ ws) d (ds ++ rest) [] a3
  obtain ⟨c1, c2⟩ := nfa1 _ _ _ _ b2
  have c3 : LexNfa l.step.2.step.2.step.2 ((pre ++ ws ++ [d]) ++ (ds ++ rest))
      (pre ++ ws ++ [d]).length [d] 2 := by simpa using c2
  obtain ⟨l1, e1, e2⟩ := nfa_stepsIn ds _ (pre ++ ws ++ [d]) rest [d] c3
    (fun c hc => hd c (by simp [hc])) hr
  obtain ⟨f1, f2⟩ := nfa5 _ _ _ _ e2
  obtain ⟨g1, g2⟩ := dfa_start _ _ _ _ f2 (by simp)
  obtain ⟨l2, i1, i2⟩ := dfa_stepsIn ds.length _ _ _ _ 1 g2 (by simp; omega)
  obtain ⟨j1, j2⟩ := dfa_emit _ _ _ _ i2
  have s1 : l.stepsIn MODE_NONE 1 = some l.step.2 := by
    rw [stepsIn_succ _ l 0 h.2.2.1 a1 a2.2.2.2.2.2.1]; rfl
  have s2 : l.step.2.stepsIn MODE_NFA (3 * (d :: ds).length + 1) = some l1.step.2 := by
    have : 3 * (d :: ds).length + 1 = ((0 + 1) + (3 * ds.length + 1)) + 1 + 1 := by
      simp only [List.length_cons]; omega
    rw [this, stepsIn_succ _ _ _ a3.2.2.1 b1 b2.2.2.2.2.2.1,
      stepsIn_succ _ _ _ b2.2.2.1 c1 c2.2.2.2.2.2.1, Nat.add_comm _ (3 * ds.length + 1),
      stepsIn_add, e1, Option.some_bind, stepsIn_succ _ _ _ e2.2.2.1 f1 f2.2.2.2.2.2.2.1]
    rfl
  have s3 : l1.step.2.stepsIn MODE_DFA (d :: ds).length = some l2 := by
    have : (d :: ds).length = ds.length + 1 := rfl
    rw [this, stepsIn_succ _ _ _ f2.2.2.1 g1 g2.2.2.2.2.2.2.1, i1]
  refine ⟨_, _, l2, s1, s2, s3, ?_, i2.2.2.1, i2.2.2.2.2.2.2.1, j1, j2.2.2.2.1, j2.2.2.1, ?_,
    ?_, j2.2.2.2.2⟩
  · have : 4 * (d :: ds).length + 2
        = 1 + ((3 * (d :: ds).length + 1) + (d :: ds).length) := by
      simp only [List.length_cons]; omega
    rw [this, stepsBusy_add, stepsIn_busy _ _ _ _ s1, Option.some_bind, stepsBusy_add,
      stepsIn_busy _ _ _ _ s2, Option.some_bind, stepsIn_busy _ _ _ _ s3]
  · rw [j2.2.1]
    simp only [List.length_cons, List.length_append, List.length_nil]
    omega
  · rw [j2.1, h.1]
    simp

/-- C19, witness: the lexer at position 1 of `"[ 12,"`, in front of a blank and the digit run
`12`: 1 + 7 + 3 = 11 calls, the last of which puts the token `12` into the ready slot at
position 4. -/
theorem C19_number_micro_steps_witness :
    ∃ l1 l2 l3,
      Lexer.stepsIn MODE_NONE 1 { Lexer.new.init "[ 12,".toList with pos := 1 } = some l1 ∧
      l1.stepsIn MODE_NFA 7 = some l2 ∧ l2.stepsIn MODE_DFA 2 = some l3 ∧
      Lexer.stepsBusy 10 { Lexer.new.init "[ 12,".toList with pos := 1 } = some l3 ∧
      l3.mode = MODE_DFA ∧ l3.readyToken = noToken ∧ l3.step.1 = false ∧
      l3.step.2.readyToken = ⟨NUMBER, "12".toList⟩ ∧ l3.step.2.mode = MODE_NONE ∧
      l3.step.2.pos = 4 ∧ l3.step.2.input = "[ 12,".toList ∧ l3.step.2.finished = false :=
  C19_number_micro_steps { Lexer.new.init "[ 12,".toList with pos := 1 }
    ['['] [' '] '1' ['2'] [','] ⟨rfl, rfl, rfl, rfl, rfl⟩ (by decide) (by decide)
    (by intro c cs h; cases h; decide)

/-- C20: every number `n` of `step()` calls after `reset(text)` yields a state, and if that state
has `lexingPhase = false` then its token stream is non-empty, the last token is the only one of
type `END_TOKEN`, and `tokenCursor` is below the length of the token stream, so that the
lookahead `tokenStream[tokenCursor]` exists; hence no call of `step()` reads out of range and the
next call returns too. -/
theorem C20_lookahead_in_bounds (prior : ParserEngine) (text : Str) (n : Nat) :
    ∃ e, (prior.reset text).run n = some e ∧
      (e.lexingPhase = false →
        e.tokenStream ≠ [] ∧
        (∃ body last, e.tokenStream = body ++ [last] ∧ last.type = END_TOKEN ∧
          ∀ t ∈ body, t.type ≠ END_TOKEN) ∧
        e.tokenCursor < e.tokenStream.length ∧
        ∃ t, e.tokenStream[e.tokenCursor]? = some t) ∧
      ReadInRange e ∧ ∃ e', e.step = some e' := by
  obtain ⟨e0, a0, e, a1, a2⟩ := run_defined prior text n
  have key : e.lexingPhase = false →
      e.tokenStream = tokenize text ∧ e.tokenCursor < e.tokenStream.length := by
    intro hp
    have hts := parsing_tokenStream prior text n e a1 hp
    refine ⟨hts, ?_⟩
    rcases a2 with ⟨m, hm⟩ | hinv
    · have h1 := run_cursor_le e e0 m hm
      have h2 : e0.tokenCursor = 0 := a0.2.2.2.2.2.1
      rw [hts]
      simp only [tokenize, List.length_append, List.length_singleton]
      omega
    · rw [hts]
      exact hinv.2.2.1
  have hread : ReadInRange e := by
    cases hp : e.lexingPhase with
    | true => exact Or.inr (Or.inr (Or.inl hp))
    | false => exact Or.inr (Or.inr (Or.inr (Or.inr (key hp).2)))
  refine ⟨e, a1, fun hp => ?_, hread, step_defined e hread⟩
  obtain ⟨k1, k2⟩ := key hp
  refine ⟨?_, ?_, k2, ⟨e.tokenStream[e.tokenCursor], List.getElem?_eq_getElem k2⟩⟩
  · rw [k1, tokenize]; simp
  · obtain ⟨body, b1, b2⟩ := tokenize_endsOnce text
    exact ⟨body, eofToken, by rw [k1, b1], rfl, b2⟩

set_option maxRecDepth 100000 in
/-- C20, witness: the state after 60 steps on `"[1,2]+[3,4]"` is in the parsing phase; its token
stream ends in its only end-of-input token and the cursor is in range. -/
theorem C20_lookahead_in_bounds_witness :
    ∃ e, (ParserEngine.new.reset "[1,2]+[3,4]".toList).run 60 = some e ∧
      e.lexingPhase = false ∧ e.tokenStream ≠ [] ∧
      (∃ body last, e.tokenStream = body ++ [last] ∧ last.type = END_TOKEN ∧
        ∀ t ∈ body, t.type ≠ END_TOKEN) ∧
      e.tokenCursor < e.tokenStream.length ∧
      (∃ t, e.tokenStream[e.tokenCursor]? = some t) ∧ ∃ e', e.step = some e' := by
  obtain ⟨e, h1, h2, _, h4⟩ :=
    C20_lookahead_in_bounds ParserEngine.new "[1,2]+[3,4]".toList 60
  obtain ⟨x, g1, g2⟩ := run_eval (ParserEngine.new.reset "[1,2]+[3,4]".toList) 60
    (fun e => e.lexingPhase) false rfl
  rw [h1] at g1
  cases g1
  obtain ⟨a1, a2, a3, a4⟩ := h2 g2
  exact ⟨e, h1, g2, a1, a2, a3, a4, h4⟩

/-- C21: for every input text there is an `n` such that `reset(text)` followed by `n` calls of
`step()` yields a state with `isLocked = true` or `isFinished = true`, and every longer run
yields such a state too; the lexing phase is over after some `k ≤ n` calls. -/
theorem C21_every_run_halts (prior : ParserEngine) (text : Str) :
    ∃ n e, (prior.reset text).run n = some e ∧ (e.isLocked = true ∨ e.isFinished = true) ∧
      (∃ k e0, k ≤ n ∧ (prior.reset text).run k = some e0 ∧ e0.lexingPhase = false) ∧
      ∀ m, n ≤ m → ∃ e', (prior.reset text).run m = some e' ∧
        (e'.isLocked = true ∨ e'.isFinished = true) := by
  obtain ⟨k, e0, a1, a2⟩ := reset_lexes prior text
  have hE := tokenize_endsOnce text
  have hinv := startConf_parseInv _ e0 hE a2
  have hstk := stackInv_run prior text k e0 a1
  obtain ⟨n, e, b1, b2⟩ := parse_halts _ hE _ _ e0 hinv hstk (le_refl _) (le_refl _)
  have hrun : (prior.reset text).run (k + n) = some e := by
    rw [run_add, a1, Option.some_bind, b1]
  refine ⟨k + n, e, hrun, b2, ⟨k, e0, Nat.le_add_right _ _, a1, a2.1⟩, fun m hm => ?_⟩
  obtain ⟨d, rfl⟩ := Nat.exists_eq_add_of_le hm
  rw [run_add, hrun, Option.some_bind]
  rcases run_halted_cases e b2 d with hd | hd
  · exact ⟨e, hd, b2⟩
  · exact ⟨e.cleared, hd, b2⟩

set_option maxRecDepth 100000 in
/-- C21, witness instances: the run on `"[1,2]+[3,4]"` has halted (finished) after 78 calls and
the run on `"[1,2"` has halted (locked) after 36 calls. -/
theorem C21_every_run_halts_witness :
    (∃ n e, (ParserEngine.new.reset "[1,2]+[3,4]".toList).run n = some e ∧
      (e.isLocked = true ∨ e.isFinished = true)) ∧
    (∃ e, (ParserEngine.new.reset "[1,2]+[3,4]".toList).run 78 = some e ∧
      e.isLocked = false ∧ e.isFinished = true) ∧
    (∃ e, (ParserEngine.new.reset "[1,2".toList).run 36 = some e ∧
      e.isLocked = true ∧ e.isFinished = false) := by
  obtain ⟨n, e, h1, h2, _⟩ := C21_every_run_halts ParserEngine.new "[1,2]+[3,4]".toList
  obtain ⟨x, g1, g2⟩ := run_eval (ParserEngine.new.reset "[1,2]+[3,4]".toList) 78
    (fun e => (e.isLocked, e.isFinished)) (false, true) rfl
  obtain ⟨y, j1, j2⟩ := run_eval (ParserEngine.new.reset "[1,2".toList) 36
    (fun e => (e.isLocked, e.isFinished)) (true, false) rfl
  simp only [Prod.mk.injEq] at g2 j2
  exact ⟨⟨n, e, h1, h2⟩, ⟨x, g1, g2.1, g2.2⟩, ⟨y, j1, j2.1, j2.2⟩⟩

/-- C22: every number `n` of `step()` calls after `reset(text)` yields a state in which
`expectedRowLength` is `-1` or at least `2`, `matrix1Cols` is `-1` or at least `2`, and the two
are equal whenever both differ from `-1`.  Consequently, in a reachable state with
`matrix1Cols ≠ -1` the guard of the row-mismatch rule is false whenever the dimension rule
passes, its status message does not report a row mismatch, and neither does the status message
after the step from it; and a reachable state with `isFinished = true` has
`matrix1Cols ≥ 2`. -/
theorem C22_width_agreement (prior : ParserEngine) (text : Str) :
    (∀ n, ∃ e, (prior.reset text).run n = some e ∧
      (e.expectedRowLength = -1 ∨ 2 ≤ e.expectedRowLength) ∧
      (e.matrix1Cols = -1 ∨ 2 ≤ e.matrix1Cols) ∧
      (e.expectedRowLength ≠ -1 → e.matrix1Cols ≠ -1 →
        e.expectedRowLength = e.matrix1Cols)) ∧
    (∀ n e, (prior.reset text).run n = some e → e.matrix1Cols ≠ -1 →
      ¬ (¬ (e.matrix1Cols ≠ -1 ∧ e.currentRowLength ≠ e.matrix1Cols) ∧
          e.expectedRowLength ≠ -1 ∧ e.currentRowLength ≠ e.expectedRowLength) ∧
      ¬ RowMismatchReported e ∧
      ∀ e', e.step = some e' → ¬ RowMismatchReported e') ∧
    (∀ n e, (prior.reset text).run n = some e → e.isFinished = true →
      2 ≤ e.matrix1Cols) := by
  refine ⟨fun n => ?_, fun n e h hm => ⟨?_, ?_, ?_⟩, fun n e h hf => ?_⟩
  · obtain ⟨e, h⟩ := run_total prior text n
    exact ⟨e, h, widthInv_run prior text n e h⟩
  · rintro ⟨k3, k4, k5⟩
    have heq := (widthInv_run prior text n e h).2.2 k4 hm
    exact k3 ⟨hm, fun hc => k5 (hc.trans heq.symm)⟩
  · intro hr
    exact hm (mismatchInv_run prior text n e h hr).2
  · intro e' hs hr
    have hrun : (prior.reset text).run (n + 1) = some e' := by
      rw [run_add, h]
      simp [ParserEngine.run, hs]
    have hm' := (mismatchInv_run prior text (n + 1) e' hrun hr).2
    have hne : e'.matrix1Cols ≠ e.matrix1Cols := by rw [hm']; exact fun hc => hm hc.symm
    obtain ⟨c1, c2⟩ := step_m1 e e' hs hne
    have := (step_operator e e' hs c1).2.2.2.2 c2
    rw [hm'] at this
    exact c2 this.symm
  · have hl := finished_unlocked_run prior text n e h hf
    have hstk := (stackInv_run prior text n e h).1 hf
    have hw := (widthInv_run prior text n e h).2.1
    have hne : e.matrix1Cols ≠ -1 := by
      intro hm
      have := (operandInv_run prior text n e h hl hm).1
      rw [hstk] at this
      exact absurd this (by decide)
    rcases hw with hw | hw
    · exact absurd hw hne
    · exact hw

set_option maxRecDepth 100000 in
/-- C22, witness: the run on `"[1,2]+[3,4]"` is finished after 78 calls with
`matrix1Cols = 2`; in the state after 90 calls on `"[1,2]+[3,4,5]"` (`matrix1Cols = 2`, a row of
length 3 about to be closed) the step locks the engine and the status message does not report a
row mismatch. -/
theorem C22_width_agreement_witness :
    (∃ e, (ParserEngine.new.reset "[1,2]+[3,4]".toList).run 78 = some e ∧
      e.isFinished = true ∧ 2 ≤ e.matrix1Cols) ∧
    (∃ e e', (ParserEngine.new.reset "[1,2]+[3,4,5]".toList).run 90 = some e ∧
      e.matrix1Cols = 2 ∧ e.currentRowLength = 3 ∧ e.step = some e' ∧ e'.isLocked = true ∧
      ¬ RowMismatchReported e') := by
  obtain ⟨x, g1, g2⟩ := run_eval (ParserEngine.new.reset "[1,2]+[3,4]".toList) 78
    (fun e => e.isFinished) true rfl
  obtain ⟨y, j1, j2⟩ := run_eval (ParserEngine.new.reset "[1,2]+[3,4,5]".toList) 90
    (fun e => (e.matrix1Cols, e.currentRowLength, e.step.map ParserEngine.isLocked))
    (2, 3, some true) rfl
  simp only [Prod.mk.injEq] at j2
  obtain ⟨k1, k2, k3⟩ := j2
  cases hs : y.step with
  | none => rw [hs] at k3; cases k3
  | some y' =>
    rw [hs] at k3
    simp only [Option.map_some', Option.some.injEq] at k3
    exact ⟨⟨x, g1, g2,
        (C22_width_agreement ParserEngine.new "[1,2]+[3,4]".toList).2.2 78 x g1 g2⟩,
      ⟨y, y', j1, k1, k2, hs, k3,
        ((C22_width_agreement ParserEngine.new "[1,2]+[3,4,5]".toList).2.1 90 y j1
          (by rw [k1]; decide)).2.2 y' hs⟩⟩

end MatrixAutomation
